import Mathlib

/-! my-pinia: a verification development of the store-registry engine.

Shallow embedding of `packages/my-pinia/src/pinia` (`defineStore.js`, `subscribe.js`,
`createPinia.js`).

Modelling conventions:

* A JavaScript value held in a state slice is a finite tree `JsVal`.  An object is a list of
  own enumerable properties in enumeration order (`Fields`); an array is the object whose keys
  are its indices.  Reading an absent key yields `undefined`, as `source[key]` does for a plain
  data object whose key does not name a member of `Object.prototype`.
* In-place mutation of an object becomes explicit state passing: a function that mutates its
  first argument returns the mutated object.  Target and source of a merge are separate trees
  (no aliasing between them).
* Reference identity of heap objects (store instances) is an address `Nat`.
* A Number is an integer-valued double, NaN or an infinity; `-0` is `0`, and `num n` for an
  integer `n` that no double holds, such as `2^53 + 1`, stands for no value of the program.
  Arithmetic rounds as IEEE-754 does.  Fractional numbers are not values of the model: the
  operations of the code, `+ 1` and `* 2`, never produce one from a value of the model.  A
  string operand of
  arithmetic is read as a number when it is empty, a signed decimal integer literal or a
  signed `Infinity`; in any other form (white space, fraction, exponent, radix prefix) it is
  outside the model and reads as NaN.  An object operand of arithmetic is taken to be a
  plain object, which converts to NaN, not an array.
* Inside the closures the builder defines itself (the `$state` setter, `$reset`) and in its
  plugin loop, `store.$patch` is the builder's `$patch`; what a bundle that rebinds a contract
  member does to the store is treated with the assembly of the members.  Member names of
  bundles and of plugin mappings are taken to differ from `$state`, whose assignment goes
  through the accessor.
-/

namespace MyPinia

/-! ## Part 1. Definitions -/

/-! ### JavaScript values -/

mutual
/-- A JavaScript value stored in a state tree. -/
inductive JsVal where
  | undefined
  | null
  | bool (b : Bool)
  | num (n : Int)
  | nan
  | inf (negative : Bool)
  | str (s : String)
  | obj (fields : Fields)
  deriving DecidableEq
/-- Own enumerable properties of an object, in enumeration order. -/
inductive Fields where
  | nil
  | cons (key : String) (value : JsVal) (rest : Fields)
  deriving DecidableEq
end

namespace Fields

/-- Property read `o[key]`: the value of the first property named `key`, else `undefined`. -/
def get (key : String) : Fields → JsVal
  | .nil => .undefined
  | .cons k v rest => if k = key then v else get key rest

/-- The keys enumerated by `for (const key in o)`. -/
def keys : Fields → List String
  | .nil => []
  | .cons k _ rest => k :: keys rest

/-- Property write `o[key] = value`: replaces the value of an existing property, otherwise
appends a new property at the end of the enumeration order. -/
def set (key : String) (value : JsVal) : Fields → Fields
  | .nil => .cons key value .nil
  | .cons k v rest => if k = key then .cons k value rest else .cons k v (set key value rest)

end Fields

namespace JsVal

/-- The `typeof` operator. -/
def typeof : JsVal → String
  | .undefined => "undefined"
  | .null => "object"
  | .bool _ => "boolean"
  | .num _ => "number"
  | .nan => "number"
  | .inf _ => "number"
  | .str _ => "string"
  | .obj _ => "object"

/-- The properties of an object value; a non-object has none. -/
def fields : JsVal → Fields
  | .obj o => o
  | _ => .nil

/-- Nested property read `v[k₁][k₂]…`; reading through a non-object yields `undefined`. -/
def getPath : List String → JsVal → JsVal
  | [], v => v
  | k :: p, .obj o => getPath p (o.get k)
  | _ :: _, _ => .undefined

end JsVal

mutual
/-- An object is well formed when no key occurs twice, at every depth. -/
def Fields.wf : Fields → Bool
  | .nil => true
  | .cons k v rest => decide (k ∉ rest.keys) && v.wf && rest.wf
/-- A value is well formed when every object in it is. -/
def JsVal.wf : JsVal → Bool
  | .obj o => o.wf
  | _ => true
end

/-- `isObject(value)`: `value !== null && typeof value === 'object'` (defineStore.js:20). -/
def isObject (value : JsVal) : Bool :=
  decide (value ≠ JsVal.null) && decide (value.typeof = "object")

/-! ### The merge algorithm (defineStore.js:24-35) -/

mutual
/-- `mergeReactiveObject(target, source)`: for every key of `target`, with
`oldValue = target[key]` and `newValue = source[key]`, run the loop body `resultAt`.
Returns the mutated target. -/
def mergeReactiveObject : Fields → Fields → Fields
  | .nil, _ => .nil
  | .cons key oldValue rest, source =>
    .cons key (resultAt oldValue (source.get key)) (mergeReactiveObject rest source)
/-- The loop body of `mergeReactiveObject`, giving the value left at `target[key]`:
`if (isObject(oldValue) && isObject(newValue)) mergeReactiveObject(oldValue, newValue)`
(the old object, mutated), `else target[key] = newValue`. -/
def resultAt : JsVal → JsVal → JsVal
  | .obj o, .obj n => .obj (mergeReactiveObject o n)
  | _, newValue => newValue
end

/-- The argument of `$patch`: an object (mapping form) or a function (mutator form). -/
inductive PatchArg where
  | mapping (partialState : Fields)
  | mutator (f : Fields → Fields)

/-- `$patch(partialStateOrMutatior)` on the slice `pinia.state.value[id]`
(defineStore.js:119-125). -/
def patch (slice : Fields) : PatchArg → Fields
  | .mapping partialState => mergeReactiveObject slice partialState
  | .mutator f => f slice

/-- Whether the merge of `source` into `target` recurses into the nested object at `path`:
at every step both the target's and the source's value are objects. -/
def recursesInto : Fields → Fields → List String → Bool
  | _, _, [] => true
  | target, source, k :: p =>
    match target.get k, source.get k with
    | .obj o, .obj n => recursesInto o n p
    | _, _ => false

/-- Reference definition of `patch(target, partial)` in the words of the specification,
relating the target's value, the partial's value and the result at one key: when both are
non-null objects the result is an object with the target's keys whose value at every key of
the target is again given by this rule (recursive merge); otherwise the result is exactly the
partial's value. -/
inductive PatchSpec : JsVal → JsVal → JsVal → Prop where
  | recurse (t s r : Fields) :
      r.keys = t.keys →
      (∀ k, k ∈ t.keys → PatchSpec (t.get k) (s.get k) (r.get k)) →
      PatchSpec (.obj t) (.obj s) (.obj r)
  | overwrite (oldValue newValue : JsVal) :
      ¬ (isObject oldValue = true ∧ isObject newValue = true) →
      PatchSpec oldValue newValue newValue

/-- Slice `{a: {b: 0, c: 5}}`. -/
def sliceABC : Fields :=
  .cons "a" (.obj (.cons "b" (.num 0) (.cons "c" (.num 5) .nil))) .nil

/-- Partial state `{a: {b: 1}}`. -/
def partialAB1 : Fields :=
  .cons "a" (.obj (.cons "b" (.num 1) .nil)) .nil

/-! ### Subscription lists (subscribe.js) -/

/-- Identity of a callback function object: `indexOf` compares callbacks by identity. -/
abbrev Callback := Nat

/-- `subscriptions.indexOf(callback)`: the first index holding `callback`, `-1` when there is
none. -/
def indexOf : List Callback → Callback → Int
  | [], _ => -1
  | c :: rest, callback =>
    if c = callback then 0
    else if indexOf rest callback > -1 then indexOf rest callback + 1 else -1

/-- `subscriptions.splice(index, 1)`: deletes the element at `index`. -/
def splice1 : List Callback → Nat → List Callback
  | [], _ => []
  | _ :: rest, 0 => rest
  | c :: rest, index + 1 => c :: splice1 rest index

/-- `addSubScription(subscriptions, callback)` (subscribe.js:1-10): the array after
`subscriptions.push(callback)`.  The function it returns is `remove` on the same array
and callback. -/
def addSubScription (subscriptions : List Callback) (callback : Callback) : List Callback :=
  subscriptions ++ [callback]

/-- The closure `remove` returned by `addSubScription(subscriptions, callback)`, applied to
the array as it is when `remove` is called (subscribe.js:4-9). -/
def remove (subscriptions : List Callback) (callback : Callback) : List Callback :=
  let index := indexOf subscriptions callback
  if index > -1 then splice1 subscriptions index.toNat else subscriptions

/-- One step of an interleaving on a subscriber list: a registration through
`addSubScription`, or a call of the `remove` function returned for a callback. -/
inductive SubscriptionOp where
  | register (callback : Callback)
  | unregister (callback : Callback)
  deriving DecidableEq

/-- The callback a step is about. -/
def SubscriptionOp.callback : SubscriptionOp → Callback
  | .register c => c
  | .unregister c => c

/-- Effect of one step on the subscriber list. -/
def applyOp (subscriptions : List Callback) : SubscriptionOp → List Callback
  | .register c => addSubScription subscriptions c
  | .unregister c => remove subscriptions c

/-- Effect of an interleaving of registrations and unregistrations, left to right. -/
def applyOps (subscriptions : List Callback) (ops : List SubscriptionOp) : List Callback :=
  ops.foldl applyOp subscriptions

/-- `Array.prototype.forEach` on an array that lives in the state `σ`, from index `index`
with `remaining` indices to visit: the bound is fixed when the loop starts, and at each index
the element currently there (if the array still has one) is passed to the callback. -/
def forEachFrom {σ κ : Type} (arr : σ → List κ) (call : κ → σ → σ) : Nat → Nat → σ → σ
  | 0, _, s => s
  | remaining + 1, index, s =>
    match (arr s)[index]? with
    | some c => forEachFrom arr call remaining (index + 1) (call c s)
    | none => forEachFrom arr call remaining (index + 1) s

/-- `arr.forEach(call)`: visits the indices below the length read at the start. -/
def forEach {σ κ : Type} (arr : σ → List κ) (call : κ → σ → σ) (s : σ) : σ :=
  forEachFrom arr call (arr s).length 0 s

/-- `triggerSubscriptions(subscriptions, ...args)` (subscribe.js:12-14):
`subscriptions.forEach((callback) => callback(...args))`, where `call` runs one callback on
the arguments. -/
def triggerSubscriptions {σ : Type} (subscriptions : σ → List Callback)
    (call : Callback → σ → σ) (s : σ) : σ :=
  forEach subscriptions call s

/-! ### The action interceptor (defineStore.js:195-235)

User code is a parameter of the model.  A raw action maps the slice and the call's arguments
to the mutated slice and an outcome.  A subscriber passed to `$onAction` is a callback whose
behaviour, when notified with `{name, store, args, after, onError}`, is the sequence of
`after(..)` and `onError(..)` registrations it performs; after- and error-callbacks only
observe their argument.  Callbacks return normally (exceptions raised by subscribers are
outside the engine).  Every call of user code is recorded in a trace. -/

/-- What an action hands back: an ordinary value, or a pending promise `p`
(`ret instanceof Promise`). -/
inductive Ret where
  | value (v : JsVal)
  | promise (p : Nat)
  deriving DecidableEq

/-- How a call completes: it returns, or it raises. -/
inductive Outcome where
  | returned (ret : Ret)
  | threw (e : JsVal)
  deriving DecidableEq

/-- A raw action `action.apply(store, args)`: slice and arguments to new slice and outcome. -/
abbrev Action := Fields → List JsVal → Fields × Outcome

/-- One registration made by a subscriber through the invocation record. -/
inductive Registration where
  | after (callback : Callback)
  | onError (callback : Callback)
  deriving DecidableEq

/-- Behaviour of the subscribers: the registrations callback `c` performs when it is notified
of the action `name` called with `args`. -/
abbrev SubscriberEnv := Callback → String → List JsVal → List Registration

/-- Calls of user code, in the order they happen. -/
inductive Event where
  | notified (subscriber : Callback) (name : String) (args : List JsVal)
  | actionRun (name : String) (args : List JsVal)
  | afterCalled (callback : Callback) (result : Ret)
  | errorCalled (callback : Callback) (error : JsVal)
  deriving DecidableEq

/-- The state one wrapped call works on: the slice, the store's `actionSubscriptions`, the
per-call arrays `afterCallbacks` and `onErrorCallbacks`, and the trace. -/
structure CallState where
  slice : Fields
  actionSubscriptions : List Callback
  afterCallbacks : List Callback
  onErrorCallbacks : List Callback
  trace : List Event
  deriving DecidableEq

/-- `after(callback)` pushes to `afterCallbacks`, `onError(callback)` to `onErrorCallbacks`
(defineStore.js:199-204). -/
def register (s : CallState) : Registration → CallState
  | .after callback => { s with afterCallbacks := s.afterCallbacks ++ [callback] }
  | .onError callback => { s with onErrorCallbacks := s.onErrorCallbacks ++ [callback] }

/-- Calling subscriber `c` with the record `{name, store, args, after, onError}`. -/
def notify (env : SubscriberEnv) (name : String) (args : List JsVal) (c : Callback)
    (s : CallState) : CallState :=
  (env c name args).foldl register { s with trace := s.trace ++ [.notified c name args] }

/-- Calling after-callback `c` with `ret`. -/
def callAfter (ret : Ret) (c : Callback) (s : CallState) : CallState :=
  { s with trace := s.trace ++ [.afterCalled c ret] }

/-- Calling error-callback `c` with `e`. -/
def callError (e : JsVal) (c : Callback) (s : CallState) : CallState :=
  { s with trace := s.trace ++ [.errorCalled c e] }

/-- Result of one call of a wrapped action: how the call completes for its caller, and the
state it leaves.  When the value returned is a pending promise, the continuations attached by
`ret.then(..).catch(..)` are `resolved` and `rejected` below. -/
structure CallResult where
  completion : Outcome
  state : CallState
  deriving DecidableEq

/-- The function returned by `wrapActions(name, action)`, called with `args`
(defineStore.js:196-234): fresh per-call arrays; notify the action subscribers; run the raw
action inside `try`, on a throw trigger the error-callbacks and leave `ret` undefined;
trigger the after-callbacks with `ret`; return `ret`. -/
def wrapActions (env : SubscriberEnv) (name : String) (action : Action)
    (actionSubscriptions : List Callback) (slice : Fields) (args : List JsVal) : CallResult :=
  let s0 : CallState :=
    { slice := slice, actionSubscriptions := actionSubscriptions,
      afterCallbacks := [], onErrorCallbacks := [], trace := [] }
  let s1 := triggerSubscriptions CallState.actionSubscriptions (notify env name args) s0
  let ran := action s1.slice args
  let s2 : CallState := { s1 with slice := ran.1, trace := s1.trace ++ [.actionRun name args] }
  let ret : Ret :=
    match ran.2 with
    | .returned r => r
    | .threw _ => .value .undefined
  let s3 : CallState :=
    match ran.2 with
    | .returned _ => s2
    | .threw e => triggerSubscriptions CallState.onErrorCallbacks (callError e) s2
  let s4 := triggerSubscriptions CallState.afterCallbacks (callAfter ret) s3
  { completion := .returned ret, state := s4 }

/-- The continuation `.then((res) => triggerSubscriptions(afterCallbacks, res))`, run when
the pending promise returned by the raw action resolves to `res` (defineStore.js:223-225).
It exists only when the call returned a promise. -/
def resolved (r : CallResult) (res : JsVal) : Option CallState :=
  match r.completion with
  | .returned (.promise _) =>
    some (triggerSubscriptions CallState.afterCallbacks (callAfter (.value res)) r.state)
  | _ => none

/-- The continuation `.catch((e) => { triggerSubscriptions(onErrorCallbacks, e); return
Promise.reject(e) })`, run when the pending promise rejects with `e`
(defineStore.js:226-229): the state it leaves and the rejection it passes on. -/
def rejected (r : CallResult) (e : JsVal) : Option (CallState × Outcome) :=
  match r.completion with
  | .returned (.promise _) =>
    some (triggerSubscriptions CallState.onErrorCallbacks (callError e) r.state, .threw e)
  | _ => none

/-- The after-callbacks the subscribers register for a call, in registration order. -/
def afterRegistrations (env : SubscriberEnv) (name : String) (args : List JsVal)
    (subscriptions : List Callback) : List Callback :=
  subscriptions.flatMap fun c =>
    (env c name args).filterMap fun r =>
      match r with
      | .after h => some h
      | .onError _ => none

/-- The error-callbacks the subscribers register for a call, in registration order. -/
def errorRegistrations (env : SubscriberEnv) (name : String) (args : List JsVal)
    (subscriptions : List Callback) : List Callback :=
  subscriptions.flatMap fun c =>
    (env c name args).filterMap fun r =>
      match r with
      | .after _ => none
      | .onError h => some h

/-- The notifications of subscriber `cb` in a trace. -/
def notificationsOf (cb : Callback) (trace : List Event) : List Event :=
  trace.filter fun e =>
    match e with
    | .notified c _ _ => decide (c = cb)
    | _ => false

/-- The calls of after-callbacks in a trace. -/
def afterCalls (trace : List Event) : List Event :=
  trace.filter fun e =>
    match e with
    | .afterCalled _ _ => true
    | _ => false

/-- The calls of error-callbacks in a trace. -/
def errorCalls (trace : List Event) : List Event :=
  trace.filter fun e =>
    match e with
    | .errorCalled _ _ => true
    | _ => false

/-- A subscriber environment for examples: subscriber `1` registers after-callback `10` and
error-callback `20`; subscriber `2` registers after-callback `11`; others register nothing. -/
def envExample : SubscriberEnv := fun c _ _ =>
  if c = 1 then [.after 10, .onError 20] else if c = 2 then [.after 11] else []

/-- A raw action that throws the string `"boom"` and leaves the slice as it is. -/
def throwingAction : Action := fun slice _ => (slice, .threw (.str "boom"))

/-- A raw action that returns the pending promise `7`. -/
def asyncAction : Action := fun slice _ => (slice, .returned (.promise 7))

/-- A raw action that returns the number `1`. -/
def plainAction : Action := fun slice _ => (slice, .returned (.value (.num 1)))

/-! ### The registry and the store builder (createPinia.js, defineStore.js:41-240)

A store object lives on a heap and is named by its address; the registry's `_s` maps a store
id to an address and `state.value` maps a store id to its slice.  User code is again a
parameter: a procedural setup function is the bundle of members it returns, a state factory
is a function of the number of earlier factory calls (so repeated calls may differ), and a
plugin is the list of calls it makes on the store's contract plus the mapping it returns.
An operation whose JavaScript raises returns `none` next to the world it leaves behind. -/

/-- `Map.prototype.get` / property read on an id-keyed table. -/
def mapGet {α : Type} : List (String × α) → String → Option α
  | [], _ => none
  | (k, v) :: rest, key => if k = key then some v else mapGet rest key

/-- `Map.prototype.has` / `key in table`. -/
def mapHas {α : Type} (m : List (String × α)) (key : String) : Bool :=
  (mapGet m key).isSome

/-- `Map.prototype.set` / property write: an existing key keeps its position. -/
def mapSet {α : Type} : List (String × α) → String → α → List (String × α)
  | [], key, v => [(key, v)]
  | (k, x) :: rest, key, v =>
    if k = key then (k, v) :: rest else (k, x) :: mapSet rest key v

/-- `Map.prototype.delete`. -/
def mapDelete {α : Type} : List (String × α) → String → List (String × α)
  | [], _ => []
  | (k, x) :: rest, key =>
    if k = key then mapDelete rest key else (k, x) :: mapDelete rest key

/-- In-place update of the value at an existing key; an absent key stays absent. -/
def mapUpdate {α : Type} (f : α → α) : List (String × α) → String → List (String × α)
  | [], _ => []
  | (k, x) :: rest, key =>
    if k = key then (k, f x) :: rest else (k, x) :: mapUpdate f rest key

/-- The keys of a table, in insertion order. -/
def mapKeys {α : Type} (m : List (String × α)) : List String :=
  m.map Prod.fst

/-- `Object.assign(target, source)` on plain objects: every key of `source` is written to
`target`. -/
def objectAssign (target : Fields) : Fields → Fields
  | .nil => target
  | .cons key value rest => objectAssign (target.set key value) rest

/-- A member of the bundle returned by a setup function or by a plugin, classified as the
builder classifies it: a function, a mutable ref or reactive object (with its current value),
a computed ref, or any other value. -/
inductive Member where
  | fn (f : Action)
  | ref (value : JsVal)
  | computed (getter : Fields → JsVal)
  | plain (value : JsVal)

/-- A property of an assembled store object. -/
inductive StoreProp where
  | id (id : String)
  | patchFn
  | subscribeFn
  | onActionFn
  | disposeFn
  | stateAccessor
  | resetFn (state : Option (Nat → Fields))
  | wrapped (name : String) (f : Action)
  | fn (f : Action)
  | state (key : String)
  | ref (value : JsVal)
  | computed (getter : Fields → JsVal)
  | plain (value : JsVal)

/-- A store object: `$id`, whether it was built from options, its properties, whether
`$dispose` has run (the scope is stopped and the variable `actionSubscriptions` holds a new
empty array), and the array that `$onAction` is bound to. -/
structure Store where
  id : String
  isOption : Bool
  props : List (String × StoreProp)
  disposed : Bool
  onActionArray : List Callback

/-- The value of the closure variable `actionSubscriptions` read by `wrapActions`: the array
`$onAction` is bound to until `$dispose` reassigns the variable to `[]`
(defineStore.js:139-149). -/
def Store.actionSubscriptions (st : Store) : List Callback :=
  if st.disposed then [] else st.onActionArray

/-- A call a plugin makes on the store it receives. -/
inductive PluginEffect where
  | assignState (state : Fields)
  | patch (arg : PatchArg)
  | onAction (callback : Callback)

/-- A plugin `({store, pinia}) => extender`: the calls it makes, given `store.$id` and
`store.$state`, and the mapping it returns (`none` for `undefined`). -/
structure Plugin where
  tag : Nat
  body : String → Fields → List PluginEffect
  extender : Option (List (String × Member))

/-- The registry object returned by `createPinia()`: the store map `_s`, the plugin list
`_p` and the state tree `state.value`. -/
structure Pinia where
  _s : List (String × Nat)
  _p : List Plugin
  state : List (String × Fields)

/-- Runs of user code during construction. -/
inductive BuildEvent where
  | setupRun (id : String)
  | factoryRun (id : String)
  | pluginRun (tag : Nat) (store : Nat)
  deriving DecidableEq

/-- The registry together with the heap of store objects, the number of state-factory calls
made so far, the log of construction and the trace of wrapped action calls.  `sliceObject`
records the identity of the object held at `pinia.state.value[id]`: the objects assigned to
the entry of an id are numbered 1, 2, ... in the order of the assignments, so the entry holds
the same object as before exactly when its number is unchanged. -/
structure World where
  pinia : Pinia
  heap : List Store
  factoryCalls : Nat
  log : List BuildEvent
  trace : List Event
  sliceObject : List (String × Nat)

/-- The slice `pinia.state.value[id]` (the empty object when the id has none). -/
def World.slice (w : World) (id : String) : Fields :=
  (mapGet w.pinia.state id).getD .nil

/-- The number given to the next object assigned to `pinia.state.value[id]`. -/
def World.nextSliceObject (w : World) (id : String) : Nat :=
  (mapGet w.sliceObject id).getD 0 + 1

/-- `createPinia()` (createPinia.js:7-35) in a fresh world. -/
def createPinia : World :=
  { pinia := { _s := [], _p := [], state := [] }, heap := [], factoryCalls := 0, log := [],
    trace := [], sliceObject := [] }

/-- `pinia.use(plugin)` (createPinia.js:18-22): `pinia._p.push(plugin)`; returns `this`. -/
def use (plugin : Plugin) (w : World) : World :=
  { w with pinia := { w.pinia with _p := w.pinia._p ++ [plugin] } }

/-- In-place update of the store object at an address. -/
def updateStore (addr : Nat) (f : Store → Store) (w : World) : World :=
  { w with heap := w.heap.modify f addr }

/-- In-place update of the slice `pinia.state.value[id]`. -/
def updateSlice (id : String) (f : Fields → Fields) (w : World) : World :=
  { w with pinia := { w.pinia with state := mapUpdate f w.pinia.state id } }

/-- `store.$patch(arg)` for the store with this id (defineStore.js:119-125). -/
def patchStore (id : String) (arg : PatchArg) (w : World) : World :=
  updateSlice id (fun slice => patch slice arg) w

/-- `store.$state = state` (defineStore.js:180-184):
`store.$patch(($state) => Object.assign($state, state))`. -/
def assignState (id : String) (state : Fields) (w : World) : World :=
  patchStore id (.mutator fun slice => objectAssign slice state) w

/-- `store.$onAction(callback)` (defineStore.js:144): `addSubScription` on the bound
array. -/
def onAction (addr : Nat) (callback : Callback) (w : World) : World :=
  updateStore addr
    (fun st => { st with onActionArray := addSubScription st.onActionArray callback }) w

/-- The unregister function returned by `store.$onAction(callback)`. -/
def offAction (addr : Nat) (callback : Callback) (w : World) : World :=
  updateStore addr (fun st => { st with onActionArray := remove st.onActionArray callback }) w

/-- `store.$dispose()` (defineStore.js:145-149): `scope.stop()`, `pinia._s.delete(id)`,
`actionSubscriptions = []`. -/
def dispose (addr : Nat) (w : World) : World :=
  match w.heap[addr]? with
  | none => w
  | some st =>
    let w1 := updateStore addr (fun st => { st with disposed := true }) w
    { w1 with pinia := { w1.pinia with _s := mapDelete w1.pinia._s st.id } }

/-- `Object.assign(store, members)`: every key is written to the store object. -/
def assignProps (props : List (String × StoreProp)) (members : List (String × StoreProp)) :
    List (String × StoreProp) :=
  members.foldl (fun acc kv => mapSet acc kv.1 kv.2) props

/-- A member as it is stored when assigned to the store without classification. -/
def Member.asProp : Member → StoreProp
  | .fn f => .fn f
  | .ref v => .ref v
  | .computed g => .computed g
  | .plain v => .plain v

/-- The loop body of defineStore.js:164-176 for one key of the setup bundle: a function is
replaced by its wrapped form; a ref or reactive object is linked into the slice under its
key (for a store built from options it already is); anything else is kept. -/
def classify (isOption : Bool) (key : String) (slice : Fields) :
    Member → Fields × StoreProp
  | .fn f => (slice, .wrapped key f)
  | .ref v => (if isOption then slice else slice.set key v, .state key)
  | .computed g => (slice, .computed g)
  | .plain v => (slice, .plain v)

/-- The loop of defineStore.js:164-176 over the setup bundle: the slice it leaves and the
bundle with its functions wrapped. -/
def classifyAll (isOption : Bool) :
    List (String × Member) → Fields → Fields × List (String × StoreProp)
  | [], slice => (slice, [])
  | (key, m) :: rest, slice =>
    let r := classify isOption key slice m
    let rs := classifyAll isOption rest r.1
    (rs.1, (key, r.2) :: rs.2)

/-- One call a plugin makes on the store at `addr` with id `id`. -/
def runEffect (addr : Nat) (id : String) (w : World) : PluginEffect → World
  | .assignState state => assignState id state w
  | .patch arg => patchStore id arg w
  | .onAction callback => onAction addr callback w

/-- One iteration of `pinia._p.forEach` (defineStore.js:188-193): run the plugin on
`{store, pinia}`, then `Object.assign(store, extender)` inside `store.$patch`. -/
def runPlugin (addr : Nat) (id : String) (w : World) (plugin : Plugin) : World :=
  let w1 := { w with log := w.log ++ [.pluginRun plugin.tag addr] }
  let w2 := (plugin.body id (w1.slice id)).foldl (runEffect addr id) w1
  match plugin.extender with
  | none => w2
  | some members =>
    updateStore addr
      (fun st => { st with
        props := assignProps st.props (members.map fun kv => (kv.1, kv.2.asProp)) }) w2

/-- A setup function run by the builder: the world it leaves and the bundle it returns,
`none` when it raises. -/
abbrev SetupFn := World → World × Option (List (String × Member))

/-- The contract members of `partialStore` (defineStore.js:140-150). -/
def partialStore (id : String) : List (String × StoreProp) :=
  [("$id", .id id), ("$patch", .patchFn), ("$subscribe", .subscribeFn),
    ("$onAction", .onActionFn), ("$dispose", .disposeFn)]

/-- defineStore.js:158-162: a procedural store whose id has no slice gets the empty slice
(`if (!initialState && !isOption) pinia.state.value[id] = {}`). -/
def ensureSlice (id : String) (isOption : Bool) (w : World) : World :=
  if !mapHas w.pinia.state id && !isOption then
    { w with
      pinia := { w.pinia with state := mapSet w.pinia.state id .nil }
      sliceObject := mapSet w.sliceObject id (w.nextSliceObject id) }
  else w

/-- defineStore.js:164-176 on the world: the slice of `id` after the loop over the bundle. -/
def linkState (id : String) (isOption : Bool) (setupStore : List (String × Member))
    (w : World) : World :=
  updateSlice id (fun _ => (classifyAll isOption setupStore (w.slice id)).1) w

/-- defineStore.js:178-185: `Object.defineProperty(store, '$state', ...)`. -/
def defineStateAccessor (addr : Nat) (w : World) : World :=
  updateStore addr
    (fun st => { st with props := st.props ++ [("$state", .stateAccessor)] }) w

/-- defineStore.js:188-193: `pinia._p.forEach(plugin => ...)`. -/
def runPlugins (addr : Nat) (id : String) (w : World) : World :=
  w.pinia._p.foldl (runPlugin addr id) w

/-- defineStore.js:237: `pinia._s.set(id, store)`. -/
def registerStore (id : String) (addr : Nat) (w : World) : World :=
  { w with pinia := { w.pinia with _s := mapSet w.pinia._s id addr } }

/-- defineStore.js:238: `Object.assign(store, setupStore)` with the classified bundle. -/
def assignSetupStore (addr : Nat) (members : List (String × StoreProp)) (w : World) : World :=
  updateStore addr (fun st => { st with props := assignProps st.props members }) w

/-- The part of `createSetupStore` after `setup` has returned `setupStore`
(defineStore.js:158-239), for the store object at `addr`: give a procedural store without
state an empty slice; classify the bundle; define `$state`; run the plugins;
`pinia._s.set(id, store)`; `Object.assign(store, setupStore)`. -/
def assemble (id : String) (addr : Nat) (isOption : Bool)
    (setupStore : List (String × Member)) (w : World) : World :=
  let w1 := ensureSlice id isOption w
  let members := (classifyAll isOption setupStore (w1.slice id)).2
  assignSetupStore addr members
    (registerStore id addr
      (runPlugins addr id (defineStateAccessor addr (linkState id isOption setupStore w1))))

/-- defineStore.js:140-152: the new store object `reactive(partialStore)` is put on the
heap at the next free address; the builder is about to run `setup`. -/
def allocate (id : String) (isOption : Bool) (w : World) : World :=
  { w with
    heap := w.heap ++ [{ id := id, isOption := isOption, props := partialStore id,
                         disposed := false, onActionArray := [] }]
    log := w.log ++ [.setupRun id] }

/-- `createSetupStore(id, setup, pinia, isOption)` (defineStore.js:116-240): allocate the
store object `reactive(partialStore)`, run `setup` (defineStore.js:153-156), then `assemble`.
Returns the address of the store, `none` when `setup` raises. -/
def createSetupStore (id : String) (setup : SetupFn) (isOption : Bool) (w : World) :
    World × Option Nat :=
  let addr := w.heap.length
  let w1 := allocate id isOption w
  match (setup w1).2 with
  | none => ((setup w1).1, none)
  | some setupStore => (assemble id addr isOption setupStore (setup w1).1, some addr)

/-- The options object of a declarative store. -/
structure Options where
  state : Option (Nat → Fields)
  getters : Option (List (String × (Fields → JsVal)))
  actions : Option (List (String × Action))

/-- `toRefs(slice)`: one ref per key of the slice. -/
def toRefs (slice : Fields) : List (String × Member) :=
  slice.keys.map fun key => (key, .ref (slice.get key))

/-- `Object.assign(bundle, members)` on setup bundles. -/
def assignMembers (bundle members : List (String × Member)) : List (String × Member) :=
  members.foldl (fun acc kv => mapSet acc kv.1 kv.2) bundle

/-- The function `setup` built by `createOpinionStore` (defineStore.js:85-102):
`pinia.state.value[id] = state ? state() : {}`, then the refs of the slice, the actions and
one computed ref per getter.  `Object.keys(getters)` raises when `getters` is missing. -/
def optionsSetup (id : String) (options : Options) : SetupFn := fun w =>
  let slice : Fields :=
    match options.state with
    | some factory => factory w.factoryCalls
    | none => .nil
  let w1 : World :=
    match options.state with
    | some _ => { w with factoryCalls := w.factoryCalls + 1, log := w.log ++ [.factoryRun id] }
    | none => w
  let w2 : World :=
    { w1 with
      pinia := { w1.pinia with state := mapSet w1.pinia.state id slice }
      sliceObject := mapSet w1.sliceObject id (w1.nextSliceObject id) }
  match options.getters with
  | none => (w2, none)
  | some getters =>
    let actions := (options.actions.getD []).map fun kv => (kv.1, Member.fn kv.2)
    let computeds := getters.map fun kv => (kv.1, Member.computed kv.2)
    (w2, some (assignMembers (assignMembers (toRefs slice) actions) computeds))

/-- What `defineStore` receives as its second argument. -/
inductive SetupArg where
  | undefined
  | options (options : Options)
  | setup (bundle : List (String × Member))

/-- What `defineStore` receives as its first argument: an id, or an options object
containing its id. -/
inductive IdOrOptions where
  | id (id : String)
  | options (id : String) (options : Options)

/-- The variables `id`, `options`, `setup` and `isSetupStore` that the accessor `useStore`
closes over. -/
structure StoreDef where
  id : String
  options : SetupArg
  setup : SetupArg
  isSetupStore : Bool

/-- `defineStore(idOrOptions, setup)` (defineStore.js:41-52, 78). -/
def defineStore (idOrOptions : IdOrOptions) (setup : SetupArg) : StoreDef :=
  let isSetupStore : Bool :=
    match setup with
    | .setup _ => true
    | _ => false
  match idOrOptions with
  | .id id => { id := id, options := setup, setup := setup, isSetupStore := isSetupStore }
  | .options id options =>
    { id := id, options := .options options, setup := setup, isSetupStore := isSetupStore }

/-- The options as `createOpinionStore` destructures them: an options object gives its
fields, a function has none of them, `undefined` cannot be destructured. -/
def SetupArg.destructure : SetupArg → Option Options
  | .options o => some o
  | .setup _ => some { state := none, getters := none, actions := none }
  | .undefined => none

/-- `createOpinionStore(id, options, pinia)` (defineStore.js:81-114): build through
`createSetupStore` with the setup function made from the options, then define `$reset` on
the store. -/
def createOpinionStore (id : String) (options : SetupArg) (w : World) : World × Option Nat :=
  match options.destructure with
  | none => (w, none)
  | some o =>
    match (createSetupStore id (optionsSetup id o) true w).2 with
    | some addr =>
      (updateStore addr
        (fun st => { st with props := mapSet st.props "$reset" (.resetFn o.state) })
        (createSetupStore id (optionsSetup id o) true w).1, some addr)
    | none => ((createSetupStore id (optionsSetup id o) true w).1, none)

/-- The setup function as `createSetupStore` calls it: a function returns its bundle,
calling anything else raises. -/
def SetupArg.call : SetupArg → SetupFn
  | .setup bundle => fun w => (w, some bundle)
  | _ => fun w => (w, none)

/-- The accessor `useStore()` on the resolved registry (defineStore.js:54-76): build the
store when `pinia._s` has no entry for the id, then return `pinia._s.get(id)`.  `none` when
the construction raises. -/
def useStore (d : StoreDef) (w : World) : World × Option Nat :=
  if !mapHas w.pinia._s d.id then
    let built :=
      if d.isSetupStore then createSetupStore d.id d.setup.call false w
      else createOpinionStore d.id d.options w
    match built.2 with
    | some _ => (built.1, mapGet built.1.pinia._s d.id)
    | none => (built.1, none)
  else (w, mapGet w.pinia._s d.id)

/-- Calling the member `name` of the store at `addr` with `args`.  The store must be the one
registered for its id (its cells are then the ones of the state tree) and the member must be
callable; a wrapped action goes through the interceptor, a function stored unwrapped runs
directly.  `none` otherwise. -/
def callAction (env : SubscriberEnv) (addr : Nat) (name : String) (args : List JsVal)
    (w : World) : Option (World × Outcome) :=
  match w.heap[addr]? with
  | none => none
  | some st =>
    if mapGet w.pinia._s st.id = some addr then
      match mapGet st.props name, mapGet w.pinia.state st.id with
      | some (.wrapped key f), some slice =>
        let r := wrapActions env key f st.actionSubscriptions slice args
        some ({ updateSlice st.id (fun _ => r.state.slice) w with
                trace := w.trace ++ r.state.trace }, r.completion)
      | some (.fn f), some slice =>
        let ran := f slice args
        some (updateSlice st.id (fun _ => ran.1) w, ran.2)
      | _, _ => none
    else none

/-- An operation of consuming code on the registry. -/
inductive Step where
  | usePlugin (plugin : Plugin)
  | useStore (d : StoreDef)
  | patch (addr : Nat) (arg : PatchArg)
  | assignState (addr : Nat) (state : Fields)
  | onAction (addr : Nat) (callback : Callback)
  | offAction (addr : Nat) (callback : Callback)
  | action (addr : Nat) (name : String) (args : List JsVal)
  | dispose (addr : Nat)

/-- The world after one operation; an operation on an address that holds no store, and a
call that is not possible, leave the world as it is. -/
def step (env : SubscriberEnv) (w : World) : Step → World
  | .usePlugin plugin => use plugin w
  | .useStore d => (useStore d w).1
  | .patch addr arg =>
    match w.heap[addr]? with
    | some st => patchStore st.id arg w
    | none => w
  | .assignState addr state =>
    match w.heap[addr]? with
    | some st => assignState st.id state w
    | none => w
  | .onAction addr callback => onAction addr callback w
  | .offAction addr callback => offAction addr callback w
  | .action addr name args =>
    match callAction env addr name args w with
    | some r => r.1
    | none => w
  | .dispose addr => dispose addr w

/-- The world reached from `createPinia()` by a sequence of operations. -/
def run (env : SubscriberEnv) (steps : List Step) : World :=
  steps.foldl (step env) createPinia

/-! ### Number arithmetic (store/counter1.js:11-12, 17)

A Number is a double: `num n` is the double whose value is the integer `n`, `nan` is NaN and
`inf` the infinities.  The result of an operation is rounded to the nearest double, ties to
the even significand. -/

/-- The binary exponent of the doubles around a magnitude `a` above `2^53`: the least `e`,
from the given one on, with `a < 2^(53 + e)`; the doubles there are the multiples of `2^e`.
The largest double is `(2^53 - 1) * 2^971`, so an exponent above 971 means overflow and
1024 steps are never used up below it. -/
def exponentOf : Nat → Nat → Nat → Nat
  | 0, _, e => e
  | fuel + 1, a, e => if a < 2 ^ (53 + e) then e else exponentOf fuel a (e + 1)

/-- The Number value of the exact integer result `m`: `m` itself up to magnitude `2^53`;
beyond, the nearest multiple of `2^e` for the exponent `e` of `m`, a tie going to the even
significand; an infinity when that is `2^1024` or more. -/
def roundDouble (m : Int) : JsVal :=
  if m.natAbs ≤ 2 ^ 53 then .num m
  else
    let e := exponentOf 1024 m.natAbs 1
    let q := m.natAbs / 2 ^ e
    let r := m.natAbs % 2 ^ e
    let significand :=
      if 2 * r < 2 ^ e then q else if 2 ^ e < 2 * r then q + 1
      else if q % 2 = 0 then q else q + 1
    if 971 < e ∨ (e = 971 ∧ significand = 2 ^ 53) then .inf (decide (m < 0))
    else .num (if m < 0 then -((significand * 2 ^ e : Nat) : Int)
      else ((significand * 2 ^ e : Nat) : Int))

/-- The value of a nonempty sequence of decimal digits. -/
def digitsValue (cs : List Char) : Option Nat :=
  if cs ≠ [] ∧ cs.all Char.isDigit = true then
    some (cs.foldl (fun n c => 10 * n + (c.toNat - 48)) 0)
  else none

/-- `StringToNumber` on the strings the model reads as numbers: the empty string, a decimal
integer literal with an optional sign, and `Infinity` with an optional sign.  Every other
string reads as NaN here. -/
def stringToNumber (s : String) : JsVal :=
  if s = "" then .num 0
  else if s = "Infinity" ∨ s = "+Infinity" then .inf false
  else if s = "-Infinity" then .inf true
  else
    match s.data with
    | '-' :: cs =>
      match digitsValue cs with
      | some n => roundDouble (-(n : Int))
      | none => .nan
    | '+' :: cs =>
      match digitsValue cs with
      | some n => roundDouble n
      | none => .nan
    | cs =>
      match digitsValue cs with
      | some n => roundDouble n
      | none => .nan

/-- `ToNumber(v)`: NaN for `undefined`, 0 for `null`, 0 or 1 for a boolean; a plain object
converts through `"[object Object]"` to NaN. -/
def toNumber : JsVal → JsVal
  | .undefined => .nan
  | .null => .num 0
  | .bool b => .num (if b then 1 else 0)
  | .num n => .num n
  | .nan => .nan
  | .inf negative => .inf negative
  | .str s => stringToNumber s
  | .obj _ => .nan

/-- The value `v++` stores: `ToNumber(v) + 1`. -/
def plusOne (v : JsVal) : JsVal :=
  match toNumber v with
  | .num n => roundDouble (n + 1)
  | number => number

/-- The value of `v * 2`. -/
def timesTwo (v : JsVal) : JsVal :=
  match toNumber v with
  | .num n => roundDouble (n * 2)
  | number => number

/-- `this[key]++` on a state field of the store: the slice with `key` holding
`ToNumber(this[key]) + 1`. -/
def incrementField (key : String) (slice : Fields) : Fields :=
  slice.set key (plusOne (slice.get key))

/-- The action `increment() { this.count++; this.testCount++ }` (store/counter1.js:10-13);
it returns `undefined`. -/
def increment : Action := fun slice _ =>
  (incrementField "testCount" (incrementField "count" slice), .returned (.value .undefined))

/-- The getter `double() { return this.count * 2 }` (store/counter1.js:16-18). -/
def double (slice : Fields) : JsVal :=
  timesTwo (slice.get "count")

/-- The options of the store `counter1` (store/counter1.js): state
`{count: 0, testCount: 0}`, getter `double`, action `increment`. -/
def counter1Options : Options :=
  { state := some fun _ => .cons "count" (.num 0) (.cons "testCount" (.num 0) .nil)
    getters := some [("double", double)]
    actions := some [("increment", increment)] }

/-- `defineStore({id: 'counter1', ...})` of store/counter1.js. -/
def useCounter1 : StoreDef :=
  defineStore (.options "counter1" counter1Options) .undefined

/-- A plugin that loads a saved snapshot into `$state`, as `localPlugin` of main.js does when
local storage holds one: here the snapshot `{count: 7}`. -/
def snapshotPlugin : Plugin :=
  { tag := 0
    body := fun _ _ => [.assignState (.cons "count" (.num 7) .nil)]
    extender := none }

/-- The part of the world that operations on a built store leave alone: the store map, the
plugin list, the number of store objects and the set of ids of the state tree. -/
def Frame (w w2 : World) : Prop :=
  w2.pinia._s = w.pinia._s ∧ w2.pinia._p = w.pinia._p ∧ w2.heap.length = w.heap.length ∧
    ∀ k, mapHas w2.pinia.state k = mapHas w.pinia.state k

/-- A plugin that makes no call writing the state of store `id`: it only subscribes. -/
def Plugin.readOnly (plugin : Plugin) (id : String) : Prop :=
  ∀ slice, ∀ e ∈ plugin.body id slice, ∃ callback, e = PluginEffect.onAction callback

/-- Reference description of `$state = s` in the words of the claim, relating the slice
before, the assigned object `s` and the slice after: every top-level key of `s` holds exactly
the value `s` has (a nested object is replaced as a whole), every key absent from `s` holds
what the slice held, and the keys are those of the slice together with those of `s`. -/
def ShallowAssignSpec (slice s r : Fields) : Prop :=
  (∀ k, k ∈ s.keys → r.get k = s.get k) ∧
  (∀ k, k ∉ s.keys → r.get k = slice.get k) ∧
  (∀ k, k ∈ r.keys ↔ k ∈ slice.keys ∨ k ∈ s.keys)

/-- The object `{count: 7, extra: {n: 1}}`. -/
def snapshotCountExtra : Fields :=
  .cons "count" (.num 7) (.cons "extra" (.obj (.cons "n" (.num 1) .nil)) .nil)

/-! ### Triggers during which subscribers unregister (subscribe.js) -/

/-- The state a trigger works on when callbacks may unregister: the subscriber array and the
callbacks invoked so far, in order. -/
structure TriggerState where
  subscriptions : List Callback
  invoked : List Callback
  deriving DecidableEq

/-- Behaviour of the subscribers during a trigger: the callbacks whose unregister function
(the `remove` returned by `addSubScription`) callback `c` calls when it is invoked. -/
abbrev UnsubscribeEnv := Callback → List Callback

/-- Invoking subscriber `c`: it is recorded, and it calls the unregister functions it
calls, each a `remove` on the subscriber array. -/
def invoke (unsub : UnsubscribeEnv) (c : Callback) (s : TriggerState) : TriggerState :=
  { subscriptions := (unsub c).foldl remove s.subscriptions, invoked := s.invoked ++ [c] }

/-- `triggerSubscriptions(subscriptions, ...args)` on a subscriber array whose callbacks
behave as `unsub` says. -/
def trigger (unsub : UnsubscribeEnv) (subscriptions : List Callback) : TriggerState :=
  triggerSubscriptions TriggerState.subscriptions (invoke unsub)
    { subscriptions := subscriptions, invoked := [] }

/-- Subscribers of which `1` unregisters itself when invoked (a one-shot listener) and the
others unregister nothing. -/
def oneShotFirst : UnsubscribeEnv := fun c => if c = 1 then [1] else []

/-- Subscribers that unregister nothing. -/
def noUnsubscribe : UnsubscribeEnv := fun _ => []

/-! ### Reset of a declarative store (defineStore.js:106-111) -/

/-- `store.$reset()` on the store at `addr`: `const newState = state ? state() : {}`, then
`store.$patch((state) => Object.assign(state, newState))`.  `none` when the object at `addr`
has no `$reset` defined by `createOpinionStore`. -/
def reset (addr : Nat) (w : World) : Option World :=
  match w.heap[addr]? with
  | none => none
  | some st =>
    match mapGet st.props "$reset" with
    | some (.resetFn state) =>
      let newState : Fields :=
        match state with
        | some factory => factory w.factoryCalls
        | none => .nil
      let w1 : World :=
        match state with
        | some _ =>
          { w with factoryCalls := w.factoryCalls + 1, log := w.log ++ [.factoryRun st.id] }
        | none => w
      some (patchStore st.id (.mutator fun slice => objectAssign slice newState) w1)
    | _ => none

/-! ### Members of an assembled store -/

/-- The form in which the loop of defineStore.js:164-176 leaves a member of the setup bundle
under `key`: a function wrapped, a ref or reactive object as the cell of the slice. -/
def Member.classified (key : String) : Member → StoreProp
  | .fn f => .wrapped key f
  | .ref _ => .state key
  | .computed g => .computed g
  | .plain v => .plain v

/-- The properties of a store after one plugin has run, from those before:
`Object.assign(store, extender)`. -/
def extendOne (plugin : Plugin) (props : List (String × StoreProp)) :
    List (String × StoreProp) :=
  match plugin.extender with
  | none => props
  | some members => assignProps props (members.map fun kv => (kv.1, kv.2.asProp))

/-- The properties of a store after the plugin loop, from those before it. -/
def extendProps (plugins : List Plugin) (props : List (String × StoreProp)) :
    List (String × StoreProp) :=
  plugins.foldl (fun acc plugin => extendOne plugin acc) props

/-- The names of the members in the mapping a plugin returns. -/
def Plugin.names (plugin : Plugin) : List String :=
  match plugin.extender with
  | none => []
  | some members => members.map Prod.fst

/-- The kind of a property of a store, by name. -/
def StoreProp.kind : StoreProp → String
  | .id _ => "$id"
  | .patchFn => "$patch"
  | .subscribeFn => "$subscribe"
  | .onActionFn => "$onAction"
  | .disposeFn => "$dispose"
  | .stateAccessor => "$state"
  | .resetFn _ => "$reset"
  | .wrapped _ _ => "wrapped action"
  | .fn _ => "function"
  | .state _ => "state cell"
  | .ref _ => "ref"
  | .computed _ => "computed"
  | .plain _ => "plain"

/-- The names of the contract members of `partialStore`. -/
def contractNames : List String :=
  ["$id", "$patch", "$subscribe", "$onAction", "$dispose"]

/-- What an operation may not change in a store object unless it assigns members: its id,
its origin, its properties and whether it is disposed. -/
def Store.shape (st : Store) : String × Bool × List (String × StoreProp) × Bool :=
  (st.id, st.isOption, st.props, st.disposed)

/-- From `w` to `w2` the store objects keep their shape, but for the one at `addr`, whose
properties change by `g`. -/
def PropsStep (addr : Nat) (g : List (String × StoreProp) → List (String × StoreProp))
    (w w2 : World) : Prop :=
  ∀ a, (w2.heap[a]?).map Store.shape =
    ((w.heap[a]?).map Store.shape).map
      (fun t => if a = addr then (t.1, t.2.1, g t.2.2.1, t.2.2.2) else t)

/-- Reading the member `name` of the store at `addr`, when the store is the one registered
for its id: a cell of the slice gives the value of the slice at its key, a computed ref the
value of its getter on the slice, `$state` the slice, `$id` the id; a function is not a
value of the model. -/
def readMember (w : World) (addr : Nat) (name : String) : Option JsVal :=
  match w.heap[addr]? with
  | none => none
  | some st =>
    if mapGet w.pinia._s st.id = some addr then
      match mapGet st.props name with
      | some (.state key) => some ((w.slice st.id).get key)
      | some (.computed getter) => some (getter (w.slice st.id))
      | some (.ref v) => some v
      | some (.plain v) => some v
      | some (.id id) => some (.str id)
      | some .stateAccessor => some (.obj (w.slice st.id))
      | _ => none
    else none

/-- The plugin invocations recorded in a construction log: tag of the plugin and address of
the store it received. -/
def pluginRuns (log : List BuildEvent) : List (Nat × Nat) :=
  log.filterMap fun e =>
    match e with
    | .pluginRun tag store => some (tag, store)
    | _ => none

/-- The plugins registered by a sequence of operations, in the order of the `use` calls. -/
def registeredPlugins (steps : List Step) : List Plugin :=
  steps.filterMap fun s =>
    match s with
    | .usePlugin plugin => some plugin
    | _ => none

/-- A setup bundle that uses names of contract members: `{$id: 'other', $patch() {..}}`. -/
def shadowingBundle : List (String × Member) :=
  [("$id", .plain (.str "other")), ("$patch", .fn plainAction)]

/-- A plugin that returns the mapping `{hello() {..}, secret: ref(1)}`. -/
def helloPlugin : Plugin :=
  { tag := 1
    body := fun _ _ => []
    extender := some [("hello", .fn plainAction), ("secret", .ref (.num 1))] }

/-- A plugin that subscribes callback `1` to the actions of the store it receives and
returns nothing. -/
def listenerPlugin : Plugin :=
  { tag := 2
    body := fun _ _ => [.onAction 1]
    extender := none }

/-- The object `{count: n, testCount: n}`. -/
def counterState (n : Nat) : Fields :=
  .cons "count" (.num n) (.cons "testCount" (.num n) .nil)

/-- The world in which `useCounter1()` has built the store in a fresh registry, with the
given slice of `counter1` and the given trace of wrapped calls. -/
def counter1World (slice : Fields) (trace : List Event) : World :=
  { (useStore useCounter1 createPinia).1 with
    pinia := { (useStore useCounter1 createPinia).1.pinia with state := [("counter1", slice)] }
    trace := trace }

/-! ## Part 2. Theorems -/

/-! ### Properties of objects -/

theorem isObject_iff (v : JsVal) : isObject v = true ↔ ∃ o, v = .obj o := by
  cases v <;> simp [isObject, JsVal.typeof]

theorem isObject_obj (o : Fields) : isObject (.obj o) = true := by
  simp [isObject, JsVal.typeof]

theorem mergeReactiveObject_cons (key : String) (oldValue : JsVal) (rest source : Fields) :
    mergeReactiveObject (.cons key oldValue rest) source =
      .cons key (resultAt oldValue (source.get key)) (mergeReactiveObject rest source) := by
  rw [mergeReactiveObject]

theorem resultAt_obj (o n : Fields) :
    resultAt (.obj o) (.obj n) = .obj (mergeReactiveObject o n) := by
  rw [resultAt]

theorem resultAt_of_not_isObject (oldValue newValue : JsVal)
    (h : ¬ (isObject oldValue = true ∧ isObject newValue = true)) :
    resultAt oldValue newValue = newValue := by
  cases oldValue <;> cases newValue <;> first
    | (exfalso; exact h ⟨isObject_obj _, isObject_obj _⟩)
    | (unfold resultAt; rfl)

theorem keys_mergeReactiveObject : ∀ (target source : Fields),
    (mergeReactiveObject target source).keys = target.keys
  | .nil, _ => rfl
  | .cons key oldValue rest, source => by
    rw [mergeReactiveObject_cons, Fields.keys, Fields.keys,
      keys_mergeReactiveObject rest source]

theorem get_mergeReactiveObject : ∀ (target source : Fields) (k : String),
    k ∈ target.keys →
    (mergeReactiveObject target source).get k = resultAt (target.get k) (source.get k)
  | .nil, _, k, h => by simp [Fields.keys] at h
  | .cons key oldValue rest, source, k, h => by
    rw [mergeReactiveObject_cons]
    by_cases hk : key = k
    · subst hk
      simp [Fields.get]
    · have hmem : k ∈ rest.keys := by
        simp only [Fields.keys, List.mem_cons] at h
        rcases h with h | h
        · exact absurd h.symm hk
        · exact h
      simp [Fields.get, hk, get_mergeReactiveObject rest source k hmem]

theorem get_of_not_mem_keys : ∀ (o : Fields) (k : String), k ∉ o.keys → o.get k = .undefined
  | .nil, _, _ => rfl
  | .cons key v rest, k, h => by
    simp only [Fields.keys, List.mem_cons, not_or] at h
    have hne : ¬ key = k := fun e => h.1 e.symm
    simp [Fields.get, hne, get_of_not_mem_keys rest k h.2]

theorem mem_keys_of_get_obj (o : Fields) (k : String) (n : Fields) (h : o.get k = .obj n) :
    k ∈ o.keys := by
  by_contra hk
  rw [get_of_not_mem_keys o k hk] at h
  cases h

theorem wf_get : ∀ (o : Fields) (k : String), o.wf = true → (o.get k).wf = true
  | .nil, _, _ => by simp [Fields.get, JsVal.wf]
  | .cons key v rest, k, h => by
    rw [Fields.wf] at h
    simp only [Bool.and_eq_true] at h
    by_cases hk : key = k
    · simp [Fields.get, hk, h.1.2]
    · simpa [Fields.get, hk] using wf_get rest k h.2

theorem nodup_keys_of_wf : ∀ (o : Fields), o.wf = true → o.keys.Nodup
  | .nil, _ => by simp [Fields.keys]
  | .cons key v rest, h => by
    rw [Fields.wf] at h
    simp only [Bool.and_eq_true, decide_eq_true_eq] at h
    simp [Fields.keys, h.1.1, nodup_keys_of_wf rest h.2]

/-- Two objects with the same duplicate-free key enumeration and the same value at every key
are equal. -/
theorem fields_ext : ∀ (a b : Fields), a.keys = b.keys → a.keys.Nodup →
    (∀ k, k ∈ a.keys → a.get k = b.get k) → a = b
  | .nil, .nil, _, _, _ => rfl
  | .nil, .cons _ _ _, h, _, _ => by simp [Fields.keys] at h
  | .cons _ _ _, .nil, h, _, _ => by simp [Fields.keys] at h
  | .cons ka va ra, .cons kb vb rb, hkeys, hnd, hget => by
    simp only [Fields.keys, List.cons.injEq] at hkeys
    obtain ⟨hk, hrest⟩ := hkeys
    subst hk
    simp only [Fields.keys, List.nodup_cons] at hnd
    have hv : va = vb := by simpa [Fields.get, Fields.keys] using hget ka (by simp [Fields.keys])
    have hr : ra = rb := fields_ext ra rb hrest hnd.2 (fun k hk => by
      have hne : ¬ ka = k := fun e => hnd.1 (e ▸ hk)
      have := hget k (by simp [Fields.keys, hk])
      simpa [Fields.get, hne] using this)
    rw [hv, hr]

/-! ### The merge algorithm against its reference definition -/

theorem not_both_isObject_left (oldValue newValue : JsVal) (h : isObject oldValue = false) :
    ¬ (isObject oldValue = true ∧ isObject newValue = true) := by
  simp [h]

theorem not_both_isObject_right (oldValue newValue : JsVal) (h : isObject newValue = false) :
    ¬ (isObject oldValue = true ∧ isObject newValue = true) := by
  simp [h]

mutual
theorem patchSpec_resultAt : ∀ (oldValue newValue : JsVal),
    PatchSpec oldValue newValue (resultAt oldValue newValue)
  | .obj t, newValue => by
    cases newValue with
    | obj s =>
      rw [resultAt_obj]
      refine PatchSpec.recurse t s _ (keys_mergeReactiveObject t s) (fun k hk => ?_)
      rw [get_mergeReactiveObject t s k hk]
      exact patchSpec_get t s k hk
    | undefined =>
      have h := not_both_isObject_right (.obj t) .undefined rfl
      rw [resultAt_of_not_isObject _ _ h]; exact PatchSpec.overwrite _ _ h
    | null =>
      have h := not_both_isObject_right (.obj t) .null rfl
      rw [resultAt_of_not_isObject _ _ h]; exact PatchSpec.overwrite _ _ h
    | bool b =>
      have h := not_both_isObject_right (.obj t) (.bool b) rfl
      rw [resultAt_of_not_isObject _ _ h]; exact PatchSpec.overwrite _ _ h
    | num n =>
      have h := not_both_isObject_right (.obj t) (.num n) rfl
      rw [resultAt_of_not_isObject _ _ h]; exact PatchSpec.overwrite _ _ h
    | nan =>
      have h := not_both_isObject_right (.obj t) .nan rfl
      rw [resultAt_of_not_isObject _ _ h]; exact PatchSpec.overwrite _ _ h
    | inf negative =>
      have h := not_both_isObject_right (.obj t) (.inf negative) rfl
      rw [resultAt_of_not_isObject _ _ h]; exact PatchSpec.overwrite _ _ h
    | str x =>
      have h := not_both_isObject_right (.obj t) (.str x) rfl
      rw [resultAt_of_not_isObject _ _ h]; exact PatchSpec.overwrite _ _ h
  | .undefined, newValue => by
    have h := not_both_isObject_left .undefined newValue rfl
    rw [resultAt_of_not_isObject _ _ h]; exact PatchSpec.overwrite _ _ h
  | .null, newValue => by
    have h := not_both_isObject_left .null newValue rfl
    rw [resultAt_of_not_isObject _ _ h]; exact PatchSpec.overwrite _ _ h
  | .bool b, newValue => by
    have h := not_both_isObject_left (.bool b) newValue rfl
    rw [resultAt_of_not_isObject _ _ h]; exact PatchSpec.overwrite _ _ h
  | .num n, newValue => by
    have h := not_both_isObject_left (.num n) newValue rfl
    rw [resultAt_of_not_isObject _ _ h]; exact PatchSpec.overwrite _ _ h
  | .nan, newValue => by
    have h := not_both_isObject_left .nan newValue rfl
    rw [resultAt_of_not_isObject _ _ h]; exact PatchSpec.overwrite _ _ h
  | .inf negative, newValue => by
    have h := not_both_isObject_left (.inf negative) newValue rfl
    rw [resultAt_of_not_isObject _ _ h]; exact PatchSpec.overwrite _ _ h
  | .str x, newValue => by
    have h := not_both_isObject_left (.str x) newValue rfl
    rw [resultAt_of_not_isObject _ _ h]; exact PatchSpec.overwrite _ _ h
theorem patchSpec_get : ∀ (t s : Fields) (k : String), k ∈ t.keys →
    PatchSpec (t.get k) (s.get k) (resultAt (t.get k) (s.get k))
  | .nil, _, _, h => by simp [Fields.keys] at h
  | .cons key v rest, s, k, h => by
    by_cases hk : key = k
    · subst hk
      have hv : (Fields.cons key v rest).get key = v := by simp [Fields.get]
      rw [hv]
      exact patchSpec_resultAt v (s.get key)
    · have hmem : k ∈ rest.keys := by
        simp only [Fields.keys, List.mem_cons] at h
        rcases h with h | h
        · exact absurd h.symm hk
        · exact h
      have hv : (Fields.cons key v rest).get k = rest.get k := by simp [Fields.get, hk]
      rw [hv]
      exact patchSpec_get rest s k hmem
end

/-- The reference definition determines the result on well-formed targets. -/
theorem patchSpec_unique (oldValue newValue r : JsVal) (h : PatchSpec oldValue newValue r) :
    oldValue.wf = true → r = resultAt oldValue newValue := by
  induction h with
  | recurse t s r hkeys _ ih =>
    intro hwf
    rw [JsVal.wf] at hwf
    rw [resultAt_obj]
    congr 1
    have hnd : r.keys.Nodup := hkeys ▸ nodup_keys_of_wf t hwf
    refine fields_ext r _ (by rw [hkeys, keys_mergeReactiveObject]) hnd (fun k hk => ?_)
    have hk2 : k ∈ t.keys := hkeys ▸ hk
    rw [get_mergeReactiveObject t s k hk2]
    exact ih k hk2 (wf_get t k hwf)
  | overwrite oldValue newValue hno =>
    intro _
    exact (resultAt_of_not_isObject _ _ hno).symm

theorem resultAt_eq_ite (oldValue newValue : JsVal) :
    resultAt oldValue newValue =
      if isObject oldValue && isObject newValue then
        .obj (mergeReactiveObject oldValue.fields newValue.fields)
      else newValue := by
  by_cases h : isObject oldValue = true ∧ isObject newValue = true
  · obtain ⟨o, ho⟩ := (isObject_iff _).1 h.1
    obtain ⟨n, hn⟩ := (isObject_iff _).1 h.2
    subst ho hn
    simp [resultAt_obj, isObject_obj, JsVal.fields]
  · rw [resultAt_of_not_isObject _ _ h]
    have : (isObject oldValue && isObject newValue) = false := by
      simpa [Bool.and_eq_true] using h
    simp [this]

theorem get_mergeReactiveObject_absent (target source : Fields) (k : String)
    (hk : k ∈ target.keys) (hs : k ∉ source.keys) :
    (mergeReactiveObject target source).get k = .undefined := by
  rw [get_mergeReactiveObject target source k hk, get_of_not_mem_keys source k hs]
  exact resultAt_of_not_isObject _ _ (not_both_isObject_right _ _ rfl)

theorem getPath_mergeReactiveObject : ∀ (path : List String) (target source : Fields),
    recursesInto target source path = true →
    ∃ o r, JsVal.getPath path (.obj target) = .obj o ∧
      JsVal.getPath path (.obj (mergeReactiveObject target source)) = .obj r ∧
      r.keys = o.keys
  | [], target, source, _ =>
    ⟨target, _, rfl, rfl, keys_mergeReactiveObject target source⟩
  | k :: p, target, source, h => by
    rw [recursesInto] at h
    cases ht : target.get k with
    | obj o =>
      cases hs : source.get k with
      | obj n =>
        simp only [ht, hs] at h
        have hk : k ∈ target.keys := mem_keys_of_get_obj target k o ht
        obtain ⟨o2, r2, h1, h2, h3⟩ := getPath_mergeReactiveObject p o n h
        refine ⟨o2, r2, ?_, ?_, h3⟩
        · rw [JsVal.getPath, ht]; exact h1
        · rw [JsVal.getPath, get_mergeReactiveObject target source k hk, ht, hs, resultAt_obj]
          exact h2
      | _ => simp [ht, hs] at h
    | _ => simp [ht] at h

/-! ### Claims on the merge algorithm -/

/-- C1 (evaluation of the code at the failing input): on the slice `{a: {b: 0, c: 5}}`,
`$patch({a: {b: 1}})` sets `a.b` to `1` but leaves `a.c` at `undefined`, not at `5`: the
mapping form overwrites every key of the target that the partial state lacks. -/
theorem patch_mapping_clears_sibling :
    patch sliceABC (.mapping partialAB1) =
      .cons "a" (.obj (.cons "b" (.num 1) (.cons "c" .undefined .nil))) .nil ∧
    (sliceABC.get "a").fields.get "c" = .num 5 ∧
    ((patch sliceABC (.mapping partialAB1)).get "a").fields.get "b" = .num 1 ∧
    ((patch sliceABC (.mapping partialAB1)).get "a").fields.get "c" = .undefined := by
  decide

/-- C3: `mergeReactiveObject` meets the reference definition of `patch(target, partial)`.
For every target and partial mapping the result stands in the reference relation `PatchSpec`
(so a result always exists: no error); at each key of the target the result is the recursive
merge when both values are non-null objects and exactly the partial's value otherwise; and on
a well-formed target any result allowed by the reference definition is the computed one. -/
theorem mergeReactiveObject_meets_reference (target source : Fields) :
    PatchSpec (.obj target) (.obj source) (.obj (mergeReactiveObject target source)) ∧
    (∀ k, k ∈ target.keys →
      (mergeReactiveObject target source).get k =
        if isObject (target.get k) && isObject (source.get k) then
          .obj (mergeReactiveObject (target.get k).fields (source.get k).fields)
        else source.get k) ∧
    (∀ r, target.wf = true → PatchSpec (.obj target) (.obj source) r →
      r = .obj (mergeReactiveObject target source)) := by
  refine ⟨?_, ?_, ?_⟩
  · simpa [resultAt_obj] using patchSpec_resultAt (.obj target) (.obj source)
  · intro k hk
    rw [get_mergeReactiveObject target source k hk, resultAt_eq_ite]
  · intro r hwf h
    simpa [resultAt_obj] using patchSpec_unique _ _ r h (by simpa [JsVal.wf] using hwf)

/-- C4: `mergeReactiveObject` leaves the key set of the target unchanged: the enumeration of
keys after the merge is the one before, a key present only in the partial state is not
added, and the same holds for every nested object the merge recurses into. -/
theorem mergeReactiveObject_keys_unchanged (target source : Fields) :
    (mergeReactiveObject target source).keys = target.keys ∧
    (∀ k, k ∈ source.keys → k ∉ target.keys →
      k ∉ (mergeReactiveObject target source).keys) ∧
    (∀ path, recursesInto target source path = true →
      ∃ o r, JsVal.getPath path (.obj target) = .obj o ∧
        JsVal.getPath path (.obj (mergeReactiveObject target source)) = .obj r ∧
        r.keys = o.keys) := by
  refine ⟨keys_mergeReactiveObject target source, ?_, ?_⟩
  · intro k _ hk
    rw [keys_mergeReactiveObject]
    exact hk
  · intro path h
    exact getPath_mergeReactiveObject path target source h

/-- Witness for C3: on the well-formed slice `{a: {b: 0, c: 5}}` and the partial state
`{a: {b: 1}}`, the result allowed by the reference definition is `{a: {b: 1, c: undefined}}`,
the one the code computes. -/
theorem mergeReactiveObject_meets_reference_witness :
    PatchSpec (.obj sliceABC) (.obj partialAB1)
      (.obj (.cons "a" (.obj (.cons "b" (.num 1) (.cons "c" .undefined .nil))) .nil)) :=
  (mergeReactiveObject_meets_reference sliceABC partialAB1).1

/-- Witness for C4: the merge of `{a: {b: 1}}` into `{a: {b: 0, c: 5}}` recurses into `a`,
whose keys stay `b` and `c`. -/
theorem mergeReactiveObject_keys_unchanged_witness :
    ∃ o r, JsVal.getPath ["a"] (.obj sliceABC) = .obj o ∧
      JsVal.getPath ["a"] (.obj (mergeReactiveObject sliceABC partialAB1)) = .obj r ∧
      r.keys = o.keys :=
  (mergeReactiveObject_keys_unchanged sliceABC partialAB1).2.2 ["a"] (by decide)

/-! ### Subscription lists -/

/-- The closure `remove` deletes the first occurrence of its callback. -/
theorem remove_eq_erase (subscriptions : List Callback) (callback : Callback) :
    remove subscriptions callback = subscriptions.erase callback := by
  induction subscriptions with
  | nil => simp [remove, indexOf]
  | cons c rest ih =>
    by_cases hc : c = callback
    · subst hc
      simp [remove, indexOf, splice1]
    · have hcb : (c == callback) = false := by simpa using hc
      rw [List.erase_cons, hcb]
      simp only [Bool.false_eq_true, if_false]
      rw [← ih]
      unfold remove
      simp only [indexOf, if_neg hc]
      by_cases hi : indexOf rest callback > -1
      · have h0 : 0 ≤ indexOf rest callback := by omega
        have hpos : indexOf rest callback + 1 > -1 := by omega
        simp only [if_pos hi, if_pos hpos]
        obtain ⟨n, hn⟩ := Int.eq_ofNat_of_zero_le h0
        rw [hn]
        have : ((n : Int) + 1).toNat = n + 1 := by omega
        rw [this]
        simp [splice1]
      · simp [if_neg hi]

theorem remove_of_not_mem (subscriptions : List Callback) (callback : Callback)
    (h : callback ∉ subscriptions) : remove subscriptions callback = subscriptions := by
  rw [remove_eq_erase]
  exact List.erase_of_not_mem h

theorem count_applyOp (subscriptions : List Callback) (op : SubscriptionOp) (cb : Callback)
    (h : op.callback ≠ cb) : (applyOp subscriptions op).count cb = subscriptions.count cb := by
  cases op with
  | register c =>
    have hc : c ≠ cb := h
    simp [applyOp, addSubScription, List.count_append, List.count_cons, hc]
  | unregister c =>
    have hc : c ≠ cb := h
    rw [applyOp, remove_eq_erase]
    exact List.count_erase_of_ne (Ne.symm hc) subscriptions

theorem count_applyOps (ops : List SubscriptionOp) (cb : Callback) :
    ∀ (subscriptions : List Callback), (∀ op ∈ ops, op.callback ≠ cb) →
      (applyOps subscriptions ops).count cb = subscriptions.count cb := by
  induction ops with
  | nil => intro subscriptions _; rfl
  | cons op rest ih =>
    intro subscriptions h
    have h1 : op.callback ≠ cb := h op (List.mem_cons_self _ _)
    have h2 : ∀ o ∈ rest, o.callback ≠ cb := fun o ho => h o (List.mem_cons_of_mem _ ho)
    show (applyOps (applyOp subscriptions op) rest).count cb = subscriptions.count cb
    rw [ih (applyOp subscriptions op) h2, count_applyOp subscriptions op cb h1]

theorem filter_ne_erase (l : List Callback) (cb : Callback) :
    (l.erase cb).filter (fun c => decide (c ≠ cb)) = l.filter (fun c => decide (c ≠ cb)) := by
  induction l with
  | nil => rfl
  | cons c rest ih =>
    by_cases hc : c = cb
    · subst hc
      simp
    · have hcb : (c == cb) = false := by simpa using hc
      rw [List.erase_cons, hcb]
      simp only [Bool.false_eq_true, if_false, List.filter_cons, ih]

/-! ### Claim on the unregister function -/

/-- C10: let `cb` be registered through `$onAction(cb)` (`addSubScription`) on any
subscriber list, followed by any interleaving of registrations and unregistrations of other
callbacks.  Then `cb` is still registered; calling the returned unregister function deletes
exactly one entry, an entry holding `cb` (the earliest one), so that every other entry stays
present in its original relative order; when `cb` was not in the list before its
registration it is gone afterwards; and the unregister function changes nothing on a list
that does not hold `cb`. -/
theorem unregister_removes_exactly_its_callback
    (subscriptions : List Callback) (cb : Callback) (ops : List SubscriptionOp)
    (hops : ∀ op ∈ ops, op.callback ≠ cb) :
    cb ∈ applyOps (addSubScription subscriptions cb) ops ∧
    (∃ before after,
      applyOps (addSubScription subscriptions cb) ops = before ++ cb :: after ∧
      cb ∉ before ∧
      remove (applyOps (addSubScription subscriptions cb) ops) cb = before ++ after) ∧
    (remove (applyOps (addSubScription subscriptions cb) ops) cb).filter
        (fun c => decide (c ≠ cb)) =
      (applyOps (addSubScription subscriptions cb) ops).filter (fun c => decide (c ≠ cb)) ∧
    (remove (applyOps (addSubScription subscriptions cb) ops) cb).count cb + 1 =
      (applyOps (addSubScription subscriptions cb) ops).count cb ∧
    (cb ∉ subscriptions → cb ∉ remove (applyOps (addSubScription subscriptions cb) ops) cb) ∧
    (∀ l : List Callback, cb ∉ l → remove l cb = l) := by
  have hcount : (applyOps (addSubScription subscriptions cb) ops).count cb =
      subscriptions.count cb + 1 := by
    rw [count_applyOps ops cb _ hops]
    simp [addSubScription, List.count_append]
  have hmem : cb ∈ applyOps (addSubScription subscriptions cb) ops :=
    List.count_pos_iff.1 (by omega)
  refine ⟨hmem, ?_, ?_, ?_, ?_, fun l hl => remove_of_not_mem l cb hl⟩
  · obtain ⟨l₁, l₂, h1, h2, h3⟩ := List.exists_erase_eq hmem
    exact ⟨l₁, l₂, h2, h1, by rw [remove_eq_erase]; exact h3⟩
  · rw [remove_eq_erase]
    exact filter_ne_erase _ cb
  · rw [remove_eq_erase, List.count_erase_self, hcount]
    simp
  · intro hnot
    rw [remove_eq_erase]
    apply List.count_eq_zero.1
    rw [List.count_erase_self, hcount, List.count_eq_zero.2 hnot]

/-- Witness for C10: list `[1, 2]`, callback `3`, then registering `4` and unregistering
`1`. -/
theorem unregister_removes_exactly_its_callback_witness :
    remove (applyOps (addSubScription [1, 2] 3) [.register 4, .unregister 1]) 3 = [2, 4] ∧
    3 ∈ applyOps (addSubScription [1, 2] 3) [.register 4, .unregister 1] :=
  ⟨by decide,
    (unregister_removes_exactly_its_callback [1, 2] 3 [.register 4, .unregister 1]
      (by decide)).1⟩

/-! ### The action interceptor -/

/-- When the callbacks leave the array alone, `forEach` visits its elements in order. -/
theorem forEachFrom_eq_foldl {σ κ : Type} (arr : σ → List κ) (call : κ → σ → σ)
    (h : ∀ c s, arr (call c s) = arr s) :
    ∀ (remaining index : Nat) (s : σ), index + remaining = (arr s).length →
      forEachFrom arr call remaining index s =
        ((arr s).drop index).foldl (fun s c => call c s) s := by
  intro remaining
  induction remaining with
  | zero =>
    intro index s hlen
    have : (arr s).drop index = [] := List.drop_eq_nil_of_le (by omega)
    simp [forEachFrom, this]
  | succ n ih =>
    intro index s hlen
    have hlt : index < (arr s).length := by omega
    have hget : (arr s)[index]? = some ((arr s)[index]) := List.getElem?_eq_getElem hlt
    have hdrop : (arr s).drop index = (arr s)[index] :: (arr s).drop (index + 1) :=
      List.drop_eq_getElem_cons hlt
    rw [forEachFrom, hget]
    simp only
    rw [ih (index + 1) (call (arr s)[index] s) (by rw [h]; omega), h, hdrop]
    rfl

theorem forEach_eq_foldl {σ κ : Type} (arr : σ → List κ) (call : κ → σ → σ)
    (h : ∀ c s, arr (call c s) = arr s) (s : σ) :
    forEach arr call s = (arr s).foldl (fun s c => call c s) s := by
  rw [forEach, forEachFrom_eq_foldl arr call h _ 0 s (by omega)]
  simp

theorem foldl_register (regs : List Registration) : ∀ (s : CallState),
    regs.foldl register s =
      { s with
        afterCallbacks := s.afterCallbacks ++
          regs.filterMap (fun r => match r with | .after h => some h | .onError _ => none)
        onErrorCallbacks := s.onErrorCallbacks ++
          regs.filterMap (fun r => match r with | .after _ => none | .onError h => some h) } := by
  induction regs with
  | nil => intro s; simp
  | cons r rest ih =>
    intro s
    rw [List.foldl_cons, ih]
    cases r <;> simp [register]

theorem notify_actionSubscriptions (env : SubscriberEnv) (name : String) (args : List JsVal)
    (c : Callback) (s : CallState) :
    (notify env name args c s).actionSubscriptions = s.actionSubscriptions := by
  rw [notify, foldl_register]

theorem foldl_notify (env : SubscriberEnv) (name : String) (args : List JsVal)
    (subs : List Callback) : ∀ (s : CallState),
    subs.foldl (fun s c => notify env name args c s) s =
      { s with
        afterCallbacks := s.afterCallbacks ++ afterRegistrations env name args subs
        onErrorCallbacks := s.onErrorCallbacks ++ errorRegistrations env name args subs
        trace := s.trace ++ subs.map (fun c => Event.notified c name args) } := by
  induction subs with
  | nil => intro s; simp [afterRegistrations, errorRegistrations]
  | cons c rest ih =>
    intro s
    rw [List.foldl_cons, ih, notify, foldl_register]
    simp [afterRegistrations, errorRegistrations, List.flatMap_cons]

theorem foldl_callAfter (ret : Ret) (hooks : List Callback) : ∀ (s : CallState),
    hooks.foldl (fun s c => callAfter ret c s) s =
      { s with trace := s.trace ++ hooks.map (fun c => Event.afterCalled c ret) } := by
  induction hooks with
  | nil => intro s; simp
  | cons c rest ih =>
    intro s
    rw [List.foldl_cons, ih]
    simp [callAfter]

theorem foldl_callError (e : JsVal) (hooks : List Callback) : ∀ (s : CallState),
    hooks.foldl (fun s c => callError e c s) s =
      { s with trace := s.trace ++ hooks.map (fun c => Event.errorCalled c e) } := by
  induction hooks with
  | nil => intro s; simp
  | cons c rest ih =>
    intro s
    rw [List.foldl_cons, ih]
    simp [callError]

theorem trigger_notify (env : SubscriberEnv) (name : String) (args : List JsVal)
    (s : CallState) :
    triggerSubscriptions CallState.actionSubscriptions (notify env name args) s =
      { s with
        afterCallbacks :=
          s.afterCallbacks ++ afterRegistrations env name args s.actionSubscriptions
        onErrorCallbacks :=
          s.onErrorCallbacks ++ errorRegistrations env name args s.actionSubscriptions
        trace := s.trace ++
          s.actionSubscriptions.map (fun c => Event.notified c name args) } := by
  rw [triggerSubscriptions,
    forEach_eq_foldl _ _ (fun c s => notify_actionSubscriptions env name args c s),
    foldl_notify]

theorem trigger_callAfter (ret : Ret) (s : CallState) :
    triggerSubscriptions CallState.afterCallbacks (callAfter ret) s =
      { s with
        trace := s.trace ++ s.afterCallbacks.map (fun c => Event.afterCalled c ret) } := by
  rw [triggerSubscriptions,
    forEach_eq_foldl CallState.afterCallbacks (callAfter ret) (fun _ _ => rfl), foldl_callAfter]

theorem trigger_callError (e : JsVal) (s : CallState) :
    triggerSubscriptions CallState.onErrorCallbacks (callError e) s =
      { s with
        trace := s.trace ++ s.onErrorCallbacks.map (fun c => Event.errorCalled c e) } := by
  rw [triggerSubscriptions,
    forEach_eq_foldl CallState.onErrorCallbacks (callError e) (fun _ _ => rfl), foldl_callError]

/-- The value a wrapped call returns for an outcome of the raw action. -/
theorem wrapActions_completion (env : SubscriberEnv) (name : String) (action : Action)
    (subs : List Callback) (slice : Fields) (args : List JsVal) :
    (wrapActions env name action subs slice args).completion =
      .returned (match (action slice args).2 with
        | .returned r => r
        | .threw _ => .value .undefined) := by
  simp [wrapActions, trigger_notify]

/-- The trace of a wrapped call: the subscribers in registration order, the raw action, on a
throw the error-callbacks with the thrown value, then the after-callbacks with `ret`. -/
theorem wrapActions_trace (env : SubscriberEnv) (name : String) (action : Action)
    (subs : List Callback) (slice : Fields) (args : List JsVal) :
    (wrapActions env name action subs slice args).state.trace =
      subs.map (fun c => Event.notified c name args) ++ [Event.actionRun name args] ++
      (match (action slice args).2 with
        | .returned _ => []
        | .threw e =>
          (errorRegistrations env name args subs).map (fun c => Event.errorCalled c e)) ++
      (afterRegistrations env name args subs).map (fun c => Event.afterCalled c
        (match (action slice args).2 with
          | .returned r => r
          | .threw _ => .value .undefined)) := by
  simp only [wrapActions, trigger_notify, trigger_callAfter, trigger_callError]
  cases h : (action slice args).2 <;> simp [trigger_callError]

theorem wrapActions_afterCallbacks (env : SubscriberEnv) (name : String) (action : Action)
    (subs : List Callback) (slice : Fields) (args : List JsVal) :
    (wrapActions env name action subs slice args).state.afterCallbacks =
      afterRegistrations env name args subs := by
  simp only [wrapActions, trigger_notify, trigger_callAfter]
  cases h : (action slice args).2 <;> simp [trigger_callError]

theorem wrapActions_onErrorCallbacks (env : SubscriberEnv) (name : String)
    (action : Action) (subs : List Callback) (slice : Fields) (args : List JsVal) :
    (wrapActions env name action subs slice args).state.onErrorCallbacks =
      errorRegistrations env name args subs := by
  simp only [wrapActions, trigger_notify, trigger_callAfter]
  cases h : (action slice args).2 <;> simp [trigger_callError]

theorem notificationsOf_append (cb : Callback) (t u : List Event) :
    notificationsOf cb (t ++ u) = notificationsOf cb t ++ notificationsOf cb u := by
  simp [notificationsOf]

theorem notificationsOf_notified (cb : Callback) (name : String) (args : List JsVal)
    (subs : List Callback) :
    notificationsOf cb (subs.map (fun c => Event.notified c name args)) =
      (subs.filter (fun c => decide (c = cb))).map (fun c => Event.notified c name args) := by
  induction subs with
  | nil => rfl
  | cons c rest ih =>
    have ih2 : List.filter (fun e => match e with
        | Event.notified c _ _ => decide (c = cb)
        | _ => false) (rest.map (fun c => Event.notified c name args)) =
        (rest.filter (fun c => decide (c = cb))).map (fun c => Event.notified c name args) := ih
    by_cases hc : c = cb <;> simp [notificationsOf, List.filter_cons, hc, ih2]

theorem notificationsOf_afterCalled (cb : Callback) (ret : Ret) (hooks : List Callback) :
    notificationsOf cb (hooks.map (fun c => Event.afterCalled c ret)) = [] := by
  simp [notificationsOf, List.filter_eq_nil_iff]

theorem notificationsOf_errorCalled (cb : Callback) (e : JsVal) (hooks : List Callback) :
    notificationsOf cb (hooks.map (fun c => Event.errorCalled c e)) = [] := by
  simp [notificationsOf, List.filter_eq_nil_iff]

theorem notificationsOf_wrapActions (env : SubscriberEnv) (name : String) (action : Action)
    (subs : List Callback) (slice : Fields) (args : List JsVal) (cb : Callback) :
    notificationsOf cb (wrapActions env name action subs slice args).state.trace =
      (subs.filter (fun c => decide (c = cb))).map (fun c => Event.notified c name args) := by
  rw [wrapActions_trace]
  simp only [notificationsOf_append, notificationsOf_notified, notificationsOf_afterCalled]
  have h1 : notificationsOf cb [Event.actionRun name args] = [] := rfl
  have h2 : notificationsOf cb
      (match (action slice args).2 with
        | .returned _ => []
        | .threw e =>
          (errorRegistrations env name args subs).map (fun c => Event.errorCalled c e)) = [] := by
    cases (action slice args).2 with
    | returned r => rfl
    | threw e => exact notificationsOf_errorCalled cb e _
  rw [h1, h2]
  simp

theorem filter_eq_addSubScription (subs : List Callback) (cb : Callback) (h : cb ∉ subs) :
    (addSubScription subs cb).filter (fun c => decide (c = cb)) = [cb] := by
  have : subs.filter (fun c => decide (c = cb)) = [] := by
    rw [List.filter_eq_nil_iff]
    intro c hc
    have : c ≠ cb := fun e => h (e ▸ hc)
    simpa using this
  simp [addSubScription, List.filter_append, this]

theorem filter_eq_remove (subs : List Callback) (cb : Callback) (h : cb ∉ subs) :
    (remove (addSubScription subs cb) cb).filter (fun c => decide (c = cb)) = [] := by
  rw [remove_eq_erase, List.filter_eq_nil_iff]
  intro c hc
  have hcount : (addSubScription subs cb).count cb = 1 := by
    simp [addSubScription, List.count_append, List.count_eq_zero.2 h]
  have hnot : cb ∉ (addSubScription subs cb).erase cb := by
    apply List.count_eq_zero.1
    rw [List.count_erase_self, hcount]
  have : c ≠ cb := fun e => hnot (e ▸ hc)
  simpa using this

/-! ### Claims on the action interceptor -/

/-- C5: let `cb1` be registered once through `$onAction` (`addSubScription` on a list that
does not hold it).  Every call of a wrapped action, whatever its name, arguments and raw
action, first notifies the subscribers in registration order with the action's name and the
call's arguments and only then runs the raw action; `cb1` is notified exactly once, with that
name and those arguments.  After the unregister function has been called, a call of a wrapped
action does not notify `cb1`. -/
theorem onAction_callback_notified_once (env : SubscriberEnv) (subs : List Callback)
    (cb1 : Callback) (name : String) (action : Action) (slice : Fields) (args : List JsVal)
    (name2 : String) (action2 : Action) (slice2 : Fields) (args2 : List JsVal)
    (hfresh : cb1 ∉ subs) :
    (∃ rest,
      (wrapActions env name action (addSubScription subs cb1) slice args).state.trace =
        (addSubScription subs cb1).map (fun c => Event.notified c name args) ++
          Event.actionRun name args :: rest ∧
      ∀ e ∈ rest, (∃ c r, e = Event.afterCalled c r) ∨ (∃ c x, e = Event.errorCalled c x)) ∧
    notificationsOf cb1
        (wrapActions env name action (addSubScription subs cb1) slice args).state.trace =
      [Event.notified cb1 name args] ∧
    notificationsOf cb1
        (wrapActions env name2 action2 (remove (addSubScription subs cb1) cb1) slice2
          args2).state.trace = [] := by
  refine ⟨?_, ?_, ?_⟩
  · refine ⟨(match (action slice args).2 with
        | .returned _ => []
        | .threw e =>
          (errorRegistrations env name args (addSubScription subs cb1)).map
            (fun c => Event.errorCalled c e)) ++
      (afterRegistrations env name args (addSubScription subs cb1)).map
        (fun c => Event.afterCalled c
          (match (action slice args).2 with
            | .returned r => r
            | .threw _ => .value .undefined)), ?_, ?_⟩
    · rw [wrapActions_trace]
      simp
    · intro e he
      rcases List.mem_append.1 he with h | h
      · cases hout : (action slice args).2 with
        | returned r => simp [hout] at h
        | threw x =>
          simp only [hout, List.mem_map] at h
          obtain ⟨c, _, rfl⟩ := h
          exact Or.inr ⟨c, x, rfl⟩
      · obtain ⟨c, _, rfl⟩ := List.mem_map.1 h
        exact Or.inl ⟨c, _, rfl⟩
  · rw [notificationsOf_wrapActions, filter_eq_addSubScription subs cb1 hfresh]
    rfl
  · rw [notificationsOf_wrapActions, filter_eq_remove subs cb1 hfresh]
    rfl

/-- Witness for C5: subscribers `[1, 2]`, new callback `3`, action `inc` called with `[5]`. -/
theorem onAction_callback_notified_once_witness :
    notificationsOf 3
        (wrapActions envExample "inc" plainAction (addSubScription [1, 2] 3) .nil
          [.num 5]).state.trace = [Event.notified 3 "inc" [.num 5]] ∧
    notificationsOf 3
        (wrapActions envExample "inc" plainAction (remove (addSubScription [1, 2] 3) 3) .nil
          [.num 5]).state.trace = [] :=
  (onAction_callback_notified_once envExample [1, 2] 3 "inc" plainAction .nil [.num 5]
    "inc" plainAction .nil [.num 5] (by decide)).2

theorem errorCalls_wrapActions (env : SubscriberEnv) (name : String) (action : Action)
    (subs : List Callback) (slice : Fields) (args : List JsVal) :
    errorCalls (wrapActions env name action subs slice args).state.trace =
      match (action slice args).2 with
      | .returned _ => []
      | .threw e =>
        (errorRegistrations env name args subs).map (fun c => Event.errorCalled c e) := by
  rw [wrapActions_trace]
  cases (action slice args).2 with
  | returned r => simp [errorCalls, List.filter_eq_nil_iff]
  | threw e =>
    simp only [errorCalls, List.filter_append]
    rw [List.filter_eq_nil_iff.2, List.filter_eq_nil_iff.2, List.filter_eq_self.2,
      List.filter_eq_nil_iff.2] <;> simp

theorem afterCalls_wrapActions (env : SubscriberEnv) (name : String) (action : Action)
    (subs : List Callback) (slice : Fields) (args : List JsVal) :
    afterCalls (wrapActions env name action subs slice args).state.trace =
      (afterRegistrations env name args subs).map (fun c => Event.afterCalled c
        (match (action slice args).2 with
          | .returned r => r
          | .threw _ => .value .undefined)) := by
  rw [wrapActions_trace]
  simp only [afterCalls, List.filter_append]
  rw [List.filter_eq_nil_iff.2, List.filter_eq_nil_iff.2, List.filter_eq_nil_iff.2,
    List.filter_eq_self.2]
  · simp
  · simp
  · cases (action slice args).2 <;> simp
  · simp
  · simp

theorem count_errorCalled_map (hooks : List Callback) (c : Callback) (e : JsVal) :
    (hooks.map (fun c => Event.errorCalled c e)).count (Event.errorCalled c e) =
      hooks.count c :=
  List.count_map_of_injective hooks (fun c => Event.errorCalled c e)
    (fun a b h => by simpa using h) c

theorem count_afterCalled_map (hooks : List Callback) (c : Callback) (ret : Ret) :
    (hooks.map (fun c => Event.afterCalled c ret)).count (Event.afterCalled c ret) =
      hooks.count c :=
  List.count_map_of_injective hooks (fun c => Event.afterCalled c ret)
    (fun a b h => by simpa using h) c

theorem count_afterCalled_map_ne (hooks : List Callback) (c : Callback) (ret ret2 : Ret)
    (h : ret ≠ ret2) :
    (hooks.map (fun c => Event.afterCalled c ret)).count (Event.afterCalled c ret2) = 0 := by
  apply List.count_eq_zero_of_not_mem
  intro hmem
  obtain ⟨d, _, hd⟩ := List.mem_map.1 hmem
  simp only [Event.afterCalled.injEq] at hd
  exact h hd.2

/-- C6: when the raw action throws `e` synchronously, the wrapped call returns to its caller
(it does not raise) with an undefined result, and the calls of error-callbacks it made are
exactly one call with `e` for every registration made through `onError` during that call,
in registration order. -/
theorem sync_throw_goes_to_error_callbacks (env : SubscriberEnv) (name : String)
    (action : Action) (subs : List Callback) (slice : Fields) (args : List JsVal) (e : JsVal)
    (hthrow : (action slice args).2 = .threw e) :
    (wrapActions env name action subs slice args).completion =
      .returned (.value .undefined) ∧
    (wrapActions env name action subs slice args).state.onErrorCallbacks =
      errorRegistrations env name args subs ∧
    errorCalls (wrapActions env name action subs slice args).state.trace =
      (errorRegistrations env name args subs).map (fun c => Event.errorCalled c e) ∧
    ∀ c, (errorCalls (wrapActions env name action subs slice args).state.trace).count
        (Event.errorCalled c e) = (errorRegistrations env name args subs).count c := by
  refine ⟨?_, wrapActions_onErrorCallbacks env name action subs slice args, ?_, ?_⟩
  · rw [wrapActions_completion, hthrow]
  · rw [errorCalls_wrapActions, hthrow]
  · intro c
    rw [errorCalls_wrapActions, hthrow]
    exact count_errorCalled_map _ c e

/-- Witness for C6: subscribers `1` and `2` of `envExample`, the raw action throws `"boom"`:
error-callback `20` is called once with `"boom"` and the call returns `undefined`. -/
theorem sync_throw_goes_to_error_callbacks_witness :
    (wrapActions envExample "inc" throwingAction [1, 2] .nil []).completion =
      .returned (.value .undefined) ∧
    errorCalls (wrapActions envExample "inc" throwingAction [1, 2] .nil []).state.trace =
      [Event.errorCalled 20 (.str "boom")] := by
  have h := sync_throw_goes_to_error_callbacks envExample "inc" throwingAction [1, 2] .nil []
    (.str "boom") rfl
  exact ⟨h.1, by decide⟩

/-- C7: when the raw action returns a pending promise `p`, the wrapped call returns `p`
itself; before it returns it has called every after-callback registered during the call once
with the pending value; and when `p` resolves to `v` the attached continuation calls every
one of them once more, with `v`.  So each registration is served exactly twice. -/
theorem async_after_callbacks_fire_twice (env : SubscriberEnv) (name : String)
    (action : Action) (subs : List Callback) (slice : Fields) (args : List JsVal)
    (p : Nat) (v : JsVal) (hasync : (action slice args).2 = .returned (.promise p)) :
    (wrapActions env name action subs slice args).completion = .returned (.promise p) ∧
    afterCalls (wrapActions env name action subs slice args).state.trace =
      (afterRegistrations env name args subs).map
        (fun c => Event.afterCalled c (.promise p)) ∧
    ∃ s, resolved (wrapActions env name action subs slice args) v = some s ∧
      s.trace = (wrapActions env name action subs slice args).state.trace ++
        (afterRegistrations env name args subs).map
          (fun c => Event.afterCalled c (.value v)) ∧
      afterCalls s.trace =
        (afterRegistrations env name args subs).map
          (fun c => Event.afterCalled c (.promise p)) ++
        (afterRegistrations env name args subs).map
          (fun c => Event.afterCalled c (.value v)) ∧
      ∀ c, (afterCalls s.trace).count (Event.afterCalled c (.promise p)) =
          (afterRegistrations env name args subs).count c ∧
        (afterCalls s.trace).count (Event.afterCalled c (.value v)) =
          (afterRegistrations env name args subs).count c ∧
        (afterCalls s.trace).length = 2 * (afterRegistrations env name args subs).length := by
  have hc : (wrapActions env name action subs slice args).completion =
      .returned (.promise p) := by
    rw [wrapActions_completion, hasync]
  have ha : afterCalls (wrapActions env name action subs slice args).state.trace =
      (afterRegistrations env name args subs).map
        (fun c => Event.afterCalled c (.promise p)) := by
    rw [afterCalls_wrapActions, hasync]
  refine ⟨hc, ha, ?_⟩
  refine ⟨_, by rw [resolved, hc], ?_, ?_, ?_⟩
  · rw [trigger_callAfter, wrapActions_afterCallbacks]
  · rw [trigger_callAfter, wrapActions_afterCallbacks]
    show afterCalls (_ ++ _) = _
    rw [afterCalls, List.filter_append]
    have h2 : afterCalls ((afterRegistrations env name args subs).map
        (fun c => Event.afterCalled c (.value v))) =
        (afterRegistrations env name args subs).map
          (fun c => Event.afterCalled c (.value v)) := by
      rw [afterCalls, List.filter_eq_self]
      simp
    rw [afterCalls] at ha h2
    rw [ha, h2]
  · intro c
    rw [trigger_callAfter, wrapActions_afterCallbacks]
    have hs : afterCalls ((wrapActions env name action subs slice args).state.trace ++
        (afterRegistrations env name args subs).map
          (fun c => Event.afterCalled c (.value v))) =
        (afterRegistrations env name args subs).map
          (fun c => Event.afterCalled c (.promise p)) ++
        (afterRegistrations env name args subs).map
          (fun c => Event.afterCalled c (.value v)) := by
      rw [afterCalls, List.filter_append]
      have h2 : afterCalls ((afterRegistrations env name args subs).map
          (fun c => Event.afterCalled c (.value v))) =
          (afterRegistrations env name args subs).map
            (fun c => Event.afterCalled c (.value v)) := by
        rw [afterCalls, List.filter_eq_self]
        simp
      rw [afterCalls] at ha h2
      rw [ha, h2]
    show (afterCalls (_ ++ _)).count _ = _ ∧ (afterCalls (_ ++ _)).count _ = _ ∧
      (afterCalls (_ ++ _)).length = _
    rw [hs]
    refine ⟨?_, ?_, ?_⟩
    · rw [List.count_append, count_afterCalled_map,
        count_afterCalled_map_ne _ _ _ _ (by simp)]
      rfl
    · rw [List.count_append, count_afterCalled_map,
        count_afterCalled_map_ne _ _ _ _ (by simp)]
      simp
    · simp
      omega

/-- Witness for C7: subscribers `1` and `2` of `envExample`, the raw action returns the
pending promise `7`, which later resolves to `42`. -/
theorem async_after_callbacks_fire_twice_witness :
    (wrapActions envExample "load" asyncAction [1, 2] .nil []).completion =
      .returned (.promise 7) ∧
    afterCalls (wrapActions envExample "load" asyncAction [1, 2] .nil []).state.trace =
      [Event.afterCalled 10 (.promise 7), Event.afterCalled 11 (.promise 7)] ∧
    (resolved (wrapActions envExample "load" asyncAction [1, 2] .nil []) (.num 42)).map
        (fun s => afterCalls s.trace) =
      some [Event.afterCalled 10 (.promise 7), Event.afterCalled 11 (.promise 7),
        Event.afterCalled 10 (.value (.num 42)), Event.afterCalled 11 (.value (.num 42))] := by
  have h := async_after_callbacks_fire_twice envExample "load" asyncAction [1, 2] .nil []
    7 (.num 42) rfl
  exact ⟨h.1, by decide, by decide⟩

/-! ### Tables -/

theorem mapGet_mapSet_self {α : Type} (m : List (String × α)) (k : String) (v : α) :
    mapGet (mapSet m k v) k = some v := by
  induction m with
  | nil => simp [mapSet, mapGet]
  | cons e rest ih =>
    obtain ⟨k2, x⟩ := e
    by_cases h : k2 = k <;> simp [mapSet, mapGet, h, ih]

theorem mapGet_mapSet_ne {α : Type} (m : List (String × α)) (k k2 : String) (v : α)
    (h : k ≠ k2) : mapGet (mapSet m k v) k2 = mapGet m k2 := by
  induction m with
  | nil => simp [mapSet, mapGet, h]
  | cons e rest ih =>
    obtain ⟨k3, x⟩ := e
    by_cases h3 : k3 = k
    · subst h3
      simp [mapSet, mapGet, h]
    · by_cases h4 : k3 = k2
      · subst h4
        simp [mapSet, mapGet, h3]
      · simp [mapSet, mapGet, h3, h4, ih]

theorem mapHas_mapSet_self {α : Type} (m : List (String × α)) (k : String) (v : α) :
    mapHas (mapSet m k v) k = true := by
  simp [mapHas, mapGet_mapSet_self]

theorem mapHas_mapSet_ne {α : Type} (m : List (String × α)) (k k2 : String) (v : α)
    (h : k ≠ k2) : mapHas (mapSet m k v) k2 = mapHas m k2 := by
  simp [mapHas, mapGet_mapSet_ne m k k2 v h]

theorem mapHas_mapSet_of_mapHas {α : Type} (m : List (String × α)) (k k2 : String) (v : α)
    (h : mapHas m k2 = true) : mapHas (mapSet m k v) k2 = true := by
  by_cases hk : k = k2
  · subst hk; exact mapHas_mapSet_self m k v
  · rw [mapHas_mapSet_ne m k k2 v hk]; exact h

theorem mapGet_mapUpdate_self {α : Type} (f : α → α) (m : List (String × α)) (k : String) :
    mapGet (mapUpdate f m k) k = (mapGet m k).map f := by
  induction m with
  | nil => simp [mapUpdate, mapGet]
  | cons e rest ih =>
    obtain ⟨k2, x⟩ := e
    by_cases h : k2 = k <;> simp [mapUpdate, mapGet, h, ih]

theorem mapGet_mapUpdate_ne {α : Type} (f : α → α) (m : List (String × α)) (k k2 : String)
    (h : k ≠ k2) : mapGet (mapUpdate f m k) k2 = mapGet m k2 := by
  induction m with
  | nil => simp [mapUpdate, mapGet]
  | cons e rest ih =>
    obtain ⟨k3, x⟩ := e
    by_cases h3 : k3 = k
    · subst h3
      simp [mapUpdate, mapGet, h]
    · by_cases h4 : k3 = k2
      · subst h4
        simp [mapUpdate, mapGet, h3]
      · simp [mapUpdate, mapGet, h3, h4, ih]

theorem mapHas_mapUpdate {α : Type} (f : α → α) (m : List (String × α)) (k k2 : String) :
    mapHas (mapUpdate f m k) k2 = mapHas m k2 := by
  by_cases h : k = k2
  · subst h
    rw [mapHas, mapGet_mapUpdate_self, mapHas]
    cases mapGet m k <;> rfl
  · rw [mapHas, mapGet_mapUpdate_ne f m k k2 h, mapHas]

theorem mapUpdate_const_of_mapGet {α : Type} (m : List (String × α)) (k : String) (v : α)
    (h : mapGet m k = some v) : mapUpdate (fun _ => v) m k = m := by
  induction m with
  | nil => rfl
  | cons e rest ih =>
    obtain ⟨k2, x⟩ := e
    by_cases h2 : k2 = k
    · simp only [mapGet, h2, if_true, Option.some.injEq] at h
      simp [mapUpdate, h2, h]
    · simp only [mapGet, h2, if_false] at h
      simp [mapUpdate, h2, ih h]

theorem mapUpdate_of_mapGet_none {α : Type} (f : α → α) (m : List (String × α)) (k : String)
    (h : mapGet m k = none) : mapUpdate f m k = m := by
  induction m with
  | nil => rfl
  | cons e rest ih =>
    obtain ⟨k2, x⟩ := e
    by_cases h2 : k2 = k
    · simp [mapGet, h2] at h
    · simp only [mapGet, h2, if_false] at h
      simp [mapUpdate, h2, ih h]

theorem mapGet_mapDelete_self {α : Type} (m : List (String × α)) (k : String) :
    mapGet (mapDelete m k) k = none := by
  induction m with
  | nil => rfl
  | cons e rest ih =>
    obtain ⟨k2, x⟩ := e
    by_cases h : k2 = k <;> simp [mapDelete, mapGet, h, ih]

theorem mapGet_mapDelete_ne {α : Type} (m : List (String × α)) (k k2 : String)
    (h : k ≠ k2) : mapGet (mapDelete m k) k2 = mapGet m k2 := by
  induction m with
  | nil => rfl
  | cons e rest ih =>
    obtain ⟨k3, x⟩ := e
    by_cases h3 : k3 = k
    · subst h3
      simp [mapDelete, mapGet, h, ih]
    · by_cases h4 : k3 = k2
      · subst h4
        simp [mapDelete, mapGet, h3]
      · simp [mapDelete, mapGet, h3, h4, ih]

theorem mapHas_of_mapHas_mapDelete {α : Type} (m : List (String × α)) (k k2 : String)
    (h : mapHas (mapDelete m k) k2 = true) : mapHas m k2 = true := by
  by_cases hk : k = k2
  · subst hk
    simp [mapHas, mapGet_mapDelete_self] at h
  · rwa [mapHas, mapGet_mapDelete_ne m k k2 hk] at h

theorem mem_mapKeys_iff {α : Type} (m : List (String × α)) (k : String) :
    k ∈ mapKeys m ↔ mapHas m k = true := by
  induction m with
  | nil => simp [mapKeys, mapHas, mapGet]
  | cons e rest ih =>
    obtain ⟨k2, x⟩ := e
    have ih2 : k ∈ rest.map Prod.fst ↔ mapHas rest k = true := ih
    by_cases h : k2 = k
    · simp [mapKeys, mapHas, mapGet, h]
    · have h2 : ¬ k = k2 := fun e => h e.symm
      simp only [mapKeys, List.map_cons, List.mem_cons, h2, false_or, ih2]
      simp [mapHas, mapGet, h]

/-! ### Frames of the store operations -/

theorem Frame.refl (w : World) : Frame w w :=
  ⟨rfl, rfl, rfl, fun _ => rfl⟩

theorem Frame.trans {w w2 w3 : World} (h : Frame w w2) (h2 : Frame w2 w3) : Frame w w3 :=
  ⟨h2.1.trans h.1, h2.2.1.trans h.2.1, h2.2.2.1.trans h.2.2.1,
    fun k => (h2.2.2.2 k).trans (h.2.2.2 k)⟩

theorem frame_updateStore (addr : Nat) (f : Store → Store) (w : World) :
    Frame w (updateStore addr f w) :=
  ⟨rfl, rfl, by simp [updateStore], fun _ => rfl⟩

theorem frame_updateSlice (id : String) (f : Fields → Fields) (w : World) :
    Frame w (updateSlice id f w) :=
  ⟨rfl, rfl, rfl, fun k => mapHas_mapUpdate f w.pinia.state id k⟩

theorem frame_runEffect (addr : Nat) (id : String) (w : World) (e : PluginEffect) :
    Frame w (runEffect addr id w e) := by
  cases e with
  | assignState state => exact frame_updateSlice id _ w
  | patch arg => exact frame_updateSlice id _ w
  | onAction callback => exact frame_updateStore addr _ w

theorem frame_foldl_runEffect (addr : Nat) (id : String) (effects : List PluginEffect) :
    ∀ w : World, Frame w (effects.foldl (runEffect addr id) w) := by
  induction effects with
  | nil => intro w; exact Frame.refl w
  | cons e rest ih =>
    intro w
    exact (frame_runEffect addr id w e).trans (ih _)

theorem frame_runPlugin (addr : Nat) (id : String) (w : World) (plugin : Plugin) :
    Frame w (runPlugin addr id w plugin) := by
  unfold runPlugin
  have h1 : Frame w { w with log := w.log ++ [.pluginRun plugin.tag addr] } :=
    ⟨rfl, rfl, rfl, fun _ => rfl⟩
  have h2 := frame_foldl_runEffect addr id
    (plugin.body id ((mapGet w.pinia.state id).getD .nil))
    { w with log := w.log ++ [.pluginRun plugin.tag addr] }
  cases plugin.extender with
  | none => exact h1.trans h2
  | some members => exact (h1.trans h2).trans (frame_updateStore addr _ _)

theorem frame_foldl_runPlugin (addr : Nat) (id : String) (plugins : List Plugin) :
    ∀ w : World, Frame w (plugins.foldl (runPlugin addr id) w) := by
  induction plugins with
  | nil => intro w; exact Frame.refl w
  | cons p rest ih =>
    intro w
    exact (frame_runPlugin addr id w p).trans (ih _)

theorem frame_runPlugins (addr : Nat) (id : String) (w : World) :
    Frame w (runPlugins addr id w) :=
  frame_foldl_runPlugin addr id w.pinia._p w

theorem frame_linkState (id : String) (isOption : Bool)
    (setupStore : List (String × Member)) (w : World) :
    Frame w (linkState id isOption setupStore w) :=
  frame_updateSlice id _ w

/-- What `assemble` does to the store map, the plugin list, the heap size and the ids of the
state tree. -/
theorem assemble_spec (id : String) (addr : Nat) (isOption : Bool)
    (setupStore : List (String × Member)) (w : World) :
    (assemble id addr isOption setupStore w).pinia._s = mapSet w.pinia._s id addr ∧
    (assemble id addr isOption setupStore w).pinia._p = w.pinia._p ∧
    (assemble id addr isOption setupStore w).heap.length = w.heap.length ∧
    (∀ k, mapHas (assemble id addr isOption setupStore w).pinia.state k =
      mapHas (ensureSlice id isOption w).pinia.state k) := by
  have hf : Frame (ensureSlice id isOption w)
      (runPlugins addr id (defineStateAccessor addr
        (linkState id isOption setupStore (ensureSlice id isOption w)))) :=
    ((frame_linkState id isOption setupStore _).trans (frame_updateStore addr _ _)).trans
      (frame_runPlugins addr id _)
  have he1 : (ensureSlice id isOption w).pinia._s = w.pinia._s := by
    unfold ensureSlice; split <;> rfl
  have he2 : (ensureSlice id isOption w).pinia._p = w.pinia._p := by
    unfold ensureSlice; split <;> rfl
  have he3 : (ensureSlice id isOption w).heap.length = w.heap.length := by
    unfold ensureSlice; split <;> rfl
  obtain ⟨h1, h2, h3, h4⟩ := hf
  refine ⟨?_, ?_, ?_, ?_⟩
  · show mapSet _ id addr = _
    rw [h1, he1]
  · show (runPlugins addr id _).pinia._p = _
    rw [h2, he2]
  · show (List.modify _ _ _).length = _
    rw [List.length_modify]
    show (runPlugins addr id _).heap.length = _
    rw [h3, he3]
  · intro k
    exact h4 k

@[simp] theorem allocate_pinia (id : String) (isOption : Bool) (w : World) :
    (allocate id isOption w).pinia = w.pinia := rfl

@[simp] theorem allocate_factoryCalls (id : String) (isOption : Bool) (w : World) :
    (allocate id isOption w).factoryCalls = w.factoryCalls := rfl

theorem ensureSlice_true (id : String) (w : World) : ensureSlice id true w = w := by
  simp [ensureSlice]

theorem ensureSlice_mono (id : String) (isOption : Bool) (w : World) (k : String)
    (h : mapHas w.pinia.state k = true) :
    mapHas (ensureSlice id isOption w).pinia.state k = true := by
  unfold ensureSlice
  split
  · exact mapHas_mapSet_of_mapHas _ _ _ _ h
  · exact h

theorem ensureSlice_false_has (id : String) (w : World) :
    mapHas (ensureSlice id false w).pinia.state id = true := by
  unfold ensureSlice
  by_cases h : mapHas w.pinia.state id = true
  · simp [h]
  · have h2 : mapHas w.pinia.state id = false := by simpa using h
    simp [h2, mapHas_mapSet_self]

/-- The slice a state factory of the options produces at its next call. -/
theorem optionsSetup_world (id : String) (o : Options) (w : World) :
    (optionsSetup id o w).1.pinia._s = w.pinia._s ∧
    (optionsSetup id o w).1.pinia._p = w.pinia._p ∧
    (optionsSetup id o w).1.heap = w.heap ∧
    (optionsSetup id o w).1.pinia.state =
      mapSet w.pinia.state id
        (match o.state with
          | some factory => factory w.factoryCalls
          | none => .nil) := by
  unfold optionsSetup
  cases hs : o.state <;> cases hg : o.getters <;> simp

theorem optionsSetup_result (id : String) (o : Options) (w : World) :
    ((optionsSetup id o w).2 = none ↔ o.getters = none) := by
  unfold optionsSetup
  cases hs : o.state <;> cases hg : o.getters <;> simp

/-- What building a store does to the registry: ids of the state tree are kept, the plugin
list is kept, and either the construction raises and the store map is unchanged, or the new
store object has the next free address, is registered under its id, and its id has a slice. -/
theorem build_spec (d : StoreDef) (w : World) :
    (∀ k, mapHas w.pinia.state k = true →
      mapHas (if d.isSetupStore then createSetupStore d.id d.setup.call false w
        else createOpinionStore d.id d.options w).1.pinia.state k = true) ∧
    (if d.isSetupStore then createSetupStore d.id d.setup.call false w
      else createOpinionStore d.id d.options w).1.pinia._p = w.pinia._p ∧
    ((if d.isSetupStore then createSetupStore d.id d.setup.call false w
      else createOpinionStore d.id d.options w).2 = none →
      (if d.isSetupStore then createSetupStore d.id d.setup.call false w
        else createOpinionStore d.id d.options w).1.pinia._s = w.pinia._s) ∧
    (∀ a, (if d.isSetupStore then createSetupStore d.id d.setup.call false w
      else createOpinionStore d.id d.options w).2 = some a →
      a = w.heap.length ∧
      (if d.isSetupStore then createSetupStore d.id d.setup.call false w
        else createOpinionStore d.id d.options w).1.pinia._s = mapSet w.pinia._s d.id a ∧
      mapHas (if d.isSetupStore then createSetupStore d.id d.setup.call false w
        else createOpinionStore d.id d.options w).1.pinia.state d.id = true) := by
  cases hsetup : d.isSetupStore with
  | true =>
    simp only [if_true]
    cases hcall : d.setup with
    | setup bundle =>
      simp only [createSetupStore, SetupArg.call]
      obtain ⟨h1, h2, _, h4⟩ := assemble_spec d.id w.heap.length false bundle
        (allocate d.id false w)
      rw [allocate_pinia] at h1 h2
      refine ⟨?_, h2, by simp, ?_⟩
      · intro k hk
        rw [h4]
        exact ensureSlice_mono _ _ _ _ (by rw [allocate_pinia]; exact hk)
      · intro a ha
        simp only [Option.some.injEq] at ha
        subst ha
        refine ⟨rfl, h1, ?_⟩
        rw [h4]
        exact ensureSlice_false_has _ _
    | undefined => simp [createSetupStore, SetupArg.call]
    | options o => simp [createSetupStore, SetupArg.call]
  | false =>
    simp only [Bool.false_eq_true, if_false]
    unfold createOpinionStore
    cases hd : d.options.destructure with
    | none => exact ⟨fun k hk => hk, rfl, fun _ => rfl, by simp⟩
    | some o =>
      simp only [createSetupStore]
      obtain ⟨s1, s2, s3, s4⟩ := optionsSetup_world d.id o
        (allocate d.id true w)
      cases hres : (optionsSetup d.id o
        (allocate d.id true w)).2 with
      | none =>
        simp only []
        rw [allocate_pinia] at s1 s2 s4
        refine ⟨?_, s2, fun _ => s1, by simp⟩
        intro k hk
        rw [s4]
        exact mapHas_mapSet_of_mapHas _ _ _ _ hk
      | some bundle =>
        simp only []
        obtain ⟨h1, h2, _, h4⟩ := assemble_spec d.id w.heap.length true bundle
          (optionsSetup d.id o
            (allocate d.id true w)).1
        refine ⟨?_, ?_, by simp, ?_⟩
        · intro k hk
          show mapHas (assemble _ _ _ _ _).pinia.state k = true
          rw [h4, ensureSlice_true, s4]
          exact mapHas_mapSet_of_mapHas _ _ _ _ hk
        · show (assemble _ _ _ _ _).pinia._p = _
          rw [h2, s2, allocate_pinia]
        · intro a ha
          simp only [Option.some.injEq] at ha
          subst ha
          refine ⟨rfl, ?_, ?_⟩
          · show (assemble _ _ _ _ _).pinia._s = _
            rw [h1, s1, allocate_pinia]
          · show mapHas (assemble _ _ _ _ _).pinia.state d.id = true
            rw [h4, ensureSlice_true, s4]
            exact mapHas_mapSet_self _ _ _

/-- The accessor on a registry that already has the id is a lookup. -/
theorem useStore_of_mapHas (d : StoreDef) (w : World) (h : mapHas w.pinia._s d.id = true) :
    useStore d w = (w, mapGet w.pinia._s d.id) := by
  simp [useStore, h]

/-- What an accessor call does to the registry. -/
theorem useStore_spec (d : StoreDef) (w : World) :
    (∀ k, mapHas w.pinia.state k = true → mapHas (useStore d w).1.pinia.state k = true) ∧
    ((useStore d w).1.pinia._s = w.pinia._s ∨
      (mapHas w.pinia._s d.id = false ∧
        (useStore d w).1.pinia._s = mapSet w.pinia._s d.id w.heap.length ∧
        mapHas (useStore d w).1.pinia.state d.id = true ∧
        (useStore d w).2 = some w.heap.length)) := by
  by_cases h : mapHas w.pinia._s d.id = true
  · rw [useStore_of_mapHas d w h]
    exact ⟨fun k hk => hk, Or.inl rfl⟩
  · have h2 : mapHas w.pinia._s d.id = false := by simpa using h
    obtain ⟨b1, _, b3, b4⟩ := build_spec d w
    unfold useStore
    simp only [h2, Bool.not_false, if_true]
    cases hb : (if d.isSetupStore then createSetupStore d.id d.setup.call false w
        else createOpinionStore d.id d.options w).2 with
    | none =>
      simp only []
      exact ⟨b1, Or.inl (b3 hb)⟩
    | some a =>
      simp only []
      obtain ⟨c1, c2, c3⟩ := b4 a hb
      refine ⟨b1, Or.inr ⟨trivial, ?_, c3, ?_⟩⟩
      · rw [c2, c1]
      · rw [c2, mapGet_mapSet_self, c1]

theorem callAction_frame (env : SubscriberEnv) (addr : Nat) (name : String)
    (args : List JsVal) (w : World) (r : World × Outcome)
    (h : callAction env addr name args w = some r) : Frame w r.1 := by
  unfold callAction at h
  split at h
  · cases h
  · next st _ =>
    split at h
    · split at h
      · simp only [Option.some.injEq] at h
        subst h
        exact ⟨rfl, rfl, rfl, fun k => mapHas_mapUpdate _ _ _ k⟩
      · simp only [Option.some.injEq] at h
        subst h
        exact frame_updateSlice _ _ w
      · cases h
    · cases h

/-- Operations on a built store other than `$dispose` leave the store map, the plugin list
and the ids of the state tree as they are. -/
theorem step_frame (env : SubscriberEnv) (w : World) (s : Step)
    (h1 : ∀ p, s ≠ .usePlugin p) (h2 : ∀ d, s ≠ .useStore d) (h3 : ∀ a, s ≠ .dispose a) :
    Frame w (step env w s) := by
  cases s with
  | usePlugin p => exact absurd rfl (h1 p)
  | useStore d => exact absurd rfl (h2 d)
  | dispose a => exact absurd rfl (h3 a)
  | patch addr arg =>
    simp only [step]
    split
    · exact frame_updateSlice _ _ w
    · exact Frame.refl w
  | assignState addr state =>
    simp only [step]
    split
    · exact frame_updateSlice _ _ w
    · exact Frame.refl w
  | onAction addr callback => exact frame_updateStore addr _ w
  | offAction addr callback => exact frame_updateStore addr _ w
  | action addr name args =>
    simp only [step]
    split
    · next r hr => exact callAction_frame env addr name args w r hr
    · exact Frame.refl w

/-- No operation other than `$dispose` unregisters a store. -/
theorem step_keeps_registration (env : SubscriberEnv) (w : World) (s : Step) (id : String)
    (a : Nat) (hno : ∀ addr, s ≠ .dispose addr) (h : mapGet w.pinia._s id = some a) :
    mapGet (step env w s).pinia._s id = some a := by
  by_cases hp : ∃ p, s = .usePlugin p
  · obtain ⟨p, rfl⟩ := hp
    exact h
  by_cases hu : ∃ d, s = .useStore d
  · obtain ⟨d, rfl⟩ := hu
    rcases (useStore_spec d w).2 with hs | ⟨hnot, hs, _, _⟩
    · show mapGet (useStore d w).1.pinia._s id = some a
      rw [hs]; exact h
    · show mapGet (useStore d w).1.pinia._s id = some a
      have hne : d.id ≠ id := by
        intro e
        rw [mapHas, e, h] at hnot
        cases hnot
      rw [hs, mapGet_mapSet_ne _ _ _ _ hne]
      exact h
  have hf := step_frame env w s (fun p e => hp ⟨p, e⟩) (fun d e => hu ⟨d, e⟩) hno
  rw [hf.1]
  exact h

theorem foldl_step_keeps_registration (env : SubscriberEnv) (steps : List Step)
    (id : String) (a : Nat) :
    ∀ w : World, (∀ s ∈ steps, ∀ addr, s ≠ .dispose addr) →
      mapGet w.pinia._s id = some a →
      mapGet (steps.foldl (step env) w).pinia._s id = some a := by
  induction steps with
  | nil => intro w _ h; exact h
  | cons s rest ih =>
    intro w hno h
    exact ih (step env w s) (fun x hx => hno x (List.mem_cons_of_mem _ hx))
      (step_keeps_registration env w s id a (hno s (List.mem_cons_self _ _)) h)

theorem useStore_registers (d : StoreDef) (w w1 : World) (a : Nat)
    (h : useStore d w = (w1, some a)) : mapGet w1.pinia._s d.id = some a := by
  unfold useStore at h
  split at h
  · simp only [] at h
    split at h
    · simp only [Prod.mk.injEq] at h
      rw [← h.1]; exact h.2
    · simp only [Prod.mk.injEq] at h
      cases h.2
  · simp only [Prod.mk.injEq] at h
    rw [← h.1]; exact h.2

/-! ### Claims on the registry -/

/-- C2: when an accessor call on a registry has returned the instance `a`, then after any
operations other than `$dispose` a further accessor call for the same definition returns the
same instance `a` and leaves the world exactly as it was: it runs neither the setup function
nor a plugin (the construction log is unchanged), and the store map and the state tree are
unchanged. -/
theorem useStore_idempotent (env : SubscriberEnv) (d : StoreDef) (w w1 : World) (a : Nat)
    (steps : List Step) (hfirst : useStore d w = (w1, some a))
    (hno : ∀ s ∈ steps, ∀ addr, s ≠ Step.dispose addr) :
    useStore d (steps.foldl (step env) w1) = (steps.foldl (step env) w1, some a) ∧
    (useStore d (steps.foldl (step env) w1)).1.log = (steps.foldl (step env) w1).log ∧
    (useStore d (steps.foldl (step env) w1)).1.pinia._s =
      (steps.foldl (step env) w1).pinia._s ∧
    (useStore d (steps.foldl (step env) w1)).1.pinia.state =
      (steps.foldl (step env) w1).pinia.state := by
  have hreg := foldl_step_keeps_registration env steps d.id a w1 hno
    (useStore_registers d w w1 a hfirst)
  have hhas : mapHas (steps.foldl (step env) w1).pinia._s d.id = true := by
    simp [mapHas, hreg]
  have heq : useStore d (steps.foldl (step env) w1) = (steps.foldl (step env) w1, some a) := by
    rw [useStore_of_mapHas d _ hhas, hreg]
  rw [heq]
  exact ⟨rfl, rfl, rfl, rfl⟩

/-- Witness for C2: `counter1` is built by the first accessor call on a fresh registry; after
a patch and an action call the second accessor call returns the same instance `0`. -/
theorem useStore_idempotent_witness :
    useStore useCounter1 ([Step.patch 0 (.mapping .nil), Step.action 0 "increment" []].foldl
        (step envExample) (useStore useCounter1 createPinia).1) =
      ([Step.patch 0 (.mapping .nil), Step.action 0 "increment" []].foldl
        (step envExample) (useStore useCounter1 createPinia).1, some 0) :=
  (useStore_idempotent envExample useCounter1 createPinia (useStore useCounter1 createPinia).1 0
    [Step.patch 0 (.mapping .nil), Step.action 0 "increment" []] rfl
    (by
      intro s hs addr h
      subst h
      simp at hs)).1

theorem dispose_spec (addr : Nat) (w : World) :
    (dispose addr w).pinia.state = w.pinia.state ∧
    (dispose addr w).pinia._p = w.pinia._p ∧
    (dispose addr w).heap.length = w.heap.length ∧
    (dispose addr w).factoryCalls = w.factoryCalls ∧
    (∀ st, w.heap[addr]? = some st →
      (dispose addr w).pinia._s = mapDelete w.pinia._s st.id) ∧
    (w.heap[addr]? = none → dispose addr w = w) := by
  unfold dispose
  cases h : w.heap[addr]? with
  | none => simp
  | some st => simp [updateStore]

/-- Every operation keeps the ids of the state tree. -/
theorem step_state_mono (env : SubscriberEnv) (w : World) (s : Step) (k : String)
    (h : mapHas w.pinia.state k = true) : mapHas (step env w s).pinia.state k = true := by
  by_cases hp : ∃ p, s = .usePlugin p
  · obtain ⟨p, rfl⟩ := hp
    exact h
  by_cases hu : ∃ d, s = .useStore d
  · obtain ⟨d, rfl⟩ := hu
    exact (useStore_spec d w).1 k h
  by_cases hd : ∃ a, s = .dispose a
  · obtain ⟨a, rfl⟩ := hd
    show mapHas (dispose a w).pinia.state k = true
    rw [(dispose_spec a w).1]
    exact h
  have hf := step_frame env w s (fun p e => hp ⟨p, e⟩) (fun d e => hu ⟨d, e⟩)
    (fun a e => hd ⟨a, e⟩)
  rw [hf.2.2.2 k]
  exact h

theorem foldl_step_state_mono (env : SubscriberEnv) (steps : List Step) (k : String) :
    ∀ w : World, mapHas w.pinia.state k = true →
      mapHas (steps.foldl (step env) w).pinia.state k = true := by
  induction steps with
  | nil => intro w h; exact h
  | cons s rest ih =>
    intro w h
    exact ih (step env w s) (step_state_mono env w s k h)

/-- Every operation keeps the invariant that a registered id has a slice. -/
theorem step_registered_has_slice (env : SubscriberEnv) (w : World) (s : Step)
    (inv : ∀ k, mapHas w.pinia._s k = true → mapHas w.pinia.state k = true) :
    ∀ k, mapHas (step env w s).pinia._s k = true →
      mapHas (step env w s).pinia.state k = true := by
  intro k hk
  by_cases hp : ∃ p, s = .usePlugin p
  · obtain ⟨p, rfl⟩ := hp
    exact inv k hk
  by_cases hu : ∃ d, s = .useStore d
  · obtain ⟨d, rfl⟩ := hu
    obtain ⟨mono, hs⟩ := useStore_spec d w
    rcases hs with hs | ⟨_, hs, hid, _⟩
    · have hk2 : mapHas (useStore d w).1.pinia._s k = true := hk
      rw [hs] at hk2
      exact mono k (inv k hk2)
    · have hk2 : mapHas (useStore d w).1.pinia._s k = true := hk
      rw [hs] at hk2
      by_cases hkd : d.id = k
      · subst hkd
        exact hid
      · rw [mapHas_mapSet_ne _ _ _ _ hkd] at hk2
        exact mono k (inv k hk2)
  by_cases hd : ∃ a, s = .dispose a
  · obtain ⟨a, rfl⟩ := hd
    obtain ⟨d1, _, _, _, d5, d6⟩ := dispose_spec a w
    show mapHas (dispose a w).pinia.state k = true
    rw [d1]
    have hk2 : mapHas (dispose a w).pinia._s k = true := hk
    cases hst : w.heap[a]? with
    | none =>
      rw [d6 hst] at hk2
      exact inv k hk2
    | some st =>
      rw [d5 st hst] at hk2
      exact inv k (mapHas_of_mapHas_mapDelete _ _ _ hk2)
  have hf := step_frame env w s (fun p e => hp ⟨p, e⟩) (fun d e => hu ⟨d, e⟩)
    (fun a e => hd ⟨a, e⟩)
  rw [hf.2.2.2 k]
  rw [hf.1] at hk
  exact inv k hk

theorem foldl_step_registered_has_slice (env : SubscriberEnv) (steps : List Step) :
    ∀ w : World, (∀ k, mapHas w.pinia._s k = true → mapHas w.pinia.state k = true) →
      ∀ k, mapHas (steps.foldl (step env) w).pinia._s k = true →
        mapHas (steps.foldl (step env) w).pinia.state k = true := by
  induction steps with
  | nil => intro w inv; exact inv
  | cons s rest ih =>
    intro w inv
    exact ih (step env w s) (step_registered_has_slice env w s inv)

/-- C9 (counterexample): after `createPinia()`, an accessor call for `counter1` and
`$dispose()` on the instance, the state tree still has the entry `counter1` while the store
map has no instance for it, so "entry iff instance" fails. -/
theorem dispose_leaves_state_entry :
    mapHas (run envExample [.useStore useCounter1, .dispose 0]).pinia.state "counter1" = true ∧
    mapHas (run envExample [.useStore useCounter1, .dispose 0]).pinia._s "counter1" = false ∧
    ¬ (∀ id, mapHas (run envExample [.useStore useCounter1, .dispose 0]).pinia.state id = true ↔
        mapHas (run envExample [.useStore useCounter1, .dispose 0]).pinia._s id = true) := by
  refine ⟨by decide, by decide, fun h => ?_⟩
  have := (h "counter1").1 (by decide)
  revert this
  decide

/-- C9 (amended): in every registry state reached from `createPinia()` by plugin
registrations, accessor calls, `$patch`, `$state` assignments, `$onAction` registrations and
unregistrations, action calls and `$dispose` calls, an id that has an instance in the store
map has an entry in the state tree; and an entry of the state tree is never removed by any
further operation. -/
theorem registered_id_has_state_entry (env : SubscriberEnv) (steps more : List Step)
    (id : String) :
    (mapHas (run env steps).pinia._s id = true →
      mapHas (run env steps).pinia.state id = true) ∧
    (mapHas (run env steps).pinia.state id = true →
      mapHas (run env (steps ++ more)).pinia.state id = true) := by
  refine ⟨?_, ?_⟩
  · exact foldl_step_registered_has_slice env steps createPinia
      (fun k hk => by simp [createPinia, mapHas, mapGet] at hk) id
  · intro h
    rw [run, List.foldl_append]
    exact foldl_step_state_mono env more id _ h

/-- Witness for C9 (amended): after building `counter1` and calling `increment`, the id is
registered and has its entry; the entry is still there after disposing the instance. -/
theorem registered_id_has_state_entry_witness :
    mapHas (run envExample [.useStore useCounter1, .action 0 "increment" []]).pinia.state
        "counter1" = true ∧
    mapHas (run envExample ([.useStore useCounter1, .action 0 "increment" []] ++
        [.dispose 0])).pinia.state "counter1" = true :=
  ⟨(registered_id_has_state_entry envExample
      [.useStore useCounter1, .action 0 "increment" []] [.dispose 0] "counter1").1 (by decide),
    (registered_id_has_state_entry envExample
      [.useStore useCounter1, .action 0 "increment" []] [.dispose 0] "counter1").2 (by decide)⟩

/-! ### Disposal and rebuilding of a declarative store -/

theorem classifyAll_option_slice (setupStore : List (String × Member)) :
    ∀ slice : Fields, (classifyAll true setupStore slice).1 = slice := by
  induction setupStore with
  | nil => intro slice; rfl
  | cons e rest ih =>
    intro slice
    obtain ⟨key, m⟩ := e
    have hc : (classify true key slice m).1 = slice := by
      cases m <;> simp [classify]
    simp only [classifyAll]
    rw [hc]
    exact ih slice

theorem foldl_runEffect_pinia (addr : Nat) (id : String) (effects : List PluginEffect)
    (h : ∀ e ∈ effects, ∃ callback, e = PluginEffect.onAction callback) :
    ∀ w : World, (effects.foldl (runEffect addr id) w).pinia = w.pinia := by
  induction effects with
  | nil => intro w; rfl
  | cons e rest ih =>
    intro w
    obtain ⟨callback, rfl⟩ := h e (List.mem_cons_self _ _)
    rw [List.foldl_cons, ih (fun x hx => h x (List.mem_cons_of_mem _ hx))]
    rfl

theorem runPlugin_pinia (addr : Nat) (id : String) (w : World) (plugin : Plugin)
    (h : plugin.readOnly id) : (runPlugin addr id w plugin).pinia = w.pinia := by
  unfold runPlugin
  have h2 := foldl_runEffect_pinia addr id
    (plugin.body id (World.slice { w with log := w.log ++ [.pluginRun plugin.tag addr] } id))
    (h _) { w with log := w.log ++ [.pluginRun plugin.tag addr] }
  cases plugin.extender with
  | none => exact h2
  | some members =>
    show (updateStore addr _ _).pinia = w.pinia
    rw [updateStore]
    exact h2

theorem foldl_runPlugin_pinia (addr : Nat) (id : String) (plugins : List Plugin)
    (h : ∀ p ∈ plugins, p.readOnly id) :
    ∀ w : World, (plugins.foldl (runPlugin addr id) w).pinia = w.pinia := by
  induction plugins with
  | nil => intro w; rfl
  | cons p rest ih =>
    intro w
    rw [List.foldl_cons, ih (fun x hx => h x (List.mem_cons_of_mem _ hx)),
      runPlugin_pinia addr id w p (h p (List.mem_cons_self _ _))]

/-- For a store built from options in a registry whose plugins only subscribe, `assemble`
leaves the state tree as the setup function produced it. -/
theorem assemble_option_state (id : String) (addr : Nat)
    (setupStore : List (String × Member)) (w : World)
    (h : ∀ p ∈ w.pinia._p, p.readOnly id) :
    (assemble id addr true setupStore w).pinia.state = w.pinia.state := by
  have h1 : (linkState id true setupStore w).pinia.state = w.pinia.state := by
    show mapUpdate _ w.pinia.state id = w.pinia.state
    rw [classifyAll_option_slice]
    cases hg : mapGet w.pinia.state id with
    | none => exact mapUpdate_of_mapGet_none _ _ _ hg
    | some slice =>
      have : w.slice id = slice := by simp [World.slice, hg]
      rw [this]
      exact mapUpdate_const_of_mapGet _ _ _ hg
  have h2 : (defineStateAccessor addr (linkState id true setupStore w)).pinia._p =
      w.pinia._p := rfl
  have h3 : (runPlugins addr id
      (defineStateAccessor addr (linkState id true setupStore w))).pinia =
      (defineStateAccessor addr (linkState id true setupStore w)).pinia := by
    unfold runPlugins
    exact foldl_runPlugin_pinia addr id _ (by rw [h2]; exact h) _
  unfold assemble
  rw [ensureSlice_true]
  show (runPlugins addr id _).pinia.state = _
  rw [h3]
  exact h1

/-- C8 (counterexample): with a plugin that loads a snapshot into `$state`, as the
persistence plugin of main.js does, the instance built after `$dispose()` does not hold the
state factory's fresh state `{count: 0, testCount: 0}` but `{count: 7, testCount: 0}`. -/
theorem rebuilt_state_written_by_plugin :
    mapGet (run envExample [.usePlugin snapshotPlugin, .useStore useCounter1, .dispose 0,
        .useStore useCounter1]).pinia._s "counter1" = some 1 ∧
    mapGet (run envExample [.usePlugin snapshotPlugin, .useStore useCounter1, .dispose 0,
        .useStore useCounter1]).pinia.state "counter1" =
      some (.cons "count" (.num 7) (.cons "testCount" (.num 0) .nil)) ∧
    mapGet (run envExample [.usePlugin snapshotPlugin, .useStore useCounter1, .dispose 0,
        .useStore useCounter1]).pinia.state "counter1" ≠
      some (.cons "count" (.num 0) (.cons "testCount" (.num 0) .nil)) := by
  decide

/-- C8 (amended): let a declarative store (one with getters, so that its construction
succeeds) have an instance in a registry whose plugins make no call that writes the store's
state.  After `$dispose()` on that instance the id is absent from the store map; the next accessor
call returns a new instance, at an address different from the disposed one, registered under
the id; and the id's slice is exactly what the state factory produces at that call (the empty
object when the options have no `state`), whatever the slice held before. -/
theorem dispose_then_rebuild_is_fresh (w : World) (d : StoreDef) (o : Options)
    (getters : List (String × (Fields → JsVal))) (addr : Nat) (st : Store)
    (hdecl : d.isSetupStore = false) (hopt : d.options = .options o)
    (hget : o.getters = some getters) (hheap : w.heap[addr]? = some st)
    (hid : st.id = d.id) (hplug : ∀ p ∈ w.pinia._p, p.readOnly d.id) :
    mapHas (dispose addr w).pinia._s d.id = false ∧
    (useStore d (dispose addr w)).2 = some w.heap.length ∧
    w.heap.length ≠ addr ∧
    mapGet (useStore d (dispose addr w)).1.pinia._s d.id = some w.heap.length ∧
    mapGet (useStore d (dispose addr w)).1.pinia.state d.id =
      some (match o.state with
        | some factory => factory w.factoryCalls
        | none => .nil) := by
  obtain ⟨d1, d2, d3, d4, d5, _⟩ := dispose_spec addr w
  have hs : (dispose addr w).pinia._s = mapDelete w.pinia._s d.id := by
    rw [d5 st hheap, hid]
  have hhas : mapHas (dispose addr w).pinia._s d.id = false := by
    rw [hs, mapHas, mapGet_mapDelete_self]
    rfl
  have hlt : addr < w.heap.length := by
    by_contra hge
    rw [List.getElem?_eq_none (by omega)] at hheap
    cases hheap
  -- the setup function made from the options returns a bundle
  cases hres : (optionsSetup d.id o
      (allocate d.id true (dispose addr w))).2 with
  | none =>
    rw [optionsSetup_result, hget] at hres
    cases hres
  | some bundle =>
    obtain ⟨s1, s2, _, s4⟩ := optionsSetup_world d.id o
      (allocate d.id true (dispose addr w))
    have hbuilt : createOpinionStore d.id d.options (dispose addr w) =
        (updateStore (dispose addr w).heap.length
          (fun st => { st with props := mapSet st.props "$reset" (.resetFn o.state) })
          (assemble d.id (dispose addr w).heap.length true bundle
            (optionsSetup d.id o
              (allocate d.id true (dispose addr w))).1),
          some (dispose addr w).heap.length) := by
      rw [hopt]
      simp only [createOpinionStore, SetupArg.destructure, createSetupStore, hres]
    have huse : useStore d (dispose addr w) =
        ((createOpinionStore d.id d.options (dispose addr w)).1,
          mapGet (createOpinionStore d.id d.options (dispose addr w)).1.pinia._s d.id) := by
      unfold useStore
      simp only [hhas, Bool.not_false, if_true, hdecl, Bool.false_eq_true, if_false]
      rw [hbuilt]
    obtain ⟨a1, _, _, _⟩ := assemble_spec d.id (dispose addr w).heap.length true bundle
      (optionsSetup d.id o
        (allocate d.id true (dispose addr w))).1
    have hstate := assemble_option_state d.id (dispose addr w).heap.length bundle
      (optionsSetup d.id o
        (allocate d.id true (dispose addr w))).1
      (by rw [s2]; show ∀ p ∈ (dispose addr w).pinia._p, p.readOnly d.id; rw [d2]; exact hplug)
    have hreg2 : mapGet (useStore d (dispose addr w)).1.pinia._s d.id =
        some w.heap.length := by
      rw [huse, hbuilt]
      show mapGet (assemble _ _ _ _ _).pinia._s d.id = _
      rw [a1, mapGet_mapSet_self, d3]
    refine ⟨hhas, ?_, by omega, hreg2, ?_⟩
    · rw [huse]
      show mapGet (createOpinionStore d.id d.options (dispose addr w)).1.pinia._s d.id = _
      rw [huse] at hreg2
      exact hreg2
    · rw [huse, hbuilt]
      show mapGet (assemble _ _ _ _ _).pinia.state d.id = _
      rw [hstate, s4, mapGet_mapSet_self]
      show some (match o.state with
        | some factory => factory (dispose addr w).factoryCalls
        | none => .nil) = _
      rw [d4]

/-- Witness for C8 (amended): `counter1` in a registry without plugins, built, incremented,
disposed and rebuilt: the new instance is at address `1` and its slice is the fresh
`{count: 0, testCount: 0}`. -/
theorem dispose_then_rebuild_is_fresh_witness :
    (useStore useCounter1
      (dispose 0 (run envExample [.useStore useCounter1, .action 0 "increment" []]))).2 =
      some 1 ∧
    mapGet (useStore useCounter1
      (dispose 0 (run envExample
        [.useStore useCounter1, .action 0 "increment" []]))).1.pinia.state "counter1" =
      some (.cons "count" (.num 0) (.cons "testCount" (.num 0) .nil)) := by
  have h := dispose_then_rebuild_is_fresh
    (run envExample [.useStore useCounter1, .action 0 "increment" []]) useCounter1
    counter1Options [("double", double)] 0
    { id := "counter1", isOption := true,
      props := ((run envExample [.useStore useCounter1, .action 0 "increment" []]).heap.getD 0
        { id := "", isOption := true, props := [], disposed := false,
          onActionArray := [] }).props,
      disposed := false, onActionArray := [] }
    rfl rfl rfl rfl rfl (by intro p hp; cases hp)
  exact ⟨h.2.1, h.2.2.2.2⟩

/-! ### Idempotence of the merge -/

mutual
theorem resultAt_self : ∀ (v : JsVal), v.wf = true → resultAt v v = v
  | .obj o, h => by
    rw [JsVal.wf] at h
    rw [resultAt_obj]
    congr 1
    refine fields_ext _ o (keys_mergeReactiveObject o o)
      (by rw [keys_mergeReactiveObject]; exact nodup_keys_of_wf o h) (fun k hk => ?_)
    rw [keys_mergeReactiveObject] at hk
    rw [get_mergeReactiveObject o o k hk]
    exact resultAt_get_self o k h
  | .undefined, _ => resultAt_of_not_isObject _ _ (not_both_isObject_left _ _ rfl)
  | .null, _ => resultAt_of_not_isObject _ _ (not_both_isObject_left _ _ rfl)
  | .bool _, _ => resultAt_of_not_isObject _ _ (not_both_isObject_left _ _ rfl)
  | .num _, _ => resultAt_of_not_isObject _ _ (not_both_isObject_left _ _ rfl)
  | .nan, _ => resultAt_of_not_isObject _ _ (not_both_isObject_left _ _ rfl)
  | .inf _, _ => resultAt_of_not_isObject _ _ (not_both_isObject_left _ _ rfl)
  | .str _, _ => resultAt_of_not_isObject _ _ (not_both_isObject_left _ _ rfl)
theorem resultAt_get_self : ∀ (o : Fields) (k : String), o.wf = true →
    resultAt (o.get k) (o.get k) = o.get k
  | .nil, _, _ => resultAt_of_not_isObject _ _ (not_both_isObject_left _ _ rfl)
  | .cons key v rest, k, h => by
    rw [Fields.wf] at h
    simp only [Bool.and_eq_true] at h
    by_cases hk : key = k
    · have hv : (Fields.cons key v rest).get k = v := by simp [Fields.get, hk]
      rw [hv]
      exact resultAt_self v h.1.2
    · have hv : (Fields.cons key v rest).get k = rest.get k := by simp [Fields.get, hk]
      rw [hv]
      exact resultAt_get_self rest k h.2
end

/-- Merging a well-formed object into itself changes nothing. -/
theorem mergeReactiveObject_self (t : Fields) (h : t.wf = true) :
    mergeReactiveObject t t = t := by
  have := resultAt_self (.obj t) (by rw [JsVal.wf]; exact h)
  rw [resultAt_obj] at this
  exact JsVal.obj.inj this

mutual
theorem resultAt_idem : ∀ (oldValue newValue : JsVal), newValue.wf = true →
    resultAt (resultAt oldValue newValue) newValue = resultAt oldValue newValue
  | .obj t, newValue, h => by
    cases newValue with
    | obj s =>
      rw [resultAt_obj, resultAt_obj]
      congr 1
      exact mergeReactiveObject_idem t s (by rw [JsVal.wf] at h; exact h)
    | undefined =>
      rw [resultAt_of_not_isObject _ _ (not_both_isObject_right (.obj t) .undefined rfl)]
      exact resultAt_self _ h
    | null =>
      rw [resultAt_of_not_isObject _ _ (not_both_isObject_right (.obj t) .null rfl)]
      exact resultAt_self _ h
    | bool b =>
      rw [resultAt_of_not_isObject _ _ (not_both_isObject_right (.obj t) (.bool b) rfl)]
      exact resultAt_self _ h
    | num n =>
      rw [resultAt_of_not_isObject _ _ (not_both_isObject_right (.obj t) (.num n) rfl)]
      exact resultAt_self _ h
    | nan =>
      rw [resultAt_of_not_isObject _ _ (not_both_isObject_right (.obj t) .nan rfl)]
      exact resultAt_self _ h
    | inf negative =>
      rw [resultAt_of_not_isObject _ _ (not_both_isObject_right (.obj t) (.inf negative) rfl)]
      exact resultAt_self _ h
    | str x =>
      rw [resultAt_of_not_isObject _ _ (not_both_isObject_right (.obj t) (.str x) rfl)]
      exact resultAt_self _ h
  | .undefined, newValue, h => by
    rw [resultAt_of_not_isObject _ _ (not_both_isObject_left .undefined newValue rfl)]
    exact resultAt_self _ h
  | .null, newValue, h => by
    rw [resultAt_of_not_isObject _ _ (not_both_isObject_left .null newValue rfl)]
    exact resultAt_self _ h
  | .bool b, newValue, h => by
    rw [resultAt_of_not_isObject _ _ (not_both_isObject_left (.bool b) newValue rfl)]
    exact resultAt_self _ h
  | .num n, newValue, h => by
    rw [resultAt_of_not_isObject _ _ (not_both_isObject_left (.num n) newValue rfl)]
    exact resultAt_self _ h
  | .nan, newValue, h => by
    rw [resultAt_of_not_isObject _ _ (not_both_isObject_left .nan newValue rfl)]
    exact resultAt_self _ h
  | .inf negative, newValue, h => by
    rw [resultAt_of_not_isObject _ _ (not_both_isObject_left (.inf negative) newValue rfl)]
    exact resultAt_self _ h
  | .str x, newValue, h => by
    rw [resultAt_of_not_isObject _ _ (not_both_isObject_left (.str x) newValue rfl)]
    exact resultAt_self _ h
theorem mergeReactiveObject_idem : ∀ (t s : Fields), s.wf = true →
    mergeReactiveObject (mergeReactiveObject t s) s = mergeReactiveObject t s
  | .nil, _, _ => rfl
  | .cons key v rest, s, h => by
    rw [mergeReactiveObject_cons, mergeReactiveObject_cons,
      resultAt_idem v (s.get key) (wf_get s key h), mergeReactiveObject_idem rest s h]
end

/-- C18: the mapping-form merge is idempotent.  For every target `t` and every plain mapping
`s` (an object: no key occurs twice, at any depth), applying `patch(·, s)` to the result of
`patch(t, s)` gives that result again; and for every object `t`, `patch(t, t)` is `t`. -/
theorem patch_mapping_idempotent (t s : Fields) (hs : s.wf = true) :
    patch (patch t (.mapping s)) (.mapping s) = patch t (.mapping s) ∧
    (t.wf = true → patch t (.mapping t) = t) :=
  ⟨mergeReactiveObject_idem t s hs, fun ht => mergeReactiveObject_self t ht⟩

/-- Witness for C18: on the slice `{a: {b: 0, c: 5}}` with the partial state `{a: {b: 1}}`,
the second application of the patch changes nothing. -/
theorem patch_mapping_idempotent_witness :
    patch (patch sliceABC (.mapping partialAB1)) (.mapping partialAB1) =
      patch sliceABC (.mapping partialAB1) ∧
    patch sliceABC (.mapping sliceABC) = sliceABC :=
  ⟨(patch_mapping_idempotent sliceABC partialAB1 (by decide)).1,
    (patch_mapping_idempotent sliceABC sliceABC (by decide)).2 (by decide)⟩

/-! ### After-callbacks of a call whose raw action throws -/

/-- C19: when the raw action throws `e` synchronously, the calls the wrapped call makes
after running the raw action are, in this order, the error-callbacks registered during the
call, each once with `e`, and then the after-callbacks registered during the call, each once
with an undefined result. -/
theorem sync_throw_still_runs_after_callbacks (env : SubscriberEnv) (name : String)
    (action : Action) (subs : List Callback) (slice : Fields) (args : List JsVal) (e : JsVal)
    (hthrow : (action slice args).2 = .threw e) :
    (wrapActions env name action subs slice args).state.trace =
      subs.map (fun c => Event.notified c name args) ++ [Event.actionRun name args] ++
      (errorRegistrations env name args subs).map (fun c => Event.errorCalled c e) ++
      (afterRegistrations env name args subs).map
        (fun c => Event.afterCalled c (.value .undefined)) ∧
    (wrapActions env name action subs slice args).state.afterCallbacks =
      afterRegistrations env name args subs ∧
    afterCalls (wrapActions env name action subs slice args).state.trace =
      (afterRegistrations env name args subs).map
        (fun c => Event.afterCalled c (.value .undefined)) ∧
    ∀ c, (afterCalls (wrapActions env name action subs slice args).state.trace).count
        (Event.afterCalled c (.value .undefined)) =
      (afterRegistrations env name args subs).count c := by
  refine ⟨?_, wrapActions_afterCallbacks env name action subs slice args, ?_, ?_⟩
  · rw [wrapActions_trace, hthrow]
  · rw [afterCalls_wrapActions, hthrow]
  · intro c
    rw [afterCalls_wrapActions, hthrow]
    exact count_afterCalled_map _ c _

/-- Witness for C19: subscribers `1` and `2` of `envExample`, the raw action throws
`"boom"`: error-callback `20` is called with `"boom"`, then after-callbacks `10` and `11`
with `undefined`. -/
theorem sync_throw_still_runs_after_callbacks_witness :
    (wrapActions envExample "inc" throwingAction [1, 2] .nil []).state.trace =
      [Event.notified 1 "inc" [], Event.notified 2 "inc" [], Event.actionRun "inc" [],
        Event.errorCalled 20 (.str "boom"), Event.afterCalled 10 (.value .undefined),
        Event.afterCalled 11 (.value .undefined)] := by
  have h := (sync_throw_still_runs_after_callbacks envExample "inc" throwingAction [1, 2]
    .nil [] (.str "boom") rfl).1
  rw [h]
  decide

/-! ### Normalization of the store definition -/

/-- The first accessor call for an id returns what the builder returns. -/
theorem useStore_eq_build (d : StoreDef) (w : World) (h : mapHas w.pinia._s d.id = false) :
    useStore d w =
      (if d.isSetupStore then createSetupStore d.id d.setup.call false w
        else createOpinionStore d.id d.options w) := by
  obtain ⟨_, _, _, b4⟩ := build_spec d w
  unfold useStore
  simp only [h, Bool.not_false, if_true]
  cases hb : (if d.isSetupStore then createSetupStore d.id d.setup.call false w
      else createOpinionStore d.id d.options w).2 with
  | none =>
    simp only []
    exact Prod.ext rfl hb.symm
  | some a =>
    simp only []
    obtain ⟨_, c2, _⟩ := b4 a hb
    refine Prod.ext rfl ?_
    show mapGet _ d.id = _
    rw [c2, mapGet_mapSet_self, hb]

/-- C16: `defineStore` normalizes its three call shapes.  `(id, options)` and
`(options containing id)` give that id with a declarative store over the options;
`(id, setup function)` gives that id with a procedural store whose setup is the function.
On a registry that has no instance for the id, the accessor call is the call of
`createOpinionStore(id, options, pinia)` for the declarative shapes and of
`createSetupStore(id, setup, pinia)` for the procedural one. -/
theorem defineStore_normalizes (id : String) (o : Options)
    (bundle : List (String × Member)) (w : World) :
    ((defineStore (.id id) (.options o)).id = id ∧
      (defineStore (.id id) (.options o)).isSetupStore = false ∧
      (defineStore (.id id) (.options o)).options.destructure = some o) ∧
    ((defineStore (.options id o) .undefined).id = id ∧
      (defineStore (.options id o) .undefined).isSetupStore = false ∧
      (defineStore (.options id o) .undefined).options.destructure = some o) ∧
    ((defineStore (.id id) (.setup bundle)).id = id ∧
      (defineStore (.id id) (.setup bundle)).isSetupStore = true ∧
      (defineStore (.id id) (.setup bundle)).setup.call w = (w, some bundle)) ∧
    (mapHas w.pinia._s id = false →
      useStore (defineStore (.id id) (.options o)) w =
        createOpinionStore id (.options o) w ∧
      useStore (defineStore (.options id o) .undefined) w =
        createOpinionStore id (.options o) w ∧
      useStore (defineStore (.id id) (.setup bundle)) w =
        createSetupStore id (fun w => (w, some bundle)) false w) := by
  refine ⟨⟨rfl, rfl, rfl⟩, ⟨rfl, rfl, rfl⟩, ⟨rfl, rfl, rfl⟩, fun h => ⟨?_, ?_, ?_⟩⟩
  · rw [useStore_eq_build _ w h]
    rfl
  · rw [useStore_eq_build _ w h]
    rfl
  · rw [useStore_eq_build _ w h]
    rfl

/-- Witness for C16: `defineStore({id: 'counter1', ...})` on a fresh registry builds through
`createOpinionStore` and returns the instance at address `0`. -/
theorem defineStore_normalizes_witness :
    useStore (defineStore (.options "counter1" counter1Options) .undefined) createPinia =
      createOpinionStore "counter1" (.options counter1Options) createPinia ∧
    (createOpinionStore "counter1" (.options counter1Options) createPinia).2 = some 0 :=
  ⟨((defineStore_normalizes "counter1" counter1Options [] createPinia).2.2.2 rfl).2.1,
    by decide⟩

/-! ### Assignment to `$state` against the mapping-form patch -/

theorem get_set_self : ∀ (o : Fields) (k : String) (v : JsVal), (o.set k v).get k = v
  | .nil, k, v => by simp [Fields.set, Fields.get]
  | .cons key x rest, k, v => by
    by_cases h : key = k
    · simp [Fields.set, Fields.get, h]
    · simp [Fields.set, Fields.get, h, get_set_self rest k v]

theorem get_set_ne : ∀ (o : Fields) (k k2 : String) (v : JsVal), k ≠ k2 →
    (o.set k v).get k2 = o.get k2
  | .nil, k, k2, v, h => by simp [Fields.set, Fields.get, h]
  | .cons key x rest, k, k2, v, h => by
    by_cases hk : key = k
    · subst hk
      simp [Fields.set, Fields.get, h]
    · by_cases hk2 : key = k2
      · subst hk2
        simp [Fields.set, Fields.get, hk]
      · simp [Fields.set, Fields.get, hk, hk2, get_set_ne rest k k2 v h]

theorem mem_keys_set : ∀ (o : Fields) (k k2 : String) (v : JsVal),
    k2 ∈ (o.set k v).keys ↔ k2 = k ∨ k2 ∈ o.keys
  | .nil, k, k2, v => by simp [Fields.set, Fields.keys]
  | .cons key x rest, k, k2, v => by
    by_cases hk : key = k
    · subst hk
      simp [Fields.set, Fields.keys]
    · simp only [Fields.set, hk, if_false, Fields.keys, List.mem_cons,
        mem_keys_set rest k k2 v]
      constructor
      · rintro (h | h | h)
        · exact Or.inr (Or.inl h)
        · exact Or.inl h
        · exact Or.inr (Or.inr h)
      · rintro (h | h | h)
        · exact Or.inr (Or.inl h)
        · exact Or.inl h
        · exact Or.inr (Or.inr h)

theorem get_objectAssign : ∀ (s target : Fields) (k : String), s.keys.Nodup →
    (k ∈ s.keys → (objectAssign target s).get k = s.get k) ∧
    (k ∉ s.keys → (objectAssign target s).get k = target.get k)
  | .nil, target, k, _ => by simp [Fields.keys, objectAssign]
  | .cons key v rest, target, k, h => by
    simp only [Fields.keys, List.nodup_cons] at h
    obtain ⟨ih1, ih2⟩ := get_objectAssign rest (target.set key v) k h.2
    simp only [objectAssign, Fields.keys, List.mem_cons, not_or]
    by_cases hk : key = k
    · subst hk
      refine ⟨fun _ => ?_, fun hn => absurd rfl hn.1⟩
      rw [ih2 h.1, get_set_self]
      simp [Fields.get]
    · have hk2 : ¬ k = key := fun e => hk e.symm
      refine ⟨fun hm => ?_, fun hn => ?_⟩
      · rcases hm with hm | hm
        · exact absurd hm hk2
        · rw [ih1 hm]
          simp [Fields.get, hk]
      · rw [ih2 hn.2, get_set_ne _ _ _ _ hk]

theorem mem_keys_objectAssign : ∀ (s target : Fields) (k : String),
    k ∈ (objectAssign target s).keys ↔ k ∈ target.keys ∨ k ∈ s.keys
  | .nil, target, k => by simp [Fields.keys, objectAssign]
  | .cons key v rest, target, k => by
    simp only [objectAssign, Fields.keys, List.mem_cons,
      mem_keys_objectAssign rest (target.set key v) k, mem_keys_set]
    constructor
    · rintro ((h | h) | h)
      · exact Or.inr (Or.inl h)
      · exact Or.inl h
      · exact Or.inr (Or.inr h)
    · rintro (h | h | h)
      · exact Or.inl (Or.inr h)
      · exact Or.inl (Or.inl h)
      · exact Or.inr h

theorem objectAssign_meets_spec (slice s : Fields) (hs : s.keys.Nodup) :
    ShallowAssignSpec slice s (objectAssign slice s) :=
  ⟨fun k hk => (get_objectAssign s slice k hs).1 hk,
    fun k hk => (get_objectAssign s slice k hs).2 hk,
    fun k => mem_keys_objectAssign s slice k⟩

/-- C20: on an instance whose id has the slice `slice`, `$state = s` leaves the slice
`Object.assign(slice, s)`, which meets the reference description: each top-level key of `s`
holds exactly the value of `s` (nested objects are not merged), keys the slice did not have
are added, keys absent from `s` keep their value.  `$patch(s)` in mapping form leaves
`mergeReactiveObject(slice, s)` instead: the keys of the slice and no other, with `undefined`
at every key of the slice that `s` lacks.  So the two differ at every key of the slice that
`s` lacks and that held a value, and at every key of `s` that the slice lacks. -/
theorem state_assignment_is_shallow (w : World) (id : String) (slice s : Fields)
    (hslice : mapGet w.pinia.state id = some slice) (hs : s.keys.Nodup) :
    mapGet (assignState id s w).pinia.state id = some (objectAssign slice s) ∧
    ShallowAssignSpec slice s (objectAssign slice s) ∧
    mapGet (patchStore id (.mapping s) w).pinia.state id =
      some (mergeReactiveObject slice s) ∧
    (mergeReactiveObject slice s).keys = slice.keys ∧
    (∀ k, k ∈ slice.keys → k ∉ s.keys →
      (mergeReactiveObject slice s).get k = .undefined ∧
      (objectAssign slice s).get k = slice.get k) ∧
    (∀ k, k ∈ s.keys → k ∉ slice.keys →
      k ∈ (objectAssign slice s).keys ∧ k ∉ (mergeReactiveObject slice s).keys) := by
  refine ⟨?_, objectAssign_meets_spec slice s hs, ?_, keys_mergeReactiveObject slice s, ?_, ?_⟩
  · show mapGet (mapUpdate _ w.pinia.state id) id = _
    rw [mapGet_mapUpdate_self, hslice]
    rfl
  · show mapGet (mapUpdate _ w.pinia.state id) id = _
    rw [mapGet_mapUpdate_self, hslice]
    rfl
  · intro k hk hn
    exact ⟨get_mergeReactiveObject_absent slice s k hk hn, (get_objectAssign s slice k hs).2 hn⟩
  · intro k hk hn
    refine ⟨(mem_keys_objectAssign s slice k).2 (Or.inr hk), ?_⟩
    rw [keys_mergeReactiveObject]
    exact hn

/-- Witness for C20: on the built `counter1`, `$state = {count: 7, extra: {n: 1}}` gives
`{count: 7, testCount: 0, extra: {n: 1}}`, while `$patch` of the same object gives
`{count: 7, testCount: undefined}`. -/
theorem state_assignment_is_shallow_witness :
    mapGet (assignState "counter1" snapshotCountExtra
        (run envExample [.useStore useCounter1])).pinia.state "counter1" =
      some (.cons "count" (.num 7) (.cons "testCount" (.num 0)
        (.cons "extra" (.obj (.cons "n" (.num 1) .nil)) .nil))) ∧
    mapGet (patchStore "counter1" (.mapping snapshotCountExtra)
        (run envExample [.useStore useCounter1])).pinia.state "counter1" =
      some (.cons "count" (.num 7) (.cons "testCount" .undefined .nil)) := by
  have h := state_assignment_is_shallow (run envExample [.useStore useCounter1]) "counter1"
    (.cons "count" (.num 0) (.cons "testCount" (.num 0) .nil)) snapshotCountExtra
    (by decide) (by decide)
  exact ⟨h.1.trans (by decide), h.2.2.1.trans (by decide)⟩

/-! ### Unregistering while a trigger is in flight -/

/-- C11 (evaluation of the code at the failing input): with subscribers `[1, 2, 3]` of which
`1` unregisters itself when invoked, the trigger invokes `1` and `3` only.  After `1` has
spliced itself out, `forEach` finds `3` at index `1`, and `2`, now at index `0`, is skipped.
The next trigger, on the remaining `[2, 3]`, invokes both. -/
theorem trigger_skips_after_self_unregistration :
    (trigger oneShotFirst [1, 2, 3]).invoked = [1, 3] ∧
    (trigger oneShotFirst [1, 2, 3]).subscriptions = [2, 3] ∧
    2 ∉ (trigger oneShotFirst [1, 2, 3]).invoked ∧
    (trigger oneShotFirst (trigger oneShotFirst [1, 2, 3]).subscriptions).invoked = [2, 3] := by
  decide

/-- When no callback unregisters during the trigger, every registered callback is invoked
once, in registration order. -/
theorem trigger_noUnsubscribe (subscriptions : List Callback) :
    (trigger noUnsubscribe subscriptions).invoked = subscriptions ∧
    (trigger noUnsubscribe subscriptions).subscriptions = subscriptions := by
  have hfold : ∀ (l : List Callback) (s : TriggerState),
      l.foldl (fun s c => invoke noUnsubscribe c s) s =
        { subscriptions := s.subscriptions, invoked := s.invoked ++ l } := by
    intro l
    induction l with
    | nil => intro s; simp
    | cons c rest ih =>
      intro s
      rw [List.foldl_cons, ih]
      simp [invoke, noUnsubscribe]
  rw [trigger, triggerSubscriptions,
    forEach_eq_foldl TriggerState.subscriptions (invoke noUnsubscribe) (fun _ _ => rfl), hfold]
  simp

/-! ### Reset -/

/-- C17: on a store that has the `$reset` defined by `createOpinionStore` from the option
`state`, `$reset()` calls the state factory once more (not at all when the options have none)
and leaves the slice `Object.assign(slice, newState)`: every field the factory produced holds
the factory's fresh value, every other field of the slice is kept.  The entry of the state
tree still holds the same object as before the reset, and the ids of the state tree are
unchanged. -/
theorem reset_restores_factory_fields (w : World) (addr : Nat) (st : Store)
    (state : Option (Nat → Fields)) (slice : Fields)
    (hst : w.heap[addr]? = some st)
    (hreset : mapGet st.props "$reset" = some (.resetFn state))
    (hslice : mapGet w.pinia.state st.id = some slice)
    (hfresh : (match state with
      | some factory => factory w.factoryCalls
      | none => Fields.nil).keys.Nodup) :
    ∃ w2, reset addr w = some w2 ∧
      w2.factoryCalls = (match state with
        | some _ => w.factoryCalls + 1
        | none => w.factoryCalls) ∧
      w2.log = (match state with
        | some _ => w.log ++ [.factoryRun st.id]
        | none => w.log) ∧
      mapGet w2.pinia.state st.id =
        some (objectAssign slice (match state with
          | some factory => factory w.factoryCalls
          | none => Fields.nil)) ∧
      (∀ k, k ∈ (match state with
          | some factory => factory w.factoryCalls
          | none => Fields.nil).keys →
        (objectAssign slice (match state with
          | some factory => factory w.factoryCalls
          | none => Fields.nil)).get k =
        (match state with
          | some factory => factory w.factoryCalls
          | none => Fields.nil).get k) ∧
      (∀ k, k ∉ (match state with
          | some factory => factory w.factoryCalls
          | none => Fields.nil).keys →
        (objectAssign slice (match state with
          | some factory => factory w.factoryCalls
          | none => Fields.nil)).get k = slice.get k) ∧
      mapGet w2.sliceObject st.id = mapGet w.sliceObject st.id ∧
      w2.sliceObject = w.sliceObject ∧
      mapKeys w2.pinia.state = mapKeys w.pinia.state := by
  have hkeys : ∀ (f : Fields → Fields) (m : List (String × Fields)) (k : String),
      mapKeys (mapUpdate f m k) = mapKeys m := by
    intro f m k
    induction m with
    | nil => rfl
    | cons e rest ih =>
      obtain ⟨k2, x⟩ := e
      have ih2 : (mapUpdate f rest k).map Prod.fst = rest.map Prod.fst := ih
      by_cases h : k2 = k <;> simp [mapKeys, mapUpdate, h, ih2]
  cases state with
  | none =>
    have hr : reset addr w =
        some (patchStore st.id (.mutator fun slice => objectAssign slice .nil) w) := by
      simp only [reset, hst, hreset]
    refine ⟨_, hr, rfl, rfl, ?_,
      fun k hk => (get_objectAssign _ slice k hfresh).1 hk,
      fun k hk => (get_objectAssign _ slice k hfresh).2 hk, rfl, rfl, hkeys _ _ _⟩
    show mapGet (mapUpdate _ w.pinia.state st.id) st.id = _
    rw [mapGet_mapUpdate_self, hslice]
    rfl
  | some factory =>
    have hr : reset addr w =
        some (patchStore st.id
          (.mutator fun slice => objectAssign slice (factory w.factoryCalls))
          { w with factoryCalls := w.factoryCalls + 1,
                   log := w.log ++ [.factoryRun st.id] }) := by
      simp only [reset, hst, hreset]
    refine ⟨_, hr, rfl, rfl, ?_,
      fun k hk => (get_objectAssign _ slice k hfresh).1 hk,
      fun k hk => (get_objectAssign _ slice k hfresh).2 hk, rfl, rfl, hkeys _ _ _⟩
    show mapGet (mapUpdate _ w.pinia.state st.id) st.id = _
    rw [mapGet_mapUpdate_self, hslice]
    rfl

/-- Witness for C17: on the built `counter1` after one `increment`, `$reset()` gives the slice
`{count: 0, testCount: 0}` again, and the entry still holds the first object assigned to
it. -/
theorem reset_restores_factory_fields_witness :
    ∃ w2, reset 0 (run envExample [.useStore useCounter1, .action 0 "increment" []]) = some w2 ∧
      mapGet w2.pinia.state "counter1" =
        some (.cons "count" (.num 0) (.cons "testCount" (.num 0) .nil)) ∧
      mapGet w2.sliceObject "counter1" = some 1 := by
  obtain ⟨w2, h1, _, _, h4, _, _, h7, _, _⟩ := reset_restores_factory_fields
    (run envExample [.useStore useCounter1, .action 0 "increment" []]) 0
    ((run envExample [.useStore useCounter1, .action 0 "increment" []]).heap.getD 0
      { id := "", isOption := true, props := [], disposed := false, onActionArray := [] })
    counter1Options.state
    (.cons "count" (.num 1) (.cons "testCount" (.num 1) .nil))
    rfl rfl rfl (by decide)
  exact ⟨w2, h1, h4.trans (by decide), h7.trans (by decide)⟩

/-! ### Store objects through the builder -/

theorem heap_updateStore (addr : Nat) (f : Store → Store) (w : World) (a : Nat) :
    (updateStore addr f w).heap[a]? =
      (w.heap[a]?).map (fun st => if addr = a then f st else st) := by
  show (List.modify f addr w.heap)[a]? = _
  rw [List.getElem?_modify]
  rfl

theorem PropsStep.comp {addr : Nat} {g g2 g3 : List (String × StoreProp) → List (String × StoreProp)}
    {w w2 w3 : World} (h : PropsStep addr g w w2) (h2 : PropsStep addr g2 w2 w3)
    (hg : ∀ props, g3 props = g2 (g props)) : PropsStep addr g3 w w3 := by
  intro a
  rw [h2 a, h a, Option.map_map, Option.map_map, Option.map_map]
  congr 1
  funext st
  by_cases ha : a = addr <;> simp [ha, hg]

theorem propsStep_of_heap_eq (addr : Nat) (w w2 : World) (h : w2.heap = w.heap) :
    PropsStep addr (fun props => props) w w2 := by
  intro a
  rw [h, Option.map_map]
  congr 1
  funext st
  by_cases ha : a = addr <;> simp [ha]

theorem propsStep_updateStore_props (addr : Nat)
    (g : List (String × StoreProp) → List (String × StoreProp)) (w : World) :
    PropsStep addr g w (updateStore addr (fun st => { st with props := g st.props }) w) := by
  intro a
  rw [heap_updateStore, Option.map_map, Option.map_map]
  congr 1
  funext st
  by_cases ha : a = addr
  · subst ha
    simp [Store.shape]
  · have ha2 : ¬ addr = a := fun e => ha e.symm
    simp [Store.shape, ha, ha2]

theorem propsStep_updateStore_array (addr : Nat) (h : List Callback → List Callback)
    (w : World) :
    PropsStep addr (fun props => props) w
      (updateStore addr (fun st => { st with onActionArray := h st.onActionArray }) w) := by
  intro a
  rw [heap_updateStore, Option.map_map, Option.map_map]
  congr 1
  funext st
  by_cases ha : a = addr
  · subst ha
    simp [Store.shape]
  · have ha2 : ¬ addr = a := fun e => ha e.symm
    simp [Store.shape, ha, ha2]

theorem propsStep_runEffect (addr : Nat) (id : String) (w : World) (e : PluginEffect) :
    PropsStep addr (fun props => props) w (runEffect addr id w e) := by
  cases e with
  | assignState state => exact propsStep_of_heap_eq addr _ _ rfl
  | patch arg => exact propsStep_of_heap_eq addr _ _ rfl
  | onAction callback =>
    exact propsStep_updateStore_array addr (fun arr => addSubScription arr callback) w

theorem propsStep_foldl_runEffect (addr : Nat) (id : String) (effects : List PluginEffect) :
    ∀ w : World, PropsStep addr (fun props => props) w
      (effects.foldl (runEffect addr id) w) := by
  induction effects with
  | nil => intro w; exact propsStep_of_heap_eq addr _ _ rfl
  | cons e rest ih =>
    intro w
    exact (propsStep_runEffect addr id w e).comp (ih _) (fun _ => rfl)

theorem propsStep_runPlugin (addr : Nat) (id : String) (w : World) (plugin : Plugin) :
    PropsStep addr (extendOne plugin) w (runPlugin addr id w plugin) := by
  unfold runPlugin
  have h1 : PropsStep addr (fun props => props) w
      { w with log := w.log ++ [.pluginRun plugin.tag addr] } :=
    propsStep_of_heap_eq addr _ _ rfl
  have h2 := propsStep_foldl_runEffect addr id
    (plugin.body id (World.slice { w with log := w.log ++ [.pluginRun plugin.tag addr] } id))
    { w with log := w.log ++ [.pluginRun plugin.tag addr] }
  cases hext : plugin.extender with
  | none =>
    exact h1.comp h2 (fun props => by simp [extendOne, hext])
  | some members =>
    exact (h1.comp h2 (fun _ => rfl)).comp
      (propsStep_updateStore_props addr
        (fun props => assignProps props (members.map fun kv => (kv.1, kv.2.asProp))) _)
      (fun props => by simp [extendOne, hext])

theorem propsStep_foldl_runPlugin (addr : Nat) (id : String) (plugins : List Plugin) :
    ∀ w : World, PropsStep addr (extendProps plugins) w
      (plugins.foldl (runPlugin addr id) w) := by
  induction plugins with
  | nil => intro w; exact propsStep_of_heap_eq addr _ _ rfl
  | cons p rest ih =>
    intro w
    exact (propsStep_runPlugin addr id w p).comp (ih _) (fun _ => rfl)

theorem classify_snd (isOption : Bool) (key : String) (slice : Fields) (m : Member) :
    (classify isOption key slice m).2 = m.classified key := by
  cases m <;> rfl

theorem classifyAll_snd (isOption : Bool) (setupStore : List (String × Member)) :
    ∀ slice : Fields, (classifyAll isOption setupStore slice).2 =
      setupStore.map (fun kv => (kv.1, kv.2.classified kv.1)) := by
  induction setupStore with
  | nil => intro slice; rfl
  | cons e rest ih =>
    intro slice
    obtain ⟨key, m⟩ := e
    simp only [classifyAll, List.map_cons, classify_snd, ih]

/-- The properties of the store object after `assemble`: the builder's, then `$state`, then
the mappings of the plugins in turn, then the classified setup bundle. -/
theorem propsStep_assemble (id : String) (addr : Nat) (isOption : Bool)
    (setupStore : List (String × Member)) (w : World) :
    PropsStep addr
      (fun props => assignProps
        (extendProps w.pinia._p (props ++ [("$state", StoreProp.stateAccessor)]))
        (setupStore.map (fun kv => (kv.1, kv.2.classified kv.1))))
      w (assemble id addr isOption setupStore w) := by
  have h0 : PropsStep addr (fun props => props) w (ensureSlice id isOption w) :=
    propsStep_of_heap_eq addr _ _ (by unfold ensureSlice; split <;> rfl)
  have h1 : PropsStep addr (fun props => props) (ensureSlice id isOption w)
      (linkState id isOption setupStore (ensureSlice id isOption w)) :=
    propsStep_of_heap_eq addr _ _ rfl
  have h2 := propsStep_updateStore_props addr
    (fun props => props ++ [("$state", StoreProp.stateAccessor)])
    (linkState id isOption setupStore (ensureSlice id isOption w))
  have hp : (defineStateAccessor addr
      (linkState id isOption setupStore (ensureSlice id isOption w))).pinia._p = w.pinia._p := by
    show (ensureSlice id isOption w).pinia._p = _
    unfold ensureSlice; split <;> rfl
  have h3 := propsStep_foldl_runPlugin addr id w.pinia._p (defineStateAccessor addr
    (linkState id isOption setupStore (ensureSlice id isOption w)))
  have h4 : PropsStep addr (fun props => props)
      (runPlugins addr id (defineStateAccessor addr
        (linkState id isOption setupStore (ensureSlice id isOption w))))
      (registerStore id addr (runPlugins addr id (defineStateAccessor addr
        (linkState id isOption setupStore (ensureSlice id isOption w))))) :=
    propsStep_of_heap_eq addr _ _ rfl
  have h5 := propsStep_updateStore_props addr
    (fun props => assignProps props
      (classifyAll isOption setupStore ((ensureSlice id isOption w).slice id)).2)
    (registerStore id addr (runPlugins addr id (defineStateAccessor addr
      (linkState id isOption setupStore (ensureSlice id isOption w)))))
  have h3b : PropsStep addr (extendProps w.pinia._p)
      (defineStateAccessor addr
        (linkState id isOption setupStore (ensureSlice id isOption w)))
      (runPlugins addr id (defineStateAccessor addr
        (linkState id isOption setupStore (ensureSlice id isOption w)))) := by
    unfold runPlugins
    rw [hp]
    exact h3
  exact ((((h0.comp h1 (fun _ => rfl)).comp h2 (fun _ => rfl)).comp h3b
    (fun _ => rfl)).comp h4 (fun _ => rfl)).comp h5
    (fun props => by rw [classifyAll_snd])

theorem propsStep_at {addr : Nat} {g : List (String × StoreProp) → List (String × StoreProp)}
    {w w2 : World} (h : PropsStep addr g w w2) {st : Store} (hst : w.heap[addr]? = some st) :
    ∃ st2, w2.heap[addr]? = some st2 ∧ st2.id = st.id ∧ st2.isOption = st.isOption ∧
      st2.props = g st.props ∧ st2.disposed = st.disposed := by
  have ha := h addr
  rw [hst] at ha
  simp only [Option.map_some', if_true] at ha
  cases h2 : w2.heap[addr]? with
  | none => rw [h2] at ha; cases ha
  | some st2 =>
    rw [h2] at ha
    simp only [Option.map_some', Option.some.injEq, Store.shape, Prod.mk.injEq] at ha
    exact ⟨st2, rfl, ha.1, ha.2.1, ha.2.2.1, ha.2.2.2⟩

theorem mapGet_assignProps_of_not_mem (members : List (String × StoreProp)) (k : String)
    (h : k ∉ members.map Prod.fst) :
    ∀ props : List (String × StoreProp), mapGet (assignProps props members) k = mapGet props k := by
  induction members with
  | nil => intro props; rfl
  | cons e rest ih =>
    intro props
    obtain ⟨k2, v⟩ := e
    simp only [List.map_cons, List.mem_cons, not_or] at h
    show mapGet (assignProps (mapSet props k2 v) rest) k = _
    rw [ih h.2, mapGet_mapSet_ne _ _ _ _ (fun e => h.1 e.symm)]

theorem mapGet_assignProps_of_mem (members : List (String × StoreProp)) (k : String)
    (v : StoreProp) (hk : (members.map Prod.fst).Nodup) (h : (k, v) ∈ members) :
    ∀ props : List (String × StoreProp), mapGet (assignProps props members) k = some v := by
  induction members with
  | nil => cases h
  | cons e rest ih =>
    intro props
    obtain ⟨k2, v2⟩ := e
    simp only [List.map_cons, List.nodup_cons] at hk
    show mapGet (assignProps (mapSet props k2 v2) rest) k = _
    rcases List.mem_cons.1 h with heq | hrest
    · cases heq
      rw [mapGet_assignProps_of_not_mem rest k hk.1, mapGet_mapSet_self]
    · exact ih hk.2 hrest _

theorem mapGet_extendOne_of_not_mem (plugin : Plugin) (k : String) (h : k ∉ plugin.names)
    (props : List (String × StoreProp)) : mapGet (extendOne plugin props) k = mapGet props k := by
  unfold extendOne
  unfold Plugin.names at h
  cases hext : plugin.extender with
  | none => rfl
  | some members =>
    rw [hext] at h
    exact mapGet_assignProps_of_not_mem _ k (by simpa [List.map_map] using h) props

theorem mapGet_extendProps_of_not_mem (plugins : List Plugin) (k : String)
    (h : ∀ p ∈ plugins, k ∉ p.names) :
    ∀ props : List (String × StoreProp), mapGet (extendProps plugins props) k = mapGet props k := by
  induction plugins with
  | nil => intro props; rfl
  | cons p rest ih =>
    intro props
    show mapGet (extendProps rest (extendOne p props)) k = _
    rw [ih (fun q hq => h q (List.mem_cons_of_mem _ hq)),
      mapGet_extendOne_of_not_mem p k (h p (List.mem_cons_self _ _))]

theorem heap_allocate (id : String) (isOption : Bool) (w : World) :
    (allocate id isOption w).heap[w.heap.length]? =
      some { id := id, isOption := isOption, props := partialStore id, disposed := false,
             onActionArray := [] } := by
  show (w.heap ++ [_])[w.heap.length]? = _
  rw [List.getElem?_append_right (Nat.le_refl _)]
  simp

/-- The store object a procedural build leaves at the new address. -/
theorem createSetupStore_props (id : String) (bundle : List (String × Member)) (w : World) :
    (createSetupStore id (SetupArg.call (.setup bundle)) false w).2 = some w.heap.length ∧
    ∃ st, (createSetupStore id (SetupArg.call (.setup bundle)) false w).1.heap[w.heap.length]? =
        some st ∧ st.id = id ∧ st.disposed = false ∧
      st.props = assignProps
        (extendProps w.pinia._p (partialStore id ++ [("$state", StoreProp.stateAccessor)]))
        (bundle.map (fun kv => (kv.1, kv.2.classified kv.1))) := by
  simp only [createSetupStore, SetupArg.call, true_and]
  obtain ⟨st, h1, h2, _, h4, h5⟩ :=
    propsStep_at (propsStep_assemble id w.heap.length false bundle (allocate id false w))
      (heap_allocate id false w)
  exact ⟨st, h1, h2, h5, by rw [h4, allocate_pinia]⟩

/-! ### Contract members and user members (defineStore.js:139-152, 237-239) -/

/-- C12 (counterexample): the setup function returns `{$id: 'other', $patch() {..}}` for the
store `s`.  On the built store `$id` is the bundle's plain value, read as `'other'` and not
as the id `'s'`, and `$patch` is the bundle's function wrapped as an action, where the
builder had defined members of the kinds `$id` and `$patch`. -/
theorem bundle_member_replaces_contract_member :
    ((run envExample [.useStore (defineStore (.id "s") (.setup shadowingBundle))]).heap[0]?).map
        (fun st => ((mapGet st.props "$id").map StoreProp.kind,
          (mapGet st.props "$patch").map StoreProp.kind)) =
      some (some "plain", some "wrapped action") ∧
    readMember (run envExample [.useStore (defineStore (.id "s") (.setup shadowingBundle))])
      0 "$id" = some (.str "other") ∧
    ((mapGet (partialStore "s") "$id").map StoreProp.kind,
      (mapGet (partialStore "s") "$patch").map StoreProp.kind) =
      (some "$id", some "$patch") := by
  decide

/-- C12 (amended): the builder defines `$id`, `$patch`, `$subscribe`, `$onAction` and
`$dispose` on the store object before the plugin loop and before the final
`Object.assign(store, setupStore)`, and both assign over them.  For the store built from a
setup function that returns `bundle`: a contract member whose name is neither a key of the
bundle nor a key of a mapping returned by a plugin is the one the builder defined; a
contract member whose name is a key of the bundle is the bundle's member, as the builder
classifies it (a function wrapped as an action). -/
theorem contract_member_kept_unless_reassigned (id : String)
    (bundle : List (String × Member)) (w : World) (hkeys : (bundle.map Prod.fst).Nodup) :
    (createSetupStore id (SetupArg.call (.setup bundle)) false w).2 = some w.heap.length ∧
    ∃ st, (createSetupStore id (SetupArg.call (.setup bundle)) false w).1.heap[w.heap.length]? =
        some st ∧
      ∀ name ∈ contractNames,
        (name ∉ bundle.map Prod.fst → (∀ p ∈ w.pinia._p, name ∉ p.names) →
          mapGet st.props name = mapGet (partialStore id) name ∧
          (mapGet st.props name).map StoreProp.kind = some name) ∧
        (∀ m, (name, m) ∈ bundle → mapGet st.props name = some (m.classified name)) := by
  obtain ⟨h1, st, h2, _, _, h5⟩ := createSetupStore_props id bundle w
  refine ⟨h1, st, h2, ?_⟩
  intro name hname
  constructor
  · intro hb hp
    have hget : mapGet st.props name = mapGet (partialStore id) name := by
      rw [h5, mapGet_assignProps_of_not_mem _ name (by simpa [List.map_map] using hb),
        mapGet_extendProps_of_not_mem _ name hp]
      simp only [contractNames, List.mem_cons, List.mem_singleton, List.not_mem_nil,
        or_false] at hname
      rcases hname with h | h | h | h | h <;> subst h <;> simp [partialStore, mapGet]
    refine ⟨hget, ?_⟩
    rw [hget]
    simp only [contractNames, List.mem_cons, List.mem_singleton, List.not_mem_nil,
      or_false] at hname
    rcases hname with h | h | h | h | h <;> subst h <;>
      simp [partialStore, mapGet, StoreProp.kind]
  · intro m hm
    rw [h5]
    exact mapGet_assignProps_of_mem _ name _
      (by simpa [List.map_map, Function.comp_def] using hkeys)
      (List.mem_map.2 ⟨(name, m), hm, rfl⟩) _

theorem contract_member_kept_unless_reassigned_witness :
    (shadowingBundle.map Prod.fst).Nodup ∧
    (createSetupStore "s" (SetupArg.call (.setup shadowingBundle)) false createPinia).2 =
      some createPinia.heap.length ∧
    ∃ st, (createSetupStore "s" (SetupArg.call (.setup shadowingBundle)) false
        createPinia).1.heap[createPinia.heap.length]? = some st ∧
      ∀ name ∈ contractNames,
        (name ∉ shadowingBundle.map Prod.fst → (∀ p ∈ createPinia.pinia._p, name ∉ p.names) →
          mapGet st.props name = mapGet (partialStore "s") name ∧
          (mapGet st.props name).map StoreProp.kind = some name) ∧
        (∀ m, (name, m) ∈ shadowingBundle →
          mapGet st.props name = some (m.classified name)) :=
  ⟨by decide, contract_member_kept_unless_reassigned "s" shadowingBundle createPinia
    (by decide)⟩

/-! ### Members returned by a plugin (defineStore.js:187-193) -/

theorem callAction_fn (env : SubscriberEnv) (addr : Nat) (name : String) (args : List JsVal)
    (w : World) (st : Store) (f : Action) (r : World × Outcome)
    (hst : w.heap[addr]? = some st) (hf : mapGet st.props name = some (.fn f))
    (h : callAction env addr name args w = some r) :
    r.1.trace = w.trace ∧ r.2 = (f (w.slice st.id) args).2 := by
  unfold callAction at h
  rw [hst] at h
  simp only [hf] at h
  split at h
  · cases hs : mapGet w.pinia.state st.id with
    | none => rw [hs] at h; cases h
    | some slice =>
      rw [hs] at h
      simp only [Option.some.injEq] at h
      subst h
      simp [updateSlice, World.slice, hs]
  · cases h

/-- C13 (counterexample): a plugin returns `{hello() {..}, secret: ref(1)}` and the store
`counter1` is built with it; callback `1` then subscribes with `$onAction`.  On the store
`hello` is the plugin's function as it was returned and `secret` the plugin's ref; calling
`hello(5)` returns its value and notifies nobody, while calling the action `increment`
notifies callback `1`; and the slice of `counter1` has no key `secret`. -/
theorem plugin_members_not_classified :
    ((run envExample [.usePlugin helloPlugin, .useStore useCounter1, .onAction 0 1]).heap[0]?).map
        (fun st => ((mapGet st.props "hello").map StoreProp.kind,
          (mapGet st.props "secret").map StoreProp.kind,
          (mapGet st.props "increment").map StoreProp.kind)) =
      some (some "function", some "ref", some "wrapped action") ∧
    (callAction envExample 0 "hello" [.num 5]
        (run envExample [.usePlugin helloPlugin, .useStore useCounter1, .onAction 0 1])).map
        (fun r => (r.2, r.1.trace)) =
      some (.returned (.value (.num 1)), []) ∧
    (callAction envExample 0 "increment" []
        (run envExample [.usePlugin helloPlugin, .useStore useCounter1, .onAction 0 1])).map
        (fun r => r.1.trace) =
      some [.notified 1 "increment" [], .actionRun "increment" [],
        .afterCalled 10 (.value .undefined)] ∧
    (World.slice (run envExample [.usePlugin helloPlugin, .useStore useCounter1, .onAction 0 1])
        "counter1").keys = ["count", "testCount"] := by
  decide

/-- C13 (amended): the mapping a plugin returns is assigned to the store object as it is,
`Object.assign(store, extender)`, without the classification applied to user members.  For
a plugin returning `members` and the store object `st` it receives: afterwards every key of
the mapping holds the member as returned (a function unwrapped, a ref by itself), every
other key of the store holds what it held, and the state tree is as the plugin's own calls
left it, so no member is linked into the slice; and calling a member stored as an
unwrapped function completes as the function does and adds nothing to the trace of
notifications. -/
theorem plugin_members_assigned_as_returned (addr : Nat) (id : String) (w : World)
    (plugin : Plugin) (members : List (String × Member)) (st : Store)
    (hext : plugin.extender = some members) (hkeys : (members.map Prod.fst).Nodup)
    (hst : w.heap[addr]? = some st) :
    ∃ st2, (runPlugin addr id w plugin).heap[addr]? = some st2 ∧
      (∀ name m, (name, m) ∈ members → mapGet st2.props name = some m.asProp) ∧
      (∀ name, name ∉ members.map Prod.fst → mapGet st2.props name = mapGet st.props name) ∧
      (runPlugin addr id w plugin).pinia =
        ((plugin.body id (w.slice id)).foldl (runEffect addr id)
          { w with log := w.log ++ [.pluginRun plugin.tag addr] }).pinia ∧
      (∀ env name f args w3 st3 r, w3.heap[addr]? = some st3 →
        mapGet st3.props name = some (.fn f) →
        callAction env addr name args w3 = some r →
        r.1.trace = w3.trace ∧ r.2 = (f (w3.slice st3.id) args).2) := by
  obtain ⟨st2, h1, _, _, h4, _⟩ := propsStep_at (propsStep_runPlugin addr id w plugin) hst
  have hp : st2.props =
      assignProps st.props (members.map fun kv => (kv.1, kv.2.asProp)) := by
    rw [h4]
    simp [extendOne, hext]
  refine ⟨st2, h1, ?_, ?_, ?_, ?_⟩
  · intro name m hm
    rw [hp]
    exact mapGet_assignProps_of_mem _ name _
      (by simpa [List.map_map, Function.comp_def] using hkeys)
      (List.mem_map.2 ⟨(name, m), hm, rfl⟩) _
  · intro name hname
    rw [hp]
    exact mapGet_assignProps_of_not_mem _ name (by simpa [List.map_map] using hname) _
  · unfold runPlugin
    simp only [hext]
    rfl
  · intro env name f args w3 st3 r hst3 hf hr
    exact callAction_fn env addr name args w3 st3 f r hst3 hf hr

theorem plugin_members_assigned_as_returned_witness :
    ∃ st2, (runPlugin 0 "s" (allocate "s" false createPinia) helloPlugin).heap[0]? = some st2 ∧
      (∀ name m, (name, m) ∈ [("hello", Member.fn plainAction), ("secret", Member.ref (.num 1))] →
        mapGet st2.props name = some m.asProp) ∧
      (∀ name, name ∉
          [("hello", Member.fn plainAction), ("secret", Member.ref (.num 1))].map Prod.fst →
        mapGet st2.props name = mapGet (partialStore "s") name) ∧
      (runPlugin 0 "s" (allocate "s" false createPinia) helloPlugin).pinia =
        ((helloPlugin.body "s" ((allocate "s" false createPinia).slice "s")).foldl
          (runEffect 0 "s")
          { allocate "s" false createPinia with
            log := (allocate "s" false createPinia).log ++ [.pluginRun helloPlugin.tag 0] }).pinia ∧
      (∀ env name f args w3 st3 r, w3.heap[0]? = some st3 →
        mapGet st3.props name = some (.fn f) →
        callAction env 0 name args w3 = some r →
        r.1.trace = w3.trace ∧ r.2 = (f (w3.slice st3.id) args).2) :=
  plugin_members_assigned_as_returned 0 "s" (allocate "s" false createPinia) helloPlugin
    [("hello", .fn plainAction), ("secret", .ref (.num 1))]
    { id := "s", isOption := false, props := partialStore "s", disposed := false,
      onActionArray := [] }
    rfl (by decide) rfl

/-! ### The construction log (createPinia.js:18-22, defineStore.js:54-76, 187-193) -/

theorem pluginRuns_append (l1 l2 : List BuildEvent) :
    pluginRuns (l1 ++ l2) = pluginRuns l1 ++ pluginRuns l2 :=
  List.filterMap_append _ _ _

theorem pluginRuns_map (plugins : List Plugin) (addr : Nat) :
    pluginRuns (plugins.map fun p => BuildEvent.pluginRun p.tag addr) =
      plugins.map fun p => (p.tag, addr) := by
  induction plugins with
  | nil => rfl
  | cons p rest ih =>
    show (p.tag, addr) :: pluginRuns (rest.map fun p => BuildEvent.pluginRun p.tag addr) = _
    rw [ih]
    rfl

theorem runEffect_log (addr : Nat) (id : String) (w : World) (e : PluginEffect) :
    (runEffect addr id w e).log = w.log := by
  cases e <;> rfl

theorem foldl_runEffect_log (addr : Nat) (id : String) (effects : List PluginEffect) :
    ∀ w : World, (effects.foldl (runEffect addr id) w).log = w.log := by
  induction effects with
  | nil => intro w; rfl
  | cons e rest ih =>
    intro w
    rw [List.foldl_cons, ih, runEffect_log]

theorem runPlugin_log (addr : Nat) (id : String) (w : World) (plugin : Plugin) :
    (runPlugin addr id w plugin).log = w.log ++ [.pluginRun plugin.tag addr] := by
  unfold runPlugin
  cases plugin.extender with
  | none => exact foldl_runEffect_log addr id _ _
  | some members =>
    show (List.foldl (runEffect addr id) _ _).log = _
    exact foldl_runEffect_log addr id _ _

theorem foldl_runPlugin_log (addr : Nat) (id : String) (plugins : List Plugin) :
    ∀ w : World, (plugins.foldl (runPlugin addr id) w).log =
      w.log ++ plugins.map fun p => BuildEvent.pluginRun p.tag addr := by
  induction plugins with
  | nil => intro w; simp
  | cons p rest ih =>
    intro w
    rw [List.foldl_cons, ih, runPlugin_log]
    simp

/-- The plugin loop is all that `assemble` adds to the log: one entry per registered plugin,
in the order of the plugin list, each with the address of the store under construction. -/
theorem assemble_log (id : String) (addr : Nat) (isOption : Bool)
    (setupStore : List (String × Member)) (w : World) :
    (assemble id addr isOption setupStore w).log =
      w.log ++ w.pinia._p.map fun p => BuildEvent.pluginRun p.tag addr := by
  have hp : (defineStateAccessor addr
      (linkState id isOption setupStore (ensureSlice id isOption w))).pinia._p = w.pinia._p := by
    show (ensureSlice id isOption w).pinia._p = _
    unfold ensureSlice; split <;> rfl
  have hl : (defineStateAccessor addr
      (linkState id isOption setupStore (ensureSlice id isOption w))).log = w.log := by
    show (ensureSlice id isOption w).log = _
    unfold ensureSlice; split <;> rfl
  show (runPlugins addr id (defineStateAccessor addr
    (linkState id isOption setupStore (ensureSlice id isOption w)))).log = _
  unfold runPlugins
  rw [foldl_runPlugin_log, hp, hl]

/-- The log and the heap after `createSetupStore`, for a setup function that allocates no
store and runs no plugin. -/
theorem createSetupStore_log (id : String) (setup : SetupFn) (isOption : Bool) (w : World)
    (hheap : (setup (allocate id isOption w)).1.heap.length = w.heap.length + 1)
    (hlog : pluginRuns (setup (allocate id isOption w)).1.log = pluginRuns w.log)
    (hp : (setup (allocate id isOption w)).1.pinia._p = w.pinia._p) :
    (createSetupStore id setup isOption w).1.heap.length = w.heap.length + 1 ∧
    ((createSetupStore id setup isOption w).2 = none →
      pluginRuns (createSetupStore id setup isOption w).1.log = pluginRuns w.log) ∧
    (∀ a, (createSetupStore id setup isOption w).2 = some a →
      pluginRuns (createSetupStore id setup isOption w).1.log =
        pluginRuns w.log ++ w.pinia._p.map fun p => (p.tag, w.heap.length)) := by
  cases hs : (setup (allocate id isOption w)).2 with
  | none =>
    simp only [createSetupStore, hs]
    exact ⟨hheap, fun _ => hlog, fun a ha => by cases ha⟩
  | some bundle =>
    simp only [createSetupStore, hs]
    refine ⟨?_, ?_, ?_⟩
    · rw [(assemble_spec id w.heap.length isOption bundle _).2.2.1]
      exact hheap
    · intro h
      cases h
    · intro a _
      rw [assemble_log, pluginRuns_append, pluginRuns_map, hlog, hp]

theorem optionsSetup_log (id : String) (o : Options) (w : World) :
    pluginRuns (optionsSetup id o w).1.log = pluginRuns w.log := by
  unfold optionsSetup
  cases hs : o.state <;> cases hg : o.getters <;> simp [pluginRuns, List.filterMap_append]

theorem build_log (d : StoreDef) (w : World) :
    w.heap.length ≤ (if d.isSetupStore then createSetupStore d.id d.setup.call false w
      else createOpinionStore d.id d.options w).1.heap.length ∧
    ((if d.isSetupStore then createSetupStore d.id d.setup.call false w
      else createOpinionStore d.id d.options w).2 = none →
      pluginRuns (if d.isSetupStore then createSetupStore d.id d.setup.call false w
        else createOpinionStore d.id d.options w).1.log = pluginRuns w.log) ∧
    (∀ a, (if d.isSetupStore then createSetupStore d.id d.setup.call false w
      else createOpinionStore d.id d.options w).2 = some a →
      (if d.isSetupStore then createSetupStore d.id d.setup.call false w
        else createOpinionStore d.id d.options w).1.heap.length = w.heap.length + 1 ∧
      pluginRuns (if d.isSetupStore then createSetupStore d.id d.setup.call false w
        else createOpinionStore d.id d.options w).1.log =
        pluginRuns w.log ++ w.pinia._p.map fun p => (p.tag, w.heap.length)) := by
  have hal : ∀ (id : String) (isOption : Bool),
      (allocate id isOption w).heap.length = w.heap.length + 1 ∧
      pluginRuns (allocate id isOption w).log = pluginRuns w.log := by
    intro id isOption
    constructor
    · simp [allocate]
    · simp [allocate, pluginRuns, List.filterMap_append]
  cases hsetup : d.isSetupStore with
  | true =>
    simp only [if_true]
    have hc : (d.setup.call (allocate d.id false w)).1 = allocate d.id false w := by
      cases d.setup <;> rfl
    obtain ⟨c1, c2, c3⟩ := createSetupStore_log d.id d.setup.call false w
      (by rw [hc]; exact (hal _ _).1) (by rw [hc]; exact (hal _ _).2) (by rw [hc]; rfl)
    exact ⟨by omega, c2, fun a ha => ⟨c1, c3 a ha⟩⟩
  | false =>
    simp only [Bool.false_eq_true, if_false]
    cases hd : d.options.destructure with
    | none =>
      simp [createOpinionStore, hd]
    | some o =>
      obtain ⟨o1, o2, o3, _⟩ := optionsSetup_world d.id o (allocate d.id true w)
      obtain ⟨c1, c2, c3⟩ := createSetupStore_log d.id (optionsSetup d.id o) true w
        (by rw [o3]; exact (hal _ _).1)
        (by rw [optionsSetup_log]; exact (hal _ _).2) (by rw [o2]; rfl)
      cases hs : (createSetupStore d.id (optionsSetup d.id o) true w).2 with
      | none =>
        simp only [createOpinionStore, hd, hs]
        exact ⟨by omega, fun _ => c2 hs, fun a ha => by cases ha⟩
      | some addr =>
        simp only [createOpinionStore, hd, hs]
        refine ⟨?_, ?_, ?_⟩
        · show _ ≤ (List.modify _ _ _).length
          rw [List.length_modify]
          omega
        · intro h
          cases h
        · intro a _
          refine ⟨?_, c3 addr hs⟩
          show (List.modify _ _ _).length = _
          rw [List.length_modify]
          exact c1

/-- What an operation adds to the plugin invocations of the log: nothing, or invocations
for a store object allocated by this operation. -/
theorem step_log (env : SubscriberEnv) (w : World) (s : Step) :
    w.heap.length ≤ (step env w s).heap.length ∧
    ∃ extra : List Plugin,
      pluginRuns (step env w s).log =
        pluginRuns w.log ++ extra.map (fun p => (p.tag, w.heap.length)) ∧
      (extra = [] ∨ w.heap.length < (step env w s).heap.length) := by
  have hsame : ∀ w2 : World, w2.heap.length = w.heap.length → w2.log = w.log →
      w.heap.length ≤ w2.heap.length ∧
      ∃ extra : List Plugin,
        pluginRuns w2.log = pluginRuns w.log ++ extra.map (fun p => (p.tag, w.heap.length)) ∧
        (extra = [] ∨ w.heap.length < w2.heap.length) := by
    intro w2 h1 h2
    exact ⟨by omega, [], by simp [h2], Or.inl rfl⟩
  cases s with
  | usePlugin p => exact hsame _ rfl rfl
  | useStore d =>
    show _ ≤ (useStore d w).1.heap.length ∧ _
    by_cases h : mapHas w.pinia._s d.id = true
    · have hu : (useStore d w).1 = w := by rw [useStore_of_mapHas d w h]
      show _ ≤ (useStore d w).1.heap.length ∧ ∃ extra : List Plugin,
        pluginRuns (useStore d w).1.log = _ ∧ (_ ∨ _ < (useStore d w).1.heap.length)
      rw [hu]
      exact hsame w rfl rfl
    · have h2 : mapHas w.pinia._s d.id = false := by simpa using h
      obtain ⟨b1, b2, b3⟩ := build_log d w
      show _ ≤ (useStore d w).1.heap.length ∧ ∃ extra : List Plugin,
        pluginRuns (useStore d w).1.log = _ ∧ (_ ∨ _ < (useStore d w).1.heap.length)
      rw [useStore_eq_build d w h2]
      refine ⟨b1, ?_⟩
      cases hb : (if d.isSetupStore then createSetupStore d.id d.setup.call false w
          else createOpinionStore d.id d.options w).2 with
      | none => exact ⟨[], by simp [b2 hb], Or.inl rfl⟩
      | some a =>
        obtain ⟨c1, c2⟩ := b3 a hb
        exact ⟨w.pinia._p, c2, Or.inr (by omega)⟩
  | patch addr arg =>
    simp only [step]
    split
    · exact hsame _ rfl rfl
    · exact hsame _ rfl rfl
  | assignState addr state =>
    simp only [step]
    split
    · exact hsame _ rfl rfl
    · exact hsame _ rfl rfl
  | onAction addr callback => exact hsame _ (List.length_modify _ _ _) rfl
  | offAction addr callback => exact hsame _ (List.length_modify _ _ _) rfl
  | action addr name args =>
    have hf := step_frame env w (.action addr name args) (fun p e => by cases e)
      (fun d e => by cases e) (fun a e => by cases e)
    refine hsame _ hf.2.2.1 ?_
    simp only [step]
    split
    · next r hr =>
      unfold callAction at hr
      split at hr
      · cases hr
      · split at hr
        · split at hr
          · simp only [Option.some.injEq] at hr
            subst hr
            rfl
          · simp only [Option.some.injEq] at hr
            subst hr
            rfl
          · cases hr
        · cases hr
    · rfl
  | dispose addr =>
    refine hsame _ (dispose_spec addr w).2.2.1 ?_
    show (dispose addr w).log = w.log
    unfold dispose
    cases w.heap[addr]? <;> rfl

theorem filter_store_map_self (plugins : List Plugin) (a : Nat) :
    (plugins.map fun p => (p.tag, a)).filter (fun e => e.2 == a) =
      plugins.map fun p => (p.tag, a) := by
  rw [List.filter_eq_self]
  intro e he
  obtain ⟨p, _, rfl⟩ := List.mem_map.1 he
  simp

theorem filter_store_map_ne (plugins : List Plugin) (a b : Nat) (h : b ≠ a) :
    (plugins.map fun p => (p.tag, b)).filter (fun e => e.2 == a) = [] := by
  rw [List.filter_eq_nil_iff]
  intro e he
  obtain ⟨p, _, rfl⟩ := List.mem_map.1 he
  simpa using h

/-- Every plugin invocation of the log is for a store object on the heap, and an operation
adds no invocation for a store object that is already there. -/
theorem step_runs (env : SubscriberEnv) (w : World) (s : Step)
    (hinv : ∀ e ∈ pluginRuns w.log, e.2 < w.heap.length) :
    (∀ e ∈ pluginRuns (step env w s).log, e.2 < (step env w s).heap.length) ∧
    ∀ a, a < w.heap.length →
      (pluginRuns (step env w s).log).filter (fun e => e.2 == a) =
        (pluginRuns w.log).filter (fun e => e.2 == a) := by
  obtain ⟨hle, extra, hlog, hex⟩ := step_log env w s
  constructor
  · intro e he
    rw [hlog] at he
    rcases List.mem_append.1 he with h | h
    · exact Nat.lt_of_lt_of_le (hinv e h) hle
    · rcases hex with h0 | h0
      · subst h0
        cases h
      · obtain ⟨p, _, rfl⟩ := List.mem_map.1 h
        exact h0
  · intro a ha
    rw [hlog, List.filter_append, filter_store_map_ne extra a w.heap.length (by omega)]
    simp

theorem foldl_step_runs (env : SubscriberEnv) (steps : List Step) :
    ∀ w : World, (∀ e ∈ pluginRuns w.log, e.2 < w.heap.length) →
      (∀ e ∈ pluginRuns (steps.foldl (step env) w).log,
        e.2 < (steps.foldl (step env) w).heap.length) ∧
      ∀ a, a < w.heap.length →
        (pluginRuns (steps.foldl (step env) w).log).filter (fun e => e.2 == a) =
          (pluginRuns w.log).filter (fun e => e.2 == a) := by
  induction steps with
  | nil => intro w hinv; exact ⟨hinv, fun _ _ => rfl⟩
  | cons s rest ih =>
    intro w hinv
    obtain ⟨h1, h2⟩ := step_runs env w s hinv
    obtain ⟨h3, h4⟩ := ih (step env w s) h1
    refine ⟨h3, fun a ha => ?_⟩
    rw [List.foldl_cons, h4 a (Nat.lt_of_lt_of_le ha (step_log env w s).1), h2 a ha]

theorem step_plugins (env : SubscriberEnv) (w : World) (s : Step) :
    (step env w s).pinia._p = w.pinia._p ++ registeredPlugins [s] := by
  by_cases hp : ∃ p, s = .usePlugin p
  · obtain ⟨p, rfl⟩ := hp
    rfl
  have hr : registeredPlugins [s] = [] := by
    cases s with
    | usePlugin p => exact absurd ⟨p, rfl⟩ hp
    | _ => rfl
  rw [hr, List.append_nil]
  by_cases hu : ∃ d, s = .useStore d
  · obtain ⟨d, rfl⟩ := hu
    show (useStore d w).1.pinia._p = _
    by_cases h : mapHas w.pinia._s d.id = true
    · rw [useStore_of_mapHas d w h]
    · rw [useStore_eq_build d w (by simpa using h)]
      exact (build_spec d w).2.1
  by_cases hd : ∃ a, s = .dispose a
  · obtain ⟨a, rfl⟩ := hd
    exact (dispose_spec a w).2.1
  exact (step_frame env w s (fun p e => hp ⟨p, e⟩) (fun d e => hu ⟨d, e⟩)
    (fun a e => hd ⟨a, e⟩)).2.1

theorem foldl_step_plugins (env : SubscriberEnv) (steps : List Step) :
    ∀ w : World, (steps.foldl (step env) w).pinia._p = w.pinia._p ++ registeredPlugins steps := by
  induction steps with
  | nil => intro w; simp [registeredPlugins]
  | cons s rest ih =>
    intro w
    rw [List.foldl_cons, ih, step_plugins, List.append_assoc]
    congr 1
    exact (List.filterMap_append [s] rest _).symm

/-- C14: `use(plugin)` appends the plugin to the end of the plugin list and leaves the rest
of the registry as it is, so the plugin list is the list of the plugins of the `use` calls,
in their order.  When an accessor call first constructs a store, at address `a`, then
whatever operations follow (further `use` calls among them), the plugin invocations for
that store in the log are one per plugin registered before the construction, in
registration order, and no other. -/
theorem plugins_run_once_at_first_build (env : SubscriberEnv) (steps later : List Step)
    (d : StoreDef) (a : Nat)
    (hnew : mapHas (run env steps).pinia._s d.id = false)
    (hbuilt : (useStore d (run env steps)).2 = some a) :
    (∀ plugin w, (use plugin w).pinia._p = w.pinia._p ++ [plugin] ∧
      (use plugin w).pinia._s = w.pinia._s ∧ (use plugin w).pinia.state = w.pinia.state ∧
      (use plugin w).heap = w.heap ∧ (use plugin w).log = w.log) ∧
    (run env steps).pinia._p = registeredPlugins steps ∧
    a = (run env steps).heap.length ∧
    (pluginRuns (run env (steps ++ .useStore d :: later)).log).filter (fun e => e.2 == a) =
      (registeredPlugins steps).map (fun p => (p.tag, a)) := by
  have hinv : ∀ e ∈ pluginRuns (run env steps).log, e.2 < (run env steps).heap.length :=
    (foldl_step_runs env steps createPinia (fun e he => by cases he)).1
  have hp : (run env steps).pinia._p = registeredPlugins steps := by
    show (steps.foldl (step env) createPinia).pinia._p = _
    rw [foldl_step_plugins]
    rfl
  have hb := hbuilt
  rw [useStore_eq_build d _ hnew] at hb
  obtain ⟨_, _, b3⟩ := build_log d (run env steps)
  obtain ⟨c1, c2⟩ := b3 a hb
  have ha : a = (run env steps).heap.length := ((build_spec d (run env steps)).2.2.2 a hb).1
  rw [← useStore_eq_build d _ hnew] at c1 c2
  refine ⟨fun plugin w => ⟨rfl, rfl, rfl, rfl, rfl⟩, hp, ha, ?_⟩
  have hrun : run env (steps ++ .useStore d :: later) =
      later.foldl (step env) (useStore d (run env steps)).1 := by
    show List.foldl (step env) createPinia _ = _
    rw [List.foldl_append]
    rfl
  have hinv1 := (step_runs env (run env steps) (.useStore d) hinv).1
  have hlater := (foldl_step_runs env later (useStore d (run env steps)).1 hinv1).2 a
    (by rw [c1, ha]; exact Nat.lt_succ_self _)
  rw [hrun, hlater, c2, List.filter_append, ← ha, filter_store_map_self, hp]
  have hold : (pluginRuns (run env steps).log).filter (fun e => e.2 == a) = [] := by
    rw [List.filter_eq_nil_iff]
    intro e he
    have := hinv e he
    simp only [beq_iff_eq]
    omega
  rw [hold, List.nil_append]

theorem plugins_run_once_at_first_build_witness :
    mapHas (run envExample [.usePlugin snapshotPlugin, .usePlugin listenerPlugin]).pinia._s
      useCounter1.id = false ∧
    (useStore useCounter1
      (run envExample [.usePlugin snapshotPlugin, .usePlugin listenerPlugin])).2 = some 0 ∧
    ((∀ plugin w, (use plugin w).pinia._p = w.pinia._p ++ [plugin] ∧
      (use plugin w).pinia._s = w.pinia._s ∧ (use plugin w).pinia.state = w.pinia.state ∧
      (use plugin w).heap = w.heap ∧ (use plugin w).log = w.log) ∧
    (run envExample [.usePlugin snapshotPlugin, .usePlugin listenerPlugin]).pinia._p =
      registeredPlugins [.usePlugin snapshotPlugin, .usePlugin listenerPlugin] ∧
    0 = (run envExample [.usePlugin snapshotPlugin, .usePlugin listenerPlugin]).heap.length ∧
    (pluginRuns (run envExample ([.usePlugin snapshotPlugin, .usePlugin listenerPlugin] ++
        .useStore useCounter1 ::
          [.usePlugin helloPlugin, .action 0 "increment" [], .useStore useCounter1])).log).filter
        (fun e => e.2 == 0) =
      (registeredPlugins [.usePlugin snapshotPlugin, .usePlugin listenerPlugin]).map
        (fun p => (p.tag, 0))) :=
  ⟨by decide, by decide,
    plugins_run_once_at_first_build envExample
      [.usePlugin snapshotPlugin, .usePlugin listenerPlugin]
      [.usePlugin helloPlugin, .action 0 "increment" [], .useStore useCounter1]
      useCounter1 0 (by decide) (by decide)⟩

/-- Every store built from options has the `$reset` that `createOpinionStore` defines from
the option `state`. -/
theorem createOpinionStore_reset (id : String) (o : Options) (w : World) (a : Nat)
    (h : (createOpinionStore id (.options o) w).2 = some a) :
    ∃ st, (createOpinionStore id (.options o) w).1.heap[a]? = some st ∧
      mapGet st.props "$reset" = some (.resetFn o.state) := by
  obtain ⟨_, o2, o3, _⟩ := optionsSetup_world id o (allocate id true w)
  obtain ⟨c1, _, _⟩ := createSetupStore_log id (optionsSetup id o) true w
    (by rw [o3]; simp [allocate])
    (by rw [optionsSetup_log]; simp [allocate, pluginRuns, List.filterMap_append])
    (by rw [o2]; rfl)
  cases hs : (createSetupStore id (optionsSetup id o) true w).2 with
  | none =>
    simp [createOpinionStore, SetupArg.destructure, hs] at h
  | some addr =>
    simp only [createOpinionStore, SetupArg.destructure, hs, Option.some.injEq] at h ⊢
    subst h
    have haddr : addr = w.heap.length := by
      cases hr : (optionsSetup id o (allocate id true w)).2 with
      | none => simp [createSetupStore, hr] at hs
      | some bundle =>
        simp only [createSetupStore, hr, Option.some.injEq] at hs
        exact hs.symm
    have hlt : addr < (createSetupStore id (optionsSetup id o) true w).1.heap.length := by
      rw [c1, haddr]
      exact Nat.lt_succ_self _
    have hget : (updateStore addr
        (fun st => { st with props := mapSet st.props "$reset" (.resetFn o.state) })
        (createSetupStore id (optionsSetup id o) true w).1).heap[addr]? =
        some { (createSetupStore id (optionsSetup id o) true w).1.heap[addr] with
          props := mapSet (createSetupStore id (optionsSetup id o) true w).1.heap[addr].props
            "$reset" (.resetFn o.state) } := by
      rw [heap_updateStore, List.getElem?_eq_getElem hlt]
      simp only [Option.map_some', if_true]
    exact ⟨_, hget, mapGet_mapSet_self _ _ _⟩

/-! ### The store `counter1` end to end (store/counter1.js) -/

theorem roundDouble_of_le (m : Int) (h : m.natAbs ≤ 2 ^ 53) : roundDouble m = .num m := by
  unfold roundDouble
  rw [if_pos h]

theorem plusOne_num_of_lt (k : Nat) (h : k < 2 ^ 53) :
    plusOne (.num k) = .num ((k + 1 : Nat) : Int) := by
  show roundDouble ((k : Int) + 1) = _
  rw [roundDouble_of_le _ (by omega)]
  rfl

theorem plusOne_num_top : plusOne (.num ((2 ^ 53 : Nat) : Int)) = .num ((2 ^ 53 : Nat) : Int) := by
  decide

theorem timesTwo_num_of_le (k : Nat) (h : k ≤ 2 ^ 53) :
    timesTwo (.num k) = .num ((2 * k : Nat) : Int) := by
  show roundDouble ((k : Int) * 2) = _
  have hcast : (k : Int) * 2 = ((2 * k : Nat) : Int) := by push_cast; ring
  rw [hcast]
  by_cases h1 : 2 * k ≤ 2 ^ 53
  · exact roundDouble_of_le _ (by simpa using h1)
  · by_cases h2 : k = 2 ^ 53
    · subst h2
      decide
    · have hlt : 2 * k < 2 ^ (53 + 1) := by omega
      have he : exponentOf 1024 (2 * k) 1 = 1 := by
        show (if 2 * k < 2 ^ (53 + 1) then 1 else _) = 1
        rw [if_pos hlt]
      have hneg : ¬ ((2 * k : Nat) : Int) < 0 := by omega
      unfold roundDouble
      rw [Int.natAbs_ofNat, if_neg h1]
      simp only [he, hneg, if_false]
      have hq : 2 * k / 2 ^ 1 = k := by omega
      have hr : 2 * k % 2 ^ 1 = 0 := by omega
      rw [hq, hr]
      simp
      omega

theorem increment_counterState_of_lt (k : Nat) (h : k < 2 ^ 53) (args : List JsVal) :
    (increment (counterState k) args).1 = counterState (k + 1) := by
  simp [increment, incrementField, counterState, Fields.get, Fields.set, plusOne_num_of_lt k h]

theorem increment_counterState_top (args : List JsVal) :
    (increment (counterState (2 ^ 53)) args).1 = counterState (2 ^ 53) := by
  simp only [increment, incrementField, counterState, Fields.get, Fields.set, if_true,
    plusOne_num_top]
  decide

theorem step_increment (env : SubscriberEnv) (slice : Fields) (tr : List Event) :
    step env (counter1World slice tr) (.action 0 "increment" []) =
      counter1World (increment slice []).1 (tr ++ [.actionRun "increment" []]) :=
  rfl

theorem foldl_increment (env : SubscriberEnv) (n : Nat) :
    ∀ (k : Nat) (tr : List Event), k ≤ 2 ^ 53 → ∃ tr2,
      (List.replicate n (Step.action 0 "increment" [])).foldl (step env)
          (counter1World (counterState k) tr) =
        counter1World (counterState (min (k + n) (2 ^ 53))) tr2 := by
  induction n with
  | zero =>
    intro k tr hk
    exact ⟨tr, by rw [Nat.add_zero, Nat.min_eq_left hk]; rfl⟩
  | succ n ih =>
    intro k tr hk
    rw [List.replicate_succ, List.foldl_cons, step_increment]
    by_cases hlt : k < 2 ^ 53
    · rw [increment_counterState_of_lt k hlt]
      obtain ⟨tr2, h⟩ := ih (k + 1) (tr ++ [.actionRun "increment" []]) hlt
      exact ⟨tr2, by rw [h, Nat.add_assoc, Nat.add_comm 1 n]⟩
    · have hk2 : k = 2 ^ 53 := by omega
      subst hk2
      rw [increment_counterState_top]
      obtain ⟨tr2, h⟩ := ih (2 ^ 53) (tr ++ [.actionRun "increment" []]) (Nat.le_refl _)
      refine ⟨tr2, ?_⟩
      rw [h, Nat.min_eq_right (Nat.le_add_right _ _), Nat.min_eq_right (Nat.le_add_right _ _)]

/-- The world after building `counter1` in a fresh registry and calling `increment()` `n`
times: the slice counts up to `2^53` and stays there. -/
theorem run_increments (env : SubscriberEnv) (n : Nat) :
    ∃ tr, run env (.useStore useCounter1 :: List.replicate n (.action 0 "increment" [])) =
      counter1World (counterState (min n (2 ^ 53))) tr := by
  obtain ⟨tr, h⟩ := foldl_increment env n 0 [] (Nat.zero_le _)
  refine ⟨tr, ?_⟩
  rw [Nat.zero_add] at h
  exact h

theorem readMember_counter1World (slice : Fields) (tr : List Event) :
    readMember (counter1World slice tr) 0 "count" = some (slice.get "count") ∧
    readMember (counter1World slice tr) 0 "testCount" = some (slice.get "testCount") ∧
    readMember (counter1World slice tr) 0 "double" = some (double slice) :=
  ⟨rfl, rfl, rfl⟩

theorem readMember_counterState (k : Nat) (hk : k ≤ 2 ^ 53) (tr : List Event) :
    readMember (counter1World (counterState k) tr) 0 "count" = some (.num k) ∧
    readMember (counter1World (counterState k) tr) 0 "testCount" = some (.num k) ∧
    readMember (counter1World (counterState k) tr) 0 "double" =
      some (.num ((2 * k : Nat) : Int)) := by
  obtain ⟨h1, h2, h3⟩ := readMember_counter1World (counterState k) tr
  refine ⟨h1, h2, ?_⟩
  rw [h3]
  show some (timesTwo (.num k)) = _
  rw [timesTwo_num_of_le k hk]

/-- C15 (counterexample): after `2^53 + 1` calls of `increment()` on the fresh `counter1`,
`count` is `2^53` = 9007199254740992 and not the number of calls: `this.count++` adds 1 in
double arithmetic, and `2^53 + 1` rounds to `2^53`. -/
theorem counter1_count_stops_at_2_53 :
    readMember (run envExample (.useStore useCounter1 ::
      List.replicate (2 ^ 53 + 1) (.action 0 "increment" []))) 0 "count" =
        some (.num ((2 ^ 53 : Nat) : Int)) ∧
    readMember (run envExample (.useStore useCounter1 ::
      List.replicate (2 ^ 53 + 1) (.action 0 "increment" []))) 0 "count" ≠
        some (.num ((2 ^ 53 + 1 : Nat) : Int)) := by
  obtain ⟨tr, h⟩ := run_increments envExample (2 ^ 53 + 1)
  rw [Nat.min_eq_right (Nat.le_add_right _ _)] at h
  have hc := (readMember_counterState (2 ^ 53) (Nat.le_refl _) tr).1
  rw [h, hc]
  exact ⟨rfl, by decide⟩

/-- C15 (amended): for the store `counter1` of store/counter1.js built in a fresh registry,
the accessor returns the store and the fresh store has `count === 0` and `double === 0`.
After `n` calls of `increment()` the store has `count === min(n, 2^53)`,
`testCount === min(n, 2^53)` and `double === 2 * min(n, 2^53)`: for every `n` up to `2^53`
that is `count === n`, `testCount === n` and `double === 2 * n`, and from `2^53` calls on
the counters stay at `2^53`. -/
theorem counter1_counts_up_to_2_53 (env : SubscriberEnv) (n : Nat) :
    (useStore useCounter1 createPinia).2 = some 0 ∧
    readMember (run env [.useStore useCounter1]) 0 "count" = some (.num 0) ∧
    readMember (run env [.useStore useCounter1]) 0 "double" = some (.num 0) ∧
    readMember (run env (.useStore useCounter1 ::
      List.replicate n (.action 0 "increment" []))) 0 "count" =
        some (.num ((min n (2 ^ 53) : Nat) : Int)) ∧
    readMember (run env (.useStore useCounter1 ::
      List.replicate n (.action 0 "increment" []))) 0 "testCount" =
        some (.num ((min n (2 ^ 53) : Nat) : Int)) ∧
    readMember (run env (.useStore useCounter1 ::
      List.replicate n (.action 0 "increment" []))) 0 "double" =
        some (.num ((2 * min n (2 ^ 53) : Nat) : Int)) ∧
    (n ≤ 2 ^ 53 →
      readMember (run env (.useStore useCounter1 ::
        List.replicate n (.action 0 "increment" []))) 0 "count" = some (.num n) ∧
      readMember (run env (.useStore useCounter1 ::
        List.replicate n (.action 0 "increment" []))) 0 "testCount" = some (.num n) ∧
      readMember (run env (.useStore useCounter1 ::
        List.replicate n (.action 0 "increment" []))) 0 "double" = some (.num (2 * n))) := by
  obtain ⟨tr, h⟩ := run_increments env n
  obtain ⟨h1, h2, h3⟩ := readMember_counterState (min n (2 ^ 53)) (Nat.min_le_right _ _) tr
  rw [h]
  refine ⟨rfl, rfl, rfl, h1, h2, h3, fun hn => ?_⟩
  rw [Nat.min_eq_left hn] at h1 h2 h3 ⊢
  refine ⟨h1, h2, ?_⟩
  rw [h3]
  push_cast
  rfl

/-- Witness for C15: three calls of `increment()` give `count === 3`, `testCount === 3`
and `double === 6`. -/
theorem counter1_counts_up_to_2_53_witness :
    readMember (run envExample (.useStore useCounter1 ::
      List.replicate 3 (.action 0 "increment" []))) 0 "count" = some (.num 3) ∧
    readMember (run envExample (.useStore useCounter1 ::
      List.replicate 3 (.action 0 "increment" []))) 0 "testCount" = some (.num 3) ∧
    readMember (run envExample (.useStore useCounter1 ::
      List.replicate 3 (.action 0 "increment" []))) 0 "double" = some (.num 6) :=
  (counter1_counts_up_to_2_53 envExample 3).2.2.2.2.2.2 (by decide)

end MyPinia
